import Mathlib

/-! # go-interview-practice: the submissions of YusovID

Shallow embeddings of five Go programs, each in the namespace of its challenge,
definitions first and theorems after them.

Bank account with error handling (challenge-7), in two namespaces.

* `Challenge7` reads `float64` amounts as exact rationals (`ℚ`).  It carries the
  statements that do not depend on how sums and differences are rounded: the
  floor invariant on exact amounts, what a failing call leaves, the error kinds
  of `Deposit`, the lock discipline, the interleavings of concurrent calls and
  the fields a method may assign.
* `Challenge7F` is the same program on `float64` values: the finite values
  `± mag * 2^(-1074)` with a magnitude of at most 53 significant binary digits
  below `2^1024`, the two infinities and one NaN; sums and differences are the
  exact results rounded to nearest, ties to even, and comparisons are false on
  NaN.  It carries the statements about the values that balances take.
* A `*BankAccount` is an address `Fin n` into a heap of `n` accounts, so that a
  method can be called with receiver and target being the same account.
* The mutex `mu` is not a field of the embedded record.  For one call run on its
  own, each `Lock`/`Unlock` and each evaluation or assignment of `Balance` is
  logged, in program order, in the `trace` of the call.  For several calls run
  by concurrent goroutines, the same steps are interleaved one at a time
  (sequential consistency), a mutex being owned by at most one goroutine.
* A Go `error` value is `Option AccError`, `none` being `nil`.

Binary search (challenge-21) and coin change (challenge-22).

* `int` values are unbounded integers: indices stay between `-1` and the length
  of the slice, and amounts only decrease, so no operation overflows on the
  inputs considered.
* A slice is a list; a slice access returns `none` for the index-out-of-range
  panic.
* The loops of challenge-21 are defined by well-founded recursion, which is
  their termination proof.  The loops of challenge-22 need not end, so they
  carry the number of tests of the loop condition they may still perform and
  return `none` when it is used up.

Word frequency (challenge-6).

* A string is the list of its characters; on ASCII text these are its bytes.
* `strings.ToLower`, `strings.ReplaceAll` and `regexp.Split` are modelled from
  their documented behaviour on ASCII text.
* A map is the list of its entries, with distinct keys.

String reversal (challenge-2).

* A string is the list of its bytes; a byte is a number below 256.
* An access to a string or a slice returns `none` for the index-out-of-range
  panic; the loop is defined by well-founded recursion.
-/

namespace Challenge7

/-- The record `BankAccount` (without its mutex, see the header). -/
structure BankAccount where
  ID : String
  Owner : String
  Balance : ℚ
  MinBalance : ℚ
  deriving DecidableEq

/-- The constant `MaxTransactionAmount = 10000.0`. -/
def MaxTransactionAmount : ℚ := 10000

/-- The four custom error types, with their fields. -/
inductive AccError where
  | AccountError (argName : String)
  | InsufficientFundsError (lesserArgName greaterArgName : String) (lesserArg greaterArg : ℚ)
  | NegativeAmountError (argName : String) (argValue : ℚ)
  | ExceedsLimitError (arg : ℚ)
  deriving DecidableEq

/-- The dynamic type of an error value. -/
inductive ErrKind where
  | account
  | insufficientFunds
  | negativeAmount
  | exceedsLimit
  deriving DecidableEq

/-- The dynamic type of an error value, as a type switch would see it. -/
def AccError.kind : AccError → ErrKind
  | .AccountError _ => .account
  | .InsufficientFundsError _ _ _ _ => .insufficientFunds
  | .NegativeAmountError _ _ => .negativeAmount
  | .ExceedsLimitError _ => .exceedsLimit

/-- The function `NewBankAccount`: the pair `(*BankAccount, error)` it returns. -/
def NewBankAccount (id owner : String) (initialBalance minBalance : ℚ) :
    Option BankAccount × Option AccError :=
  if id = "" then (none, some (.AccountError "id"))
  else if owner = "" then (none, some (.AccountError "owner"))
  else if initialBalance < 0 then
    (none, some (.NegativeAmountError "initial balance" initialBalance))
  else if minBalance < 0 then
    (none, some (.NegativeAmountError "minimal balance" minBalance))
  else if initialBalance < minBalance then
    (none, some (.InsufficientFundsError "initial balance" "minimal balance"
      initialBalance minBalance))
  else
    (some { ID := id, Owner := owner, Balance := initialBalance, MinBalance := minBalance },
      none)

/-- A heap of `n` accounts; a `*BankAccount` is an index into it. -/
abbrev Heap (n : Nat) := Fin n → BankAccount

/-- The observable steps of a method body on the shared state. -/
inductive Event (n : Nat) where
  | lock (p : Fin n)
  | unlock (p : Fin n)
  | readBalance (p : Fin n)
  | writeBalance (p : Fin n)
  deriving DecidableEq

/-- What a method call leaves behind: the heap, the returned `error`, and the
steps it performed. -/
structure Outcome (n : Nat) where
  heap : Heap n
  err : Option AccError
  trace : List (Event n)

/-- The assignment `p.Balance = v`. -/
def setBalance {n : Nat} (h : Heap n) (p : Fin n) (v : ℚ) : Heap n :=
  Function.update h p { h p with Balance := v }

/-- The method `(*BankAccount).Deposit` with receiver `a`. -/
def Deposit {n : Nat} (h : Heap n) (a : Fin n) (amount : ℚ) : Outcome n :=
  if amount < 0 then
    ⟨h, some (.NegativeAmountError "amount" amount), []⟩
  else if amount > MaxTransactionAmount then
    ⟨h, some (.ExceedsLimitError amount), []⟩
  else
    ⟨setBalance h a ((h a).Balance + amount), none,
      [.lock a, .readBalance a, .writeBalance a, .unlock a]⟩

/-- The method `(*BankAccount).Withdraw` with receiver `a`. -/
def Withdraw {n : Nat} (h : Heap n) (a : Fin n) (amount : ℚ) : Outcome n :=
  if amount < 0 then
    ⟨h, some (.NegativeAmountError "amount" amount), []⟩
  else if amount > MaxTransactionAmount then
    ⟨h, some (.ExceedsLimitError amount), []⟩
  else if (h a).Balance - amount < (h a).MinBalance then
    ⟨h, some (.InsufficientFundsError "balance - amount" "minimal balance"
        ((h a).Balance - amount) (h a).MinBalance),
      [.readBalance a, .readBalance a]⟩
  else
    ⟨setBalance h a ((h a).Balance - amount), none,
      [.readBalance a, .lock a, .readBalance a, .writeBalance a, .unlock a]⟩

/-- The method `(*BankAccount).Transfer` with receiver `a`.  The credit reads the
target after the debit has been stored, so `target = a` is covered. -/
def Transfer {n : Nat} (h : Heap n) (a : Fin n) (amount : ℚ) (target : Fin n) : Outcome n :=
  if amount < 0 then
    ⟨h, some (.NegativeAmountError "amount" amount), []⟩
  else if amount > MaxTransactionAmount then
    ⟨h, some (.ExceedsLimitError amount), []⟩
  else if (h a).Balance - amount < (h a).MinBalance then
    ⟨h, some (.InsufficientFundsError "balance - amount" "minimal balance"
        ((h a).Balance - amount) (h a).MinBalance),
      [.readBalance a, .readBalance a]⟩
  else
    let h1 := setBalance h a ((h a).Balance - amount)
    let h2 := setBalance h1 target ((h1 target).Balance + amount)
    ⟨h2, none,
      [.readBalance a, .lock a, .readBalance a, .writeBalance a, .unlock a,
       .lock target, .readBalance target, .writeBalance target, .unlock target]⟩

/-- One method call of a client program. -/
inductive Call (n : Nat) where
  | deposit (a : Fin n) (amount : ℚ)
  | withdraw (a : Fin n) (amount : ℚ)
  | transfer (a : Fin n) (amount : ℚ) (target : Fin n)

/-- Performing one call. -/
def Call.exec {n : Nat} (h : Heap n) : Call n → Outcome n
  | .deposit a amount => Deposit h a amount
  | .withdraw a amount => Withdraw h a amount
  | .transfer a amount target => Transfer h a amount target

/-- The heap after a sequence of calls, performed one after the other whatever
each one returns. -/
def run {n : Nat} (h : Heap n) : List (Call n) → Heap n
  | [] => h
  | c :: cs => run (c.exec h).heap cs

/-- An account value that some successful `NewBankAccount` call returns. -/
def Created (acc : BankAccount) : Prop :=
  ∃ id owner initialBalance minBalance,
    NewBankAccount id owner initialBalance minBalance = (some acc, none)

/-- The floor invariant of one account. -/
def FloorInv (acc : BankAccount) : Prop :=
  acc.MinBalance ≤ acc.Balance ∧ 0 ≤ acc.MinBalance

/-- Whether a trace respects the mutexes: starting with the locks in `held`
taken, no lock is taken while it is held and only a held lock is released. -/
def lockSafe {n : Nat} : List (Fin n) → List (Event n) → Bool
  | _, [] => true
  | held, .lock p :: es => !held.contains p && lockSafe (p :: held) es
  | held, .unlock p :: es => held.contains p && lockSafe (held.erase p) es
  | held, .readBalance _ :: es => lockSafe held es
  | held, .writeBalance _ :: es => lockSafe held es

/-- Whether a trace only evaluates balances: it takes or releases no mutex and
assigns no balance. -/
def readsOnly {n : Nat} : List (Event n) → Bool
  | [] => true
  | .readBalance _ :: es => readsOnly es
  | _ :: _ => false

/-- Alice and Bob, the accounts of the worked scenarios. -/
def heapAB : Heap 2 := fun i =>
  if i = 0 then { ID := "A", Owner := "Alice", Balance := 100, MinBalance := 0 }
  else { ID := "B", Owner := "Bob", Balance := 10, MinBalance := 0 }

/-- The account of scenario 1 after its deposit: balance 150, floor 10. -/
def heapA1 : Heap 1 := fun _ =>
  { ID := "A1", Owner := "Alice", Balance := 150, MinBalance := 10 }

/-! ### Lock discipline of one call, read off its trace -/

/-- The accounts whose mutex a trace takes, in the order it takes them. -/
def lockOrder {n : Nat} : List (Event n) → List (Fin n)
  | [] => []
  | .lock p :: es => p :: lockOrder es
  | _ :: es => lockOrder es

/-- The greatest number of mutexes held at once along a trace that starts with
the mutexes in `held` taken. -/
def maxHeld {n : Nat} : List (Fin n) → List (Event n) → Nat
  | held, [] => held.length
  | held, .lock p :: es => max held.length (maxHeld (p :: held) es)
  | held, .unlock p :: es => max held.length (maxHeld (held.erase p) es)
  | held, .readBalance _ :: es => maxHeld held es
  | held, .writeBalance _ :: es => maxHeld held es

/-- Whether every evaluation and every assignment of a balance along the trace
happens while all the mutexes in `need` are held. -/
def accessesUnder {n : Nat} (need : List (Fin n)) : List (Fin n) → List (Event n) → Bool
  | _, [] => true
  | held, .lock p :: es => accessesUnder need (p :: held) es
  | held, .unlock p :: es => accessesUnder need (held.erase p) es
  | held, .readBalance _ :: es => need.all held.contains && accessesUnder need held es
  | held, .writeBalance _ :: es => need.all held.contains && accessesUnder need held es

/-- Whether every evaluation and every assignment of a balance along the trace
happens while the mutex of the account concerned is held. -/
def accessesLocked {n : Nat} : List (Fin n) → List (Event n) → Bool
  | _, [] => true
  | held, .lock p :: es => accessesLocked (p :: held) es
  | held, .unlock p :: es => accessesLocked (held.erase p) es
  | held, .readBalance p :: es => held.contains p && accessesLocked held es
  | held, .writeBalance p :: es => held.contains p && accessesLocked held es

/-- Whether every assignment of a balance along the trace happens while the
mutex of the account assigned is held. -/
def writesLocked {n : Nat} : List (Fin n) → List (Event n) → Bool
  | _, [] => true
  | held, .lock p :: es => writesLocked (p :: held) es
  | held, .unlock p :: es => writesLocked (held.erase p) es
  | held, .readBalance _ :: es => writesLocked held es
  | held, .writeBalance p :: es => held.contains p && writesLocked held es

/-- The mutex acquisition order that ordering by identifier prescribes for a
transfer between `a` and `b`: the account with the lower `ID` first. -/
def idOrder {n : Nat} (h : Heap n) (a b : Fin n) : List (Fin n) :=
  if (h a).ID ≤ (h b).ID then [a, b] else [b, a]

/-! ### Concurrent calls

Several goroutines, each running one method call, interleaved at the grain of
the steps that touch shared state.  A method body is the list of its steps
after the tests on `amount`, which touch no shared state; `a.Balance op= v` is
a load of the balance followed by a store of the loaded value changed by `v`. -/

/-- One step of a method body on the shared state. -/
inductive Instr (n : Nat) where
  | check (p : Fin n) (amount : ℚ)
  | lock (p : Fin n)
  | load (p : Fin n)
  | store (p : Fin n) (d : ℚ)
  | unlock (p : Fin n)
  deriving DecidableEq

/-- The statements `p.mu.Lock(); p.Balance += d; p.mu.Unlock()`. -/
def critical {n : Nat} (p : Fin n) (d : ℚ) : List (Instr n) :=
  [.lock p, .load p, .store p d, .unlock p]

/-- The steps of `a.Deposit(amount)`. -/
def DepositCode {n : Nat} (a : Fin n) (amount : ℚ) : List (Instr n) :=
  if amount < 0 then []
  else if amount > MaxTransactionAmount then []
  else critical a amount

/-- The steps of `a.Withdraw(amount)`. -/
def WithdrawCode {n : Nat} (a : Fin n) (amount : ℚ) : List (Instr n) :=
  if amount < 0 then []
  else if amount > MaxTransactionAmount then []
  else .check a amount :: critical a (-amount)

/-- The steps of `a.Transfer(amount, target)`. -/
def TransferCode {n : Nat} (a : Fin n) (amount : ℚ) (target : Fin n) : List (Instr n) :=
  if amount < 0 then []
  else if amount > MaxTransactionAmount then []
  else .check a amount :: (critical a (-amount) ++ critical target amount)

/-- The steps of a call. -/
def Call.code {n : Nat} : Call n → List (Instr n)
  | .deposit a amount => DepositCode a amount
  | .withdraw a amount => WithdrawCode a amount
  | .transfer a amount target => TransferCode a amount target

/-- A goroutine inside a call: the steps it has left and the balance it last
loaded. -/
structure Thread (n : Nat) where
  code : List (Instr n)
  tmp : ℚ

/-- The shared state and `m` goroutines; `owner p` is the goroutine holding the
mutex of account `p`, if any. -/
structure World (n m : Nat) where
  heap : Heap n
  owner : Fin n → Option (Fin m)
  threads : Fin m → Thread n

/-- Goroutine `t` performs its next step; `none` when it has returned or cannot
proceed (`Lock` on a mutex that is held; `Unlock` of a mutex it does not hold).
A failing floor test leaves only the evaluation of `p.Balance` for the error
value before the return. -/
def step {n m : Nat} (w : World n m) (t : Fin m) : Option (World n m) :=
  match (w.threads t).code with
  | [] => none
  | .check p amount :: rest =>
    if (w.heap p).Balance - amount < (w.heap p).MinBalance then
      some { w with threads := Function.update w.threads t ⟨[.load p], (w.threads t).tmp⟩ }
    else
      some { w with threads := Function.update w.threads t ⟨rest, (w.threads t).tmp⟩ }
  | .lock p :: rest =>
    if w.owner p = none then
      some { w with
        owner := Function.update w.owner p (some t)
        threads := Function.update w.threads t ⟨rest, (w.threads t).tmp⟩ }
    else none
  | .load p :: rest =>
    some { w with threads := Function.update w.threads t ⟨rest, (w.heap p).Balance⟩ }
  | .store p d :: rest =>
    some { w with
      heap := setBalance w.heap p ((w.threads t).tmp + d)
      threads := Function.update w.threads t ⟨rest, (w.threads t).tmp⟩ }
  | .unlock p :: rest =>
    if w.owner p = some t then
      some { w with
        owner := Function.update w.owner p none
        threads := Function.update w.threads t ⟨rest, (w.threads t).tmp⟩ }
    else none

/-- Performing a schedule: the goroutines named in the list take one step each,
in that order; `none` when a goroutine is scheduled that cannot step. -/
def sched {n m : Nat} (w : World n m) : List (Fin m) → Option (World n m)
  | [] => some w
  | t :: ts =>
    match step w t with
    | none => none
    | some w' => sched w' ts

/-- The state in which goroutine `t` is about to run `calls t`, no mutex held. -/
def spawn {n m : Nat} (h : Heap n) (calls : Fin m → Call n) : World n m :=
  { heap := h, owner := fun _ => none, threads := fun t => ⟨(calls t).code, 0⟩ }

/-- Steps left, a floor test counting twice (it may leave one more step). -/
def Instr.weight {n : Nat} : Instr n → Nat
  | .check _ _ => 2
  | _ => 1

/-- Steps left in a body, weighted. -/
def codeWeight {n : Nat} (c : List (Instr n)) : Nat := (c.map Instr.weight).sum

/-- The mutex a goroutine with these steps left is holding, when the steps form
a tail of a method body: `some none` for no mutex, `some (some p)` for the mutex
of `p`, and `none` when the steps are no such tail. -/
def shape {n : Nat} : List (Instr n) → Option (Option (Fin n))
  | [] => some none
  | .check _ _ :: rest => if shape rest = some none then some none else none
  | .lock p :: rest => if shape rest = some (some p) then some none else none
  | .load p :: rest =>
    if rest = [] then some none
    else if shape rest = some (some p) then some (some p) else none
  | .store p _ :: rest => if shape rest = some (some p) then some (some p) else none
  | .unlock p :: rest => if shape rest = some none then some (some p) else none

/-- The invariant relating mutexes and goroutines: the steps each goroutine has
left form a tail of a method body, and it owns exactly the mutex that such a
tail holds. -/
def Coherent {n m : Nat} (w : World n m) : Prop :=
  ∀ t, ∃ o, shape (w.threads t).code = some o ∧ ∀ p, w.owner p = some t ↔ o = some p

/-- The weighted number of steps all goroutines have left. -/
def totalWeight {n m : Nat} (w : World n m) : Nat :=
  ∑ t, codeWeight (w.threads t).code

/-- Alice transferring 40 to Bob while Bob transfers 5 to Alice. -/
def crossWorld : World 2 2 :=
  spawn heapAB (fun t => if t = 0 then Call.transfer 0 40 1 else Call.transfer 1 5 0)

/-- One account with balance 100 and floor 0. -/
def heapSolo : Heap 1 := fun _ =>
  { ID := "A1", Owner := "Alice", Balance := 100, MinBalance := 0 }

/-- Two goroutines, each about to run `Withdraw(100)` on the account of
`heapSolo`. -/
def raceWorld : World 1 2 := spawn heapSolo (fun _ => Call.withdraw 0 100)

end Challenge7

namespace Challenge7F

/-- The number of binary digits of `n`, counted with at most `fuel` halvings. -/
def bitsAux : Nat → Nat → Nat
  | 0, _ => 0
  | fuel + 1, n => if n = 0 then 0 else bitsAux fuel (n / 2) + 1

/-- The number of binary digits of `n` (0 for 0). -/
def bits (n : Nat) : Nat := bitsAux n n

/-- Rounding to nearest, ties to even, of a magnitude to 53 significant binary
digits: the digits below the 53 leading ones are dropped and the result is
rounded up when they are more than half a unit of the last place kept, or just
half and the last digit kept is odd. -/
def round53 (n : Nat) : Nat :=
  let shift := bits n - 53
  let q := n / 2 ^ shift
  let r := n % 2 ^ shift
  if 2 * r < 2 ^ shift then q * 2 ^ shift
  else if 2 * r = 2 ^ shift ∧ q % 2 = 0 then q * 2 ^ shift
  else (q + 1) * 2 ^ shift

/-- A `float64` value: not a number, an infinity, or a finite value
`± mag * 2^(-1074)`, the magnitude being counted in units of the smallest
positive `float64`.  Both zeros are there: `fin false 0` and `fin true 0`. -/
inductive Float64 where
  | nan
  | inf (neg : Bool)
  | fin (neg : Bool) (mag : Nat)
  deriving DecidableEq

/-- The magnitudes of the finite `float64` values: at most 53 significant
digits, and below `2^1024` (which is `2^2098` units). -/
def Representable (mag : Nat) : Prop := round53 mag = mag ∧ mag < 2 ^ 2098

/-- The values a `float64` variable can hold. -/
def Float64.Genuine : Float64 → Prop
  | .fin _ mag => Representable mag
  | _ => True

/-- The exact value of a finite `float64`, in units of `2^(-1074)` (0 for the
other values). -/
def Float64.scaled : Float64 → Int
  | .fin neg mag => if neg then -(mag : Int) else (mag : Int)
  | _ => 0

/-- The `float64` with sign `neg` nearest to the magnitude `n`; the infinity when
the rounded magnitude reaches `2^1024`. -/
def Float64.ofMag (neg : Bool) (n : Nat) : Float64 :=
  if round53 n < 2 ^ 2098 then .fin neg (round53 n) else .inf neg

/-- The `float64` whose value is the natural number `n`, for `n` with at most 53
significant digits. -/
def Float64.ofNat (n : Nat) : Float64 := .fin false (n * 2 ^ 1074)

/-- The `float64` constant `0`. -/
def Float64.zero : Float64 := .fin false 0

/-- The operation `-x`. -/
def Float64.neg : Float64 → Float64
  | .nan => .nan
  | .inf s => .inf (!s)
  | .fin s mag => .fin (!s) mag

/-- The operation `x + y` of `float64`: the exact sum rounded to nearest, ties to
even.  An exact sum of zero is `+0`, except that `(-0) + (-0)` is `-0`. -/
def Float64.add : Float64 → Float64 → Float64
  | .nan, _ => .nan
  | _, .nan => .nan
  | .inf s, .inf t => if s = t then .inf s else .nan
  | .inf s, .fin _ _ => .inf s
  | .fin _ _, .inf t => .inf t
  | .fin s m, .fin t k =>
    if (Float64.fin s m).scaled + (Float64.fin t k).scaled = 0 then .fin (s && t) 0
    else Float64.ofMag (decide ((Float64.fin s m).scaled + (Float64.fin t k).scaled < 0))
      ((Float64.fin s m).scaled + (Float64.fin t k).scaled).natAbs

/-- The operation `x - y` of `float64`, which is `x + (-y)`. -/
def Float64.sub (x y : Float64) : Float64 := x.add y.neg

/-- The comparison `x < y` of `float64`: false when an operand is not a number;
the two zeros are equal. -/
def Float64.lt : Float64 → Float64 → Bool
  | .nan, _ => false
  | _, .nan => false
  | .inf s, .inf t => s && !t
  | .inf s, .fin _ _ => s
  | .fin _ _, .inf t => !t
  | .fin s m, .fin t k => decide ((Float64.fin s m).scaled < (Float64.fin t k).scaled)

/-- The comparison `x <= y` of `float64`. -/
def Float64.le : Float64 → Float64 → Bool
  | .nan, _ => false
  | _, .nan => false
  | .inf s, .inf t => s || !t
  | .inf s, .fin _ _ => s
  | .fin _ _, .inf t => !t
  | .fin s m, .fin t k => decide ((Float64.fin s m).scaled ≤ (Float64.fin t k).scaled)

/-- Whether a `float64` is finite: neither an infinity nor not a number. -/
def Float64.isFinite : Float64 → Bool
  | .fin _ _ => true
  | _ => false

/-- The record `BankAccount` with its `float64` fields (without its mutex). -/
structure BankAccount where
  ID : String
  Owner : String
  Balance : Float64
  MinBalance : Float64
  deriving DecidableEq

/-- The constant `MaxTransactionAmount = 10000.0`. -/
def MaxTransactionAmount : Float64 := Float64.ofNat 10000

/-- The four custom error types, with their fields. -/
inductive AccError where
  | AccountError (argName : String)
  | InsufficientFundsError (lesserArgName greaterArgName : String)
      (lesserArg greaterArg : Float64)
  | NegativeAmountError (argName : String) (argValue : Float64)
  | ExceedsLimitError (arg : Float64)
  deriving DecidableEq

/-- The dynamic type of an error value, as a type switch would see it. -/
def AccError.kind : AccError → Challenge7.ErrKind
  | .AccountError _ => .account
  | .InsufficientFundsError _ _ _ _ => .insufficientFunds
  | .NegativeAmountError _ _ => .negativeAmount
  | .ExceedsLimitError _ => .exceedsLimit

/-- The function `NewBankAccount`: the pair `(*BankAccount, error)` it returns. -/
def NewBankAccount (id owner : String) (initialBalance minBalance : Float64) :
    Option BankAccount × Option AccError :=
  if id = "" then (none, some (.AccountError "id"))
  else if owner = "" then (none, some (.AccountError "owner"))
  else if initialBalance.lt Float64.zero then
    (none, some (.NegativeAmountError "initial balance" initialBalance))
  else if minBalance.lt Float64.zero then
    (none, some (.NegativeAmountError "minimal balance" minBalance))
  else if initialBalance.lt minBalance then
    (none, some (.InsufficientFundsError "initial balance" "minimal balance"
      initialBalance minBalance))
  else
    (some { ID := id, Owner := owner, Balance := initialBalance, MinBalance := minBalance },
      none)

/-- A heap of `n` accounts; a `*BankAccount` is an index into it. -/
abbrev Heap (n : Nat) := Fin n → BankAccount

/-- What a method call leaves behind: the heap, the returned `error`, and the
steps it performed. -/
structure Outcome (n : Nat) where
  heap : Heap n
  err : Option AccError
  trace : List (Challenge7.Event n)

/-- The assignment `p.Balance = v`. -/
def setBalance {n : Nat} (h : Heap n) (p : Fin n) (v : Float64) : Heap n :=
  Function.update h p { h p with Balance := v }

/-- The method `(*BankAccount).Deposit` with receiver `a`. -/
def Deposit {n : Nat} (h : Heap n) (a : Fin n) (amount : Float64) : Outcome n :=
  if amount.lt Float64.zero then
    ⟨h, some (.NegativeAmountError "amount" amount), []⟩
  else if MaxTransactionAmount.lt amount then
    ⟨h, some (.ExceedsLimitError amount), []⟩
  else
    ⟨setBalance h a ((h a).Balance.add amount), none,
      [.lock a, .readBalance a, .writeBalance a, .unlock a]⟩

/-- The method `(*BankAccount).Withdraw` with receiver `a`. -/
def Withdraw {n : Nat} (h : Heap n) (a : Fin n) (amount : Float64) : Outcome n :=
  if amount.lt Float64.zero then
    ⟨h, some (.NegativeAmountError "amount" amount), []⟩
  else if MaxTransactionAmount.lt amount then
    ⟨h, some (.ExceedsLimitError amount), []⟩
  else if ((h a).Balance.sub amount).lt (h a).MinBalance then
    ⟨h, some (.InsufficientFundsError "balance - amount" "minimal balance"
        ((h a).Balance.sub amount) (h a).MinBalance),
      [.readBalance a, .readBalance a]⟩
  else
    ⟨setBalance h a ((h a).Balance.sub amount), none,
      [.readBalance a, .lock a, .readBalance a, .writeBalance a, .unlock a]⟩

/-- The method `(*BankAccount).Transfer` with receiver `a`.  The credit reads the
target after the debit has been stored, so `target = a` is covered. -/
def Transfer {n : Nat} (h : Heap n) (a : Fin n) (amount : Float64) (target : Fin n) :
    Outcome n :=
  if amount.lt Float64.zero then
    ⟨h, some (.NegativeAmountError "amount" amount), []⟩
  else if MaxTransactionAmount.lt amount then
    ⟨h, some (.ExceedsLimitError amount), []⟩
  else if ((h a).Balance.sub amount).lt (h a).MinBalance then
    ⟨h, some (.InsufficientFundsError "balance - amount" "minimal balance"
        ((h a).Balance.sub amount) (h a).MinBalance),
      [.readBalance a, .readBalance a]⟩
  else
    let h1 := setBalance h a ((h a).Balance.sub amount)
    let h2 := setBalance h1 target ((h1 target).Balance.add amount)
    ⟨h2, none,
      [.readBalance a, .lock a, .readBalance a, .writeBalance a, .unlock a,
       .lock target, .readBalance target, .writeBalance target, .unlock target]⟩

/-! ### Concurrent deposits

Goroutines running `Deposit`, interleaved at the grain of the steps that touch
shared state, as in `Challenge7`; `a.Balance += v` is a load of the balance
followed by a store of the loaded value plus `v`, rounded. -/

/-- One step of the body of `Deposit` on the shared state. -/
inductive Instr (n : Nat) where
  | lock (p : Fin n)
  | load (p : Fin n)
  | store (p : Fin n) (d : Float64)
  | unlock (p : Fin n)
  deriving DecidableEq

/-- The statements `p.mu.Lock(); p.Balance += d; p.mu.Unlock()`. -/
def critical {n : Nat} (p : Fin n) (d : Float64) : List (Instr n) :=
  [.lock p, .load p, .store p d, .unlock p]

/-- The steps of `a.Deposit(amount)`. -/
def DepositCode {n : Nat} (a : Fin n) (amount : Float64) : List (Instr n) :=
  if amount.lt Float64.zero then []
  else if MaxTransactionAmount.lt amount then []
  else critical a amount

/-- A goroutine inside a call: the steps it has left and the balance it last
loaded. -/
structure Thread (n : Nat) where
  code : List (Instr n)
  tmp : Float64

/-- The shared state and `m` goroutines; `owner p` is the goroutine holding the
mutex of account `p`, if any. -/
structure World (n m : Nat) where
  heap : Heap n
  owner : Fin n → Option (Fin m)
  threads : Fin m → Thread n

/-- Goroutine `t` performs its next step; `none` when it has returned or cannot
proceed (`Lock` on a mutex that is held; `Unlock` of a mutex it does not hold). -/
def step {n m : Nat} (w : World n m) (t : Fin m) : Option (World n m) :=
  match (w.threads t).code with
  | [] => none
  | .lock p :: rest =>
    if w.owner p = none then
      some { w with
        owner := Function.update w.owner p (some t)
        threads := Function.update w.threads t ⟨rest, (w.threads t).tmp⟩ }
    else none
  | .load p :: rest =>
    some { w with threads := Function.update w.threads t ⟨rest, (w.heap p).Balance⟩ }
  | .store p d :: rest =>
    some { w with
      heap := setBalance w.heap p ((w.threads t).tmp.add d)
      threads := Function.update w.threads t ⟨rest, (w.threads t).tmp⟩ }
  | .unlock p :: rest =>
    if w.owner p = some t then
      some { w with
        owner := Function.update w.owner p none
        threads := Function.update w.threads t ⟨rest, (w.threads t).tmp⟩ }
    else none

/-- Performing a schedule: the goroutines named in the list take one step each,
in that order; `none` when a goroutine is scheduled that cannot step. -/
def sched {n m : Nat} (w : World n m) : List (Fin m) → Option (World n m)
  | [] => some w
  | t :: ts =>
    match step w t with
    | none => none
    | some w' => sched w' ts

/-- The state in which `m` goroutines are each about to run `a.Deposit(x)`, no
mutex held. -/
def spawnDeposits {n : Nat} (h : Heap n) (a : Fin n) (x : Float64) (m : Nat) : World n m :=
  { heap := h, owner := fun _ => none, threads := fun _ => ⟨DepositCode a x, Float64.zero⟩ }

/-- How many of the goroutines have their store behind them. -/
def stored {n m : Nat} (w : World n m) : Nat :=
  ∑ t, if (w.threads t).code.length ≤ 1 then 1 else 0

/-- The invariant of concurrent `a.Deposit(x)` calls started on balance `b`: each
goroutine is at a point of the body of `Deposit`, the mutex of `a` is owned by
the goroutine between its `Lock` and its `Unlock`, the balance is `b` with `x`
added once for each store performed, and a goroutine about to store has loaded
the present balance. -/
def DepositInv {n m : Nat} (a : Fin n) (x b : Float64) (w : World n m) : Prop :=
  (∀ t, (w.threads t).code = critical a x ∨
      (w.threads t).code = [.load a, .store a x, .unlock a] ∨
      (w.threads t).code = [.store a x, .unlock a] ∨
      (w.threads t).code = [.unlock a] ∨ (w.threads t).code = []) ∧
    (∀ t, w.owner a = some t ↔
      ((w.threads t).code = [.load a, .store a x, .unlock a] ∨
        (w.threads t).code = [.store a x, .unlock a] ∨ (w.threads t).code = [.unlock a])) ∧
    (w.heap a).Balance = (fun v => v.add x)^[stored w] b ∧
    ∀ t, (w.threads t).code = [.store a x, .unlock a] → (w.threads t).tmp = (w.heap a).Balance

/-- One account with balance and floor `10^16`. -/
def heapBig : Heap 1 := fun _ =>
  { ID := "A1", Owner := "Alice", Balance := Float64.ofNat 10000000000000000,
    MinBalance := Float64.ofNat 10000000000000000 }

/-- Alice with balance `10^16` and Bob with balance 0, both with floor 0. -/
def heapRich : Heap 2 := fun i =>
  if i = 0 then { ID := "A", Owner := "Alice", Balance := Float64.ofNat 10000000000000000,
                  MinBalance := Float64.zero }
  else { ID := "B", Owner := "Bob", Balance := Float64.zero, MinBalance := Float64.zero }

/-- Alice (100) and Bob (10), the accounts of scenario 4, both with floor 0. -/
def heapAB : Heap 2 := fun i =>
  if i = 0 then { ID := "A", Owner := "Alice", Balance := Float64.ofNat 100,
                  MinBalance := Float64.zero }
  else { ID := "B", Owner := "Bob", Balance := Float64.ofNat 10, MinBalance := Float64.zero }

/-- The account of scenario 1 after its deposit: balance 150, floor 10. -/
def heapA1 : Heap 1 := fun _ =>
  { ID := "A1", Owner := "Alice", Balance := Float64.ofNat 150,
    MinBalance := Float64.ofNat 10 }

/-- One account with balance `2^53 + 2` and floor 0. -/
def heapOdd : Heap 1 := fun _ =>
  { ID := "A1", Owner := "Alice", Balance := Float64.ofNat 9007199254740994,
    MinBalance := Float64.zero }

/-- One account with balance `2^53` and floor 0. -/
def heapPow : Heap 1 := fun _ =>
  { ID := "A1", Owner := "Alice", Balance := Float64.ofNat 9007199254740992,
    MinBalance := Float64.zero }

end Challenge7F

namespace Challenge21

/-- The slice read `arr[i]`; `none` stands for the index-out-of-range panic. -/
def index (arr : List Int) (i : Int) : Option Int :=
  if 0 ≤ i then arr[i.toNat]? else none

/-- The loop `for left <= right { ... }` of `BinarySearch`, entered with the
given values of `left` and `right`; the result is what the function returns. -/
def BinarySearch.loop (arr : List Int) (target : Int) (left right : Int) : Option Int :=
  if _h : left ≤ right then
    let middle := left + (right - left).tdiv 2
    match index arr middle with
    | none => none
    | some v =>
      if v = target then some middle
      else if v < target then BinarySearch.loop arr target (middle + 1) right
      else BinarySearch.loop arr target left (middle - 1)
  else some (-1)
termination_by (right - left + 1).toNat
decreasing_by
  all_goals
    simp_wf
    have hdiv : (right - left).tdiv 2 = (right - left) / 2 :=
      Int.tdiv_eq_ediv (by omega) (by omega)
    omega

/-- The function `BinarySearch`. -/
def BinarySearch (arr : List Int) (target : Int) : Option Int :=
  if arr.length = 0 then some (-1)
  else BinarySearch.loop arr target 0 ((arr.length : Int) - 1)

/-- The loop of `FindInsertPosition`. -/
def FindInsertPosition.loop (arr : List Int) (target : Int) (left right : Int) : Option Int :=
  if _h : left ≤ right then
    let middle := left + (right - left).tdiv 2
    match index arr middle with
    | none => none
    | some v =>
      if v = target then some middle
      else if v < target then FindInsertPosition.loop arr target (middle + 1) right
      else FindInsertPosition.loop arr target left (middle - 1)
  else some left
termination_by (right - left + 1).toNat
decreasing_by
  all_goals
    simp_wf
    have hdiv : (right - left).tdiv 2 = (right - left) / 2 :=
      Int.tdiv_eq_ediv (by omega) (by omega)
    omega

/-- The function `FindInsertPosition`. -/
def FindInsertPosition (arr : List Int) (target : Int) : Option Int :=
  if arr.length = 0 then some 0
  else FindInsertPosition.loop arr target 0 ((arr.length : Int) - 1)

/-- The slice of `main`. -/
def mainArr : List Int := [1, 3, 5, 7, 9, 11, 13, 15, 17, 19]

end Challenge21

namespace Challenge22

/-- A `map[int]int`: the entries, with distinct keys. -/
abbrev IntMap := List (Int × Int)

/-- The statement `m[k]++`: an absent key counts as zero. -/
def IntMap.incr : IntMap → Int → IntMap
  | [], k => [(k, 1)]
  | (k', v) :: rest, k =>
    if k' = k then (k', v + 1) :: rest else (k', v) :: IntMap.incr rest k

/-- The loop `for amount >= d { amount -= d; coinCnt++ }` of `MinCoins`, run for
at most `fuel` tests of its condition; `none` when that is not enough. -/
def MinCoins.inner : Nat → Int → Int → Int → Option (Int × Int)
  | 0, _, _, _ => none
  | fuel + 1, d, amount, coinCnt =>
    if amount ≥ d then MinCoins.inner fuel d (amount - d) (coinCnt + 1)
    else some (amount, coinCnt)

/-- The loop `for i := len(denominations) - 1; i >= 0; i--` of `MinCoins`, with
`k` iterations left (the loop variable is `k - 1`). -/
def MinCoins.pass (limit : Nat) (denominations : List Int) :
    Nat → Int → Int → Option (Int × Int)
  | 0, amount, coinCnt => some (amount, coinCnt)
  | i + 1, amount, coinCnt =>
    match denominations[i]? with
    | none => none
    | some d =>
      match MinCoins.inner limit d amount coinCnt with
      | none => none
      | some (amount', coinCnt') => MinCoins.pass limit denominations i amount' coinCnt'

/-- The loop `for amount > 0` of `MinCoins`, run for at most `fuel` tests of its
condition. -/
def MinCoins.outer (limit : Nat) (denominations : List Int) : Nat → Int → Int → Option Int
  | 0, _, _ => none
  | fuel + 1, amount, coinCnt =>
    if amount > 0 then
      match MinCoins.pass limit denominations denominations.length amount coinCnt with
      | none => none
      | some (amount', coinCnt') => MinCoins.outer limit denominations fuel amount' coinCnt'
    else some coinCnt

/-- The function `MinCoins`, every loop of which may test its condition at most
`fuel` times; `none` when some loop needs more. -/
def MinCoins (fuel : Nat) (amount : Int) (denominations : List Int) : Option Int :=
  if amount = 0 then some 0
  else if denominations.length = 0 then some (-1)
  else if amount < denominations.getD 0 0 then some (-1)
  else MinCoins.outer fuel denominations fuel amount 0

/-- The innermost loop of `CoinCombination`. -/
def CoinCombination.inner : Nat → Int → Int → IntMap → Option (Int × IntMap)
  | 0, _, _, _ => none
  | fuel + 1, d, amount, result =>
    if amount ≥ d then CoinCombination.inner fuel d (amount - d) (result.incr d)
    else some (amount, result)

/-- The loop over the denominations of `CoinCombination`, last one first. -/
def CoinCombination.pass (limit : Nat) (denominations : List Int) :
    Nat → Int → IntMap → Option (Int × IntMap)
  | 0, amount, result => some (amount, result)
  | i + 1, amount, result =>
    match denominations[i]? with
    | none => none
    | some d =>
      match CoinCombination.inner limit d amount result with
      | none => none
      | some (amount', result') => CoinCombination.pass limit denominations i amount' result'

/-- The loop `for amount > 0` of `CoinCombination`. -/
def CoinCombination.outer (limit : Nat) (denominations : List Int) :
    Nat → Int → IntMap → Option IntMap
  | 0, _, _ => none
  | fuel + 1, amount, result =>
    if amount > 0 then
      match CoinCombination.pass limit denominations denominations.length amount result with
      | none => none
      | some (amount', result') => CoinCombination.outer limit denominations fuel amount' result'
    else some result

/-- The function `CoinCombination`; the nil map and the empty map are both `[]`. -/
def CoinCombination (fuel : Nat) (amount : Int) (denominations : List Int) : Option IntMap :=
  if amount = 0 then some []
  else if denominations.length = 0 then some []
  else if amount < denominations.getD 0 0 then some []
  else CoinCombination.outer fuel denominations fuel amount []

/-- The sum of the values of a map: the number of coins it stands for. -/
def IntMap.coins (m : IntMap) : Int := (m.map Prod.snd).sum

/-- The sum of `key * value` over a map: the amount it stands for. -/
def IntMap.total (m : IntMap) : Int := (m.map (fun kv => kv.1 * kv.2)).sum

/-- A well-formed change: distinct keys, all of them denominations, and every
value at least 1. -/
def IntMap.Change (denominations : List Int) (m : IntMap) : Prop :=
  (m.map Prod.fst).Nodup ∧ ∀ kv ∈ m, kv.1 ∈ denominations ∧ 1 ≤ kv.2


/-- The denominations of `main`. -/
def usCoins : List Int := [1, 5, 10, 25, 50]

end Challenge22

namespace Challenge6

/-- The character deleted by `strings.ReplaceAll(text, "'", "")`. -/
def apostrophe : Char := Char.ofNat 39

/-- The class `[ .,\t\n?!-]` of the regular expression. -/
def isSep (c : Char) : Bool :=
  c = ' ' || c = '.' || c = ',' || c = Char.ofNat 9 || c = Char.ofNat 10 ||
    c = '?' || c = '!' || c = '-'

/-- `strings.ToLower` on ASCII text. -/
def ToLower (text : List Char) : List Char := text.map Char.toLower

/-- `strings.ReplaceAll(text, "'", "")`. -/
def dropApostrophes (text : List Char) : List Char := text.filter (· ≠ apostrophe)

/-- The scan behind `re.Split(text, -1)` for the expression `[ .,\t\n?!-]+`: the
state is `some piece` inside a piece (its characters so far, last one first) and
`none` inside a match of the expression. -/
def Split.scan : Option (List Char) → List Char → List (List Char)
  | none, [] => [[]]
  | some piece, [] => [piece.reverse]
  | none, c :: cs => if isSep c then Split.scan none cs else Split.scan (some [c]) cs
  | some piece, c :: cs =>
    if isSep c then piece.reverse :: Split.scan none cs
    else Split.scan (some (c :: piece)) cs

/-- `re.Split(text, -1)`: the pieces of `text` between the matches. -/
def Split (text : List Char) : List (List Char) := Split.scan (some []) text

/-- A `map[string]int`: its entries, with distinct keys. -/
abbrev StrMap := List (List Char × Int)

/-- The assignment `m[k] = v`. -/
def StrMap.set : StrMap → List Char → Int → StrMap
  | [], k, v => [(k, v)]
  | (k', v') :: rest, k, v =>
    if k' = k then (k', v) :: rest else (k', v') :: StrMap.set rest k v

/-- The entry of a map for a key, if any. -/
def StrMap.find : StrMap → List Char → Option Int
  | [], _ => none
  | (k', v) :: rest, k => if k' = k then some v else StrMap.find rest k

/-- The loop over `textSlice`. -/
def CountWordFrequency.loop : StrMap → List (List Char) → StrMap
  | result, [] => result
  | result, text :: rest =>
    match result.find text with
    | none =>
      if text.length = 0 then CountWordFrequency.loop result rest
      else CountWordFrequency.loop (result.set text 1) rest
    | some v => CountWordFrequency.loop (result.set text (v + 1)) rest

/-- The function `CountWordFrequency`. -/
def CountWordFrequency (text : List Char) : StrMap :=
  CountWordFrequency.loop [] (Split (dropApostrophes (ToLower text)))

/-- The example of the function's comment. -/
def docText : List Char := "The quick brown fox jumps over the lazy dog.".toList

/-- Stated from the claim as written: the lower-case forms of the maximal runs of
letters and digits of a text, every other character separating. -/
def runsOfLettersAndDigits (text : List Char) : List (List Char) :=
  ((text.splitOnP (fun c => !c.isAlphanum)).map (fun w => w.map Char.toLower)).filter
    (fun w => !w.isEmpty)

/-- The text `don't`. -/
def dontText : List Char := "don".toList ++ apostrophe :: "t".toList

/-- What `ToLower` followed by `ReplaceAll` makes of one character. -/
def keep (c : Char) : Option Char :=
  if c.toLower = apostrophe then none else some c.toLower

/-- Letters, digits and the apostrophe: the characters of which words are made. -/
def isWordChar (c : Char) : Bool := c.isAlphanum || c = apostrophe

/-- The form under which a run of word characters is counted: apostrophes
deleted, letters in lower case. -/
def normalize (w : List Char) : List Char := (w.filter (· ≠ apostrophe)).map Char.toLower

/-- Stated from the claim: the words of a text are the normal forms of its
maximal runs of word characters (the pieces between the other characters), as
far as these are not empty. -/
def words (text : List Char) : List (List Char) :=
  ((text.splitOnP (fun c => !isWordChar c)).map normalize).filter (fun w => !w.isEmpty)

end Challenge6

namespace Challenge2

/-- A byte. -/
abbrev Byte := Fin 256

/-- The read `s[i]` of a byte of a string; `none` stands for the
index-out-of-range panic. -/
def byteAt (s : List Byte) (i : Int) : Option Byte :=
  if 0 ≤ i then s[i.toNat]? else none

/-- The assignment `sByte[i] = v`; `none` stands for the index-out-of-range
panic. -/
def store (sByte : List Byte) (i : Int) (v : Byte) : Option (List Byte) :=
  if 0 ≤ i ∧ i < sByte.length then some (sByte.set i.toNat v) else none

/-- The loop `for i := 0; i < len(s); i++` of `ReverseString`, entered with the
given `sByte` and `i`; the result is the slice when the loop is left. -/
def ReverseString.loop (s sByte : List Byte) (i : Int) : Option (List Byte) :=
  if _h : i < s.length then
    match byteAt s i with
    | none => none
    | some v =>
      match store sByte ((s.length : Int) - i - 1) v with
      | none => none
      | some sByte' => ReverseString.loop s sByte' (i + 1)
  else some sByte
termination_by ((s.length : Int) - i).toNat
decreasing_by
  simp_wf
  omega

/-- The function `ReverseString`, a string being the list of its bytes. -/
def ReverseString (s : List Byte) : Option (List Byte) :=
  ReverseString.loop s (List.replicate s.length 0) 0

/-- The bytes of the string `hello`. -/
def hello : List Byte := [104, 101, 108, 108, 111]

end Challenge2

namespace Challenge7

/-! ## Helper lemmas -/

theorem setBalance_same {n : Nat} (h : Heap n) (p : Fin n) (v : ℚ) :
    setBalance h p v p = { h p with Balance := v } := by
  simp [setBalance]

theorem setBalance_other {n : Nat} (h : Heap n) (p q : Fin n) (v : ℚ) (hq : q ≠ p) :
    setBalance h p v q = h q := by
  simp [setBalance, Function.update_noteq hq]

theorem Created.floorInv {acc : BankAccount} (hc : Created acc) : FloorInv acc := by
  obtain ⟨id, owner, ib, mb, hnew⟩ := hc
  unfold NewBankAccount at hnew
  split_ifs at hnew with h1 h2 h3 h4 h5 <;> simp at hnew
  subst hnew
  exact ⟨not_lt.mp h5, not_lt.mp h4⟩

theorem FloorInv.setBalance {n : Nat} {h : Heap n} (hinv : ∀ i, FloorInv (h i)) (p : Fin n)
    (v : ℚ) (hv : (h p).MinBalance ≤ v) : ∀ i, FloorInv (setBalance h p v i) := by
  intro i
  by_cases hi : i = p
  · subst hi
    rw [setBalance_same]
    exact ⟨hv, (hinv i).2⟩
  · rw [setBalance_other h p i v hi]
    exact hinv i

theorem Deposit_floorInv {n : Nat} {h : Heap n} (hinv : ∀ i, FloorInv (h i)) (a : Fin n)
    (amount : ℚ) : ∀ i, FloorInv ((Deposit h a amount).heap i) := by
  unfold Deposit
  split_ifs with h1 h2
  · exact hinv
  · exact hinv
  · exact FloorInv.setBalance hinv a _ (by have := (hinv a).1; linarith)

theorem Withdraw_floorInv {n : Nat} {h : Heap n} (hinv : ∀ i, FloorInv (h i)) (a : Fin n)
    (amount : ℚ) : ∀ i, FloorInv ((Withdraw h a amount).heap i) := by
  unfold Withdraw
  split_ifs with h1 h2 h3
  · exact hinv
  · exact hinv
  · exact hinv
  · exact FloorInv.setBalance hinv a _ (not_lt.mp h3)

theorem Transfer_floorInv {n : Nat} {h : Heap n} (hinv : ∀ i, FloorInv (h i)) (a : Fin n)
    (amount : ℚ) (target : Fin n) : ∀ i, FloorInv ((Transfer h a amount target).heap i) := by
  unfold Transfer
  split_ifs with h1 h2 h3
  · exact hinv
  · exact hinv
  · exact hinv
  · have hdebit := FloorInv.setBalance hinv a ((h a).Balance - amount) (not_lt.mp h3)
    exact FloorInv.setBalance hdebit target _ (by have := (hdebit target).1; linarith)

theorem exec_floorInv {n : Nat} {h : Heap n} (hinv : ∀ i, FloorInv (h i)) (c : Call n) :
    ∀ i, FloorInv ((c.exec h).heap i) := by
  cases c with
  | deposit a amount => exact Deposit_floorInv hinv a amount
  | withdraw a amount => exact Withdraw_floorInv hinv a amount
  | transfer a amount target => exact Transfer_floorInv hinv a amount target

theorem run_floorInv {n : Nat} (calls : List (Call n)) :
    ∀ {h : Heap n}, (∀ i, FloorInv (h i)) → ∀ i, FloorInv (run h calls i) := by
  induction calls with
  | nil => intro h hinv; exact hinv
  | cons c cs ih => intro h hinv; exact ih (exec_floorInv hinv c)

theorem heapAB_created : ∀ i, Created (heapAB i) := by
  intro i
  by_cases hi : i = 0
  · exact ⟨"A", "Alice", 100, 0, by simp [NewBankAccount, heapAB, hi]; norm_num⟩
  · exact ⟨"B", "Bob", 10, 0, by simp [NewBankAccount, heapAB, hi]; norm_num⟩

/-! ## The claims -/

/-- C1 (floor invariant).  Start from any heap all of whose accounts are values
returned by a successful `NewBankAccount`, and perform any finite list of
`Deposit`, `Withdraw` and `Transfer` calls with arbitrary receivers, targets and
amounts.  After each call (that is, after every prefix of the list) every
account has `Balance >= MinBalance` and `MinBalance >= 0`. -/
theorem floor_invariant {n : Nat} (h : Heap n) (hcreated : ∀ i, Created (h i))
    (calls : List (Call n)) (k : Nat) (i : Fin n) :
    (run h (calls.take k) i).MinBalance ≤ (run h (calls.take k) i).Balance ∧
      0 ≤ (run h (calls.take k) i).MinBalance :=
  run_floorInv (calls.take k) (fun j => (hcreated j).floorInv) i

/-- After a deposit of 50, a refused withdrawal of 200 and a transfer of 40 to
Bob, Alice and Bob both respect their floors. -/
theorem floor_invariant_witness :
    ((run heapAB ([Call.deposit 0 50, Call.withdraw 0 200,
          Call.transfer 0 40 1].take 3) 0).MinBalance ≤
        (run heapAB ([Call.deposit 0 50, Call.withdraw 0 200,
          Call.transfer 0 40 1].take 3) 0).Balance ∧
      0 ≤ (run heapAB ([Call.deposit 0 50, Call.withdraw 0 200,
          Call.transfer 0 40 1].take 3) 0).MinBalance) ∧
    ((run heapAB ([Call.deposit 0 50, Call.withdraw 0 200,
          Call.transfer 0 40 1].take 3) 1).MinBalance ≤
        (run heapAB ([Call.deposit 0 50, Call.withdraw 0 200,
          Call.transfer 0 40 1].take 3) 1).Balance ∧
      0 ≤ (run heapAB ([Call.deposit 0 50, Call.withdraw 0 200,
          Call.transfer 0 40 1].take 3) 1).MinBalance) :=
  ⟨floor_invariant heapAB heapAB_created
      [Call.deposit 0 50, Call.withdraw 0 200, Call.transfer 0 40 1] 3 0,
    floor_invariant heapAB heapAB_created
      [Call.deposit 0 50, Call.withdraw 0 200, Call.transfer 0 40 1] 3 1⟩

/-- C3 (atomicity on failure).  Whenever `Deposit`, `Withdraw` or `Transfer`
returns a non-nil error, the whole heap (so every field of the receiver and of
the target) is what it was before the call, and the call has touched no mutex
and assigned no balance. -/
theorem failure_leaves_state {n : Nat} (h : Heap n) (a target : Fin n) (amount : ℚ) :
    ((Deposit h a amount).err ≠ none →
        (Deposit h a amount).heap = h ∧ readsOnly (Deposit h a amount).trace = true) ∧
      ((Withdraw h a amount).err ≠ none →
        (Withdraw h a amount).heap = h ∧ readsOnly (Withdraw h a amount).trace = true) ∧
      ((Transfer h a amount target).err ≠ none →
        (Transfer h a amount target).heap = h ∧
          readsOnly (Transfer h a amount target).trace = true) := by
  refine ⟨?_, ?_, ?_⟩
  · unfold Deposit; split_ifs <;> simp [readsOnly]
  · unfold Withdraw; split_ifs <;> simp [readsOnly]
  · unfold Transfer; split_ifs <;> simp [readsOnly]

/-- Three failing calls (negative deposit, overdraft, transfer above the
available funds) leave the heap untouched. -/
theorem failure_leaves_state_witness :
    (Deposit heapA1 0 (-5)).heap = heapA1 ∧ (Withdraw heapA1 0 200).heap = heapA1 ∧
      (Transfer heapAB 0 200 1).heap = heapAB :=
  ⟨((failure_leaves_state heapA1 0 0 (-5)).1 (by simp [Deposit])).1,
    ((failure_leaves_state heapA1 0 0 200).2.1
      (by norm_num [Withdraw, heapA1, MaxTransactionAmount]; simp)).1,
    ((failure_leaves_state heapAB 0 1 200).2.2
      (by norm_num [Transfer, heapAB, MaxTransactionAmount]; simp)).1⟩

/-- C7 (deposit error kinds).  `Deposit(amount)` returns a `NegativeAmountError`
if and only if `amount < 0`, an `ExceedsLimitError` if and only if
`amount > 10000`, and nil in the remaining case; the returned error is the same
on every heap and every receiver, so it does not depend on the balance. -/
theorem deposit_error_kinds {n : Nat} (h : Heap n) (a : Fin n) (amount : ℚ) :
    ((Deposit h a amount).err.map AccError.kind = some ErrKind.negativeAmount ↔ amount < 0) ∧
      ((Deposit h a amount).err.map AccError.kind = some ErrKind.exceedsLimit ↔
        amount > 10000) ∧
      ((Deposit h a amount).err = none ↔ ¬ amount < 0 ∧ ¬ amount > 10000) ∧
      ∀ (m : Nat) (h' : Heap m) (a' : Fin m),
        (Deposit h' a' amount).err = (Deposit h a amount).err := by
  refine ⟨?_, ?_, ?_, ?_⟩
  · unfold Deposit MaxTransactionAmount
    split_ifs with h1 h2 <;> simp [AccError.kind, h1]
  · unfold Deposit MaxTransactionAmount
    split_ifs with h1 h2
    · simp only [Option.map_some', AccError.kind, reduceCtorEq, Option.some.injEq, false_iff]
      intro hc; linarith
    · simpa [AccError.kind] using h2
    · simpa [AccError.kind] using h2
  · unfold Deposit MaxTransactionAmount
    split_ifs with h1 h2
    · simp [h1]
    · simp only [reduceCtorEq, false_iff, not_and, not_not]
      exact fun _ => h2
    · simp only [true_iff]
      exact ⟨h1, h2⟩
  · intro m h' a'
    unfold Deposit
    split_ifs <;> rfl

/-- Scenario 3: `Deposit(-5)` is a `NegativeAmountError` and `Deposit(20000)` an
`ExceedsLimitError`. -/
theorem deposit_error_kinds_witness :
    (Deposit heapA1 0 (-5)).err.map AccError.kind = some ErrKind.negativeAmount ∧
      (Deposit heapA1 0 20000).err.map AccError.kind = some ErrKind.exceedsLimit :=
  ⟨(deposit_error_kinds heapA1 0 (-5)).1.2 (by norm_num),
    (deposit_error_kinds heapA1 0 20000).2.1.2 (by norm_num)⟩

/-- C9 (transfer validates like withdraw).  `a.Transfer(amount, b)` returns
exactly the error value that `a.Withdraw(amount)` returns on the same heap
(same type, same contents), so one fails if and only if the other does; and when
the transfer returns nil, `a.Withdraw(amount)` and then `b.Deposit(amount)` both
return nil and leave the very heap the transfer leaves.  (Holds for any two
accounts, distinct or not.) -/
theorem transfer_as_withdraw_then_deposit {n : Nat} (h : Heap n) (a b : Fin n) (amount : ℚ) :
    (Transfer h a amount b).err = (Withdraw h a amount).err ∧
      ((Transfer h a amount b).err ≠ none ↔ (Withdraw h a amount).err ≠ none) ∧
      ((Transfer h a amount b).err = none →
        (Withdraw h a amount).err = none ∧
        (Deposit (Withdraw h a amount).heap b amount).err = none ∧
        (Transfer h a amount b).heap = (Deposit (Withdraw h a amount).heap b amount).heap) := by
  have herr : (Transfer h a amount b).err = (Withdraw h a amount).err := by
    unfold Transfer Withdraw
    split_ifs <;> rfl
  refine ⟨herr, by rw [herr], ?_⟩
  unfold Transfer Withdraw Deposit
  split_ifs with h1 h2 h3 <;> simp

/-- Scenario 4 again: Alice's transfer of 40 to Bob returns nil and leaves the
heap of `Withdraw(40)` on Alice followed by `Deposit(40)` on Bob. -/
theorem transfer_as_withdraw_then_deposit_witness :
    (Withdraw heapAB 0 40).err = none ∧
      (Deposit (Withdraw heapAB 0 40).heap 1 40).err = none ∧
      (Transfer heapAB 0 40 1).heap = (Deposit (Withdraw heapAB 0 40).heap 1 40).heap :=
  (transfer_as_withdraw_then_deposit heapAB 0 1 40).2.2
    (by simp [Transfer, heapAB, MaxTransactionAmount]; norm_num)

/-- C11, the claim as stated fails.  Bob transferring 5 to Alice passes
validation; its balance accesses do not all happen with both mutexes held (no
two mutexes are ever held together), and it takes Bob's mutex first although
Alice's identifier `"A"` is the lower one. -/
theorem transfer_lock_discipline_counterexample :
    (Transfer heapAB 1 5 0).err = none ∧
      ¬ (accessesUnder [1, 0] [] (Transfer heapAB 1 5 0).trace = true ∧
          lockOrder (Transfer heapAB 1 5 0).trace = idOrder heapAB 1 0) ∧
      accessesUnder [1, 0] [] (Transfer heapAB 1 5 0).trace = false ∧
      maxHeld [] (Transfer heapAB 1 5 0).trace = 1 ∧
      lockOrder (Transfer heapAB 1 5 0).trace = [1, 0] ∧
      idOrder heapAB 1 0 = [0, 1] := by
  have htr : (Transfer heapAB 1 5 0).trace =
      [.readBalance 1, .lock 1, .readBalance 1, .writeBalance 1, .unlock 1,
       .lock 0, .readBalance 0, .writeBalance 0, .unlock 0] := by
    simp [Transfer, heapAB, MaxTransactionAmount]; norm_num
  have herr : (Transfer heapAB 1 5 0).err = none := by
    simp [Transfer, heapAB, MaxTransactionAmount]; norm_num
  have hid : idOrder heapAB 1 0 = [0, 1] := by
    simp [idOrder, heapAB]; decide
  rw [htr, hid]
  refine ⟨herr, ?_, ?_, ?_, ?_, rfl⟩
  · simp [accessesUnder]
  · simp [accessesUnder]
  · simp [maxHeld]
  · simp [lockOrder]

/-- C11, amended.  In every execution of `a.Transfer(amount, target)` that passes
validation, every assignment of a balance happens while the mutex of the account
assigned is held; the mutexes are taken one at a time, the receiver's first and
the target's after the receiver's has been released, so that at most one mutex
is held at any time, whatever the identifiers. -/
theorem transfer_lock_discipline {n : Nat} (h : Heap n) (a target : Fin n) (amount : ℚ)
    (hok : (Transfer h a amount target).err = none) :
    writesLocked [] (Transfer h a amount target).trace = true ∧
      lockOrder (Transfer h a amount target).trace = [a, target] ∧
      maxHeld [] (Transfer h a amount target).trace = 1 ∧
      lockSafe [] (Transfer h a amount target).trace = true := by
  unfold Transfer at hok ⊢
  split_ifs at hok ⊢ with h1 h2 h3
  simp [writesLocked, lockOrder, maxHeld, lockSafe]

/-- Alice's transfer of 40 to Bob takes Alice's mutex, releases it, and then
takes Bob's. -/
theorem transfer_lock_discipline_witness :
    writesLocked [] (Transfer heapAB 0 40 1).trace = true ∧
      lockOrder (Transfer heapAB 0 40 1).trace = [0, 1] ∧
      maxHeld [] (Transfer heapAB 0 40 1).trace = 1 ∧
      lockSafe [] (Transfer heapAB 0 40 1).trace = true :=
  transfer_lock_discipline heapAB 0 1 40
    (by simp [Transfer, heapAB, MaxTransactionAmount]; norm_num)

/-- C12, the program against the claim.  A `Withdraw(100)` on balance 100 with
floor 0 evaluates the balance for its floor test before it takes the mutex.
When two goroutines run that call and both floor tests are scheduled before
either update, both calls return nil and the balance ends at `-100`, below the
floor. -/
theorem withdraw_check_outside_lock :
    accessesLocked [] (Withdraw heapSolo 0 100).trace = false ∧
      (Withdraw heapSolo 0 100).trace.head? = some (Event.readBalance 0) ∧
      ∃ w, sched raceWorld [0, 1, 0, 0, 0, 0, 1, 1, 1, 1] = some w ∧
        (∀ t, (w.threads t).code = []) ∧
        (w.heap 0).Balance = -100 ∧ (w.heap 0).Balance < (w.heap 0).MinBalance := by
  have htr : (Withdraw heapSolo 0 100).trace =
      [.readBalance 0, .lock 0, .readBalance 0, .writeBalance 0, .unlock 0] := by
    simp [Withdraw, heapSolo, MaxTransactionAmount]; norm_num
  rw [htr]
  refine ⟨by simp [accessesLocked], rfl, ?_⟩
  have hcode : ∀ a : Fin 1, WithdrawCode a 100 =
      [.check a 100, .lock a, .load a, .store a (-100), .unlock a] := by
    intro a; simp [WithdrawCode, critical, MaxTransactionAmount]; norm_num
  simp [sched, step, raceWorld, spawn, Call.code, hcode, heapSolo, setBalance]
  intro t
  fin_cases t <;> simp

/-- C15 (immutable identity and floor).  `Deposit`, `Withdraw` and `Transfer`,
whatever they return, leave `ID`, `Owner` and `MinBalance` of every account as
they were; `Deposit` and `Withdraw` leave every account other than the receiver
wholly unchanged, and `Transfer` every account other than the receiver and the
target. -/
theorem methods_frame {n : Nat} (h : Heap n) (a target : Fin n) (amount : ℚ) (q : Fin n) :
    (((Deposit h a amount).heap q).ID = (h q).ID ∧
        ((Deposit h a amount).heap q).Owner = (h q).Owner ∧
        ((Deposit h a amount).heap q).MinBalance = (h q).MinBalance ∧
        (q ≠ a → (Deposit h a amount).heap q = h q)) ∧
      (((Withdraw h a amount).heap q).ID = (h q).ID ∧
        ((Withdraw h a amount).heap q).Owner = (h q).Owner ∧
        ((Withdraw h a amount).heap q).MinBalance = (h q).MinBalance ∧
        (q ≠ a → (Withdraw h a amount).heap q = h q)) ∧
      (((Transfer h a amount target).heap q).ID = (h q).ID ∧
        ((Transfer h a amount target).heap q).Owner = (h q).Owner ∧
        ((Transfer h a amount target).heap q).MinBalance = (h q).MinBalance ∧
        (q ≠ a → q ≠ target → (Transfer h a amount target).heap q = h q)) := by
  have key : ∀ (g : Heap n) (p : Fin n) (v : ℚ),
      (setBalance g p v q).ID = (g q).ID ∧ (setBalance g p v q).Owner = (g q).Owner ∧
      (setBalance g p v q).MinBalance = (g q).MinBalance ∧
      (q ≠ p → setBalance g p v q = g q) := by
    intro g p v
    by_cases hq : q = p
    · subst hq; simp [setBalance]
    · simp [setBalance, Function.update_noteq hq]
  refine ⟨?_, ?_, ?_⟩
  · unfold Deposit
    split_ifs
    · simp
    · simp
    · exact key _ _ _
  · unfold Withdraw
    split_ifs
    · simp
    · simp
    · simp
    · exact key _ _ _
  · unfold Transfer
    split_ifs
    · simp
    · simp
    · simp
    · have k1 := key h a ((h a).Balance - amount)
      have k2 := key (setBalance h a ((h a).Balance - amount)) target
        ((setBalance h a ((h a).Balance - amount) target).Balance + amount)
      refine ⟨k2.1.trans k1.1, k2.2.1.trans k1.2.1, k2.2.2.1.trans k1.2.2.1, ?_⟩
      intro hqa hqt
      exact (k2.2.2.2 hqt).trans (k1.2.2.2 hqa)

/-- After Alice's transfer of 40 to Bob both accounts keep their identifier,
owner and floor. -/
theorem methods_frame_witness :
    ((Transfer heapAB 0 40 1).heap 0).ID = "A" ∧
      ((Transfer heapAB 0 40 1).heap 1).Owner = "Bob" ∧
      ((Transfer heapAB 0 40 1).heap 1).MinBalance = 0 := by
  refine ⟨?_, ?_, ?_⟩
  · rw [(methods_frame heapAB 0 1 40 0).2.2.1]; simp [heapAB]
  · rw [(methods_frame heapAB 0 1 40 1).2.2.2.1]; simp [heapAB]
  · rw [(methods_frame heapAB 0 1 40 1).2.2.2.2.1]; simp [heapAB]

/-! ## Concurrent calls: invariants -/

theorem shape_check {n : Nat} {p : Fin n} {amount : ℚ} {rest : List (Instr n)}
    {o : Option (Fin n)} (hs : shape (.check p amount :: rest) = some o) :
    o = none ∧ shape rest = some none := by
  simp only [shape] at hs
  split_ifs at hs with h1
  exact ⟨by simpa using hs.symm, h1⟩

theorem shape_lock {n : Nat} {p : Fin n} {rest : List (Instr n)}
    {o : Option (Fin n)} (hs : shape (.lock p :: rest) = some o) :
    o = none ∧ shape rest = some (some p) := by
  simp only [shape] at hs
  split_ifs at hs with h1
  exact ⟨by simpa using hs.symm, h1⟩

theorem shape_load {n : Nat} {p : Fin n} {rest : List (Instr n)}
    {o : Option (Fin n)} (hs : shape (.load p :: rest) = some o) :
    shape rest = some o := by
  simp only [shape] at hs
  split_ifs at hs with h1 h2
  · subst h1
    simpa [shape] using hs
  · rw [h2, hs]

theorem shape_store {n : Nat} {p : Fin n} {d : ℚ} {rest : List (Instr n)}
    {o : Option (Fin n)} (hs : shape (.store p d :: rest) = some o) :
    o = some p ∧ shape rest = some (some p) := by
  simp only [shape] at hs
  split_ifs at hs with h1
  exact ⟨by simpa using hs.symm, h1⟩

theorem shape_unlock {n : Nat} {p : Fin n} {rest : List (Instr n)}
    {o : Option (Fin n)} (hs : shape (.unlock p :: rest) = some o) :
    o = some p ∧ shape rest = some none := by
  simp only [shape] at hs
  split_ifs at hs with h1
  exact ⟨by simpa using hs.symm, h1⟩

theorem shape_code {n : Nat} (c : Call n) : shape c.code = some none := by
  cases c with
  | deposit a amount =>
    simp only [Call.code, DepositCode, critical]
    split_ifs <;> simp [shape]
  | withdraw a amount =>
    simp only [Call.code, WithdrawCode, critical]
    split_ifs <;> simp [shape]
  | transfer a amount target =>
    simp only [Call.code, TransferCode, critical]
    split_ifs <;> simp [shape]

theorem coherent_spawn {n m : Nat} (h : Heap n) (calls : Fin m → Call n) :
    Coherent (spawn h calls) := by
  intro t
  exact ⟨none, shape_code (calls t), fun p => by simp [spawn]⟩

theorem coherent_same {n m : Nat} {w : World n m} (hw : Coherent w) (t : Fin m)
    (hp : Heap n) (th : Thread n) (hsh : shape th.code = shape (w.threads t).code) :
    Coherent { heap := hp, owner := w.owner, threads := Function.update w.threads t th } := by
  intro t'
  by_cases ht : t' = t
  · subst ht
    obtain ⟨o, ho, hown⟩ := hw t'
    exact ⟨o, by simp [hsh, ho], hown⟩
  · obtain ⟨o, ho, hown⟩ := hw t'
    exact ⟨o, by simp [Function.update_noteq ht, ho], hown⟩

theorem coherent_lock {n m : Nat} {w : World n m} (hw : Coherent w) (t : Fin m)
    (p : Fin n) (th : Thread n) (hfree : w.owner p = none)
    (hold : shape (w.threads t).code = some none) (hnew : shape th.code = some (some p)) :
    Coherent { heap := w.heap, owner := Function.update w.owner p (some t),
               threads := Function.update w.threads t th } := by
  intro t'
  by_cases ht : t' = t
  · subst ht
    refine ⟨some p, by simp [hnew], fun q => ?_⟩
    obtain ⟨o, ho, hown⟩ := hw t'
    have ho' : o = none := by rw [hold] at ho; exact (Option.some.inj ho).symm
    by_cases hq : q = p
    · subst hq; simp
    · simp only [Function.update_noteq hq, Option.some.injEq]
      constructor
      · intro hc
        have := (hown q).1 hc
        rw [ho'] at this
        exact absurd this (by simp)
      · intro hc
        exact absurd hc.symm hq
  · obtain ⟨o, ho, hown⟩ := hw t'
    refine ⟨o, by simp [Function.update_noteq ht, ho], fun q => ?_⟩
    by_cases hq : q = p
    · subst hq
      simp only [Function.update_same, Option.some.injEq]
      constructor
      · intro hc; exact absurd hc.symm ht
      · intro hc
        have := (hown q).2 hc
        rw [hfree] at this
        exact absurd this (by simp)
    · simp only [Function.update_noteq hq]
      exact hown q

theorem coherent_unlock {n m : Nat} {w : World n m} (hw : Coherent w) (t : Fin m)
    (p : Fin n) (th : Thread n)
    (hold : shape (w.threads t).code = some (some p)) (hnew : shape th.code = some none) :
    Coherent { heap := w.heap, owner := Function.update w.owner p none,
               threads := Function.update w.threads t th } := by
  have hown_t : ∀ q, w.owner q = some t ↔ q = p := by
    intro q
    obtain ⟨o, ho, hown⟩ := hw t
    have ho' : o = some p := by rw [hold] at ho; exact (Option.some.inj ho).symm
    rw [hown q, ho']
    constructor
    · intro hc; exact (Option.some.inj hc).symm
    · intro hc; rw [hc]
  intro t'
  by_cases ht : t' = t
  · subst ht
    refine ⟨none, by simp [hnew], fun q => ?_⟩
    by_cases hq : q = p
    · subst hq; simp
    · simp only [Function.update_noteq hq, reduceCtorEq, iff_false]
      intro hc
      exact hq ((hown_t q).1 hc)
  · obtain ⟨o, ho, hown⟩ := hw t'
    refine ⟨o, by simp [Function.update_noteq ht, ho], fun q => ?_⟩
    by_cases hq : q = p
    · subst hq
      simp only [Function.update_same, reduceCtorEq, false_iff]
      intro hc
      have h1 := (hown q).2 hc
      have h2 := (hown_t q).2 rfl
      rw [h1] at h2
      exact ht (Option.some.inj h2)
    · simp only [Function.update_noteq hq]
      exact hown q

theorem coherent_step {n m : Nat} {w w' : World n m} {t : Fin m} (hw : Coherent w)
    (hstep : step w t = some w') : Coherent w' := by
  obtain ⟨o, ho, hown⟩ := hw t
  unfold step at hstep
  split at hstep
  · exact absurd hstep (by simp)
  · rename_i p amount rest hc
    rw [hc] at ho
    obtain ⟨_, hrest⟩ := shape_check ho
    split_ifs at hstep
    · cases hstep
      exact coherent_same hw t _ _ (by rw [hc]; simp [shape, hrest])
    · cases hstep
      exact coherent_same hw t _ _ (by rw [hc]; simp [shape, hrest])
  · rename_i p rest hc
    rw [hc] at ho
    obtain ⟨ho', hrest⟩ := shape_lock ho
    split_ifs at hstep with hfree
    cases hstep
    exact coherent_lock hw t p _ hfree (by rw [hc]; simp [shape, hrest]) hrest
  · rename_i p rest hc
    rw [hc] at ho
    have hrest := shape_load ho
    cases hstep
    exact coherent_same hw t _ _ (by rw [hc, ho]; exact hrest)
  · rename_i p d rest hc
    rw [hc] at ho
    obtain ⟨ho', hrest⟩ := shape_store ho
    cases hstep
    exact coherent_same hw t _ _ (by rw [hc, ho, ho']; exact hrest)
  · rename_i p rest hc
    rw [hc] at ho
    obtain ⟨ho', hrest⟩ := shape_unlock ho
    split_ifs at hstep with hmine
    cases hstep
    exact coherent_unlock hw t p _ (by rw [hc, ho, ho']) hrest

theorem coherent_sched {n m : Nat} (ts : List (Fin m)) :
    ∀ {w w' : World n m}, Coherent w → sched w ts = some w' → Coherent w' := by
  induction ts with
  | nil =>
    intro w w' hw hrun
    simp only [sched, Option.some.injEq] at hrun
    exact hrun ▸ hw
  | cons t ts ih =>
    intro w w' hw hrun
    simp only [sched] at hrun
    split at hrun
    · exact absurd hrun (by simp)
    · rename_i w1 hstep
      exact ih (coherent_step hw hstep) hrun

theorem holder_steps {n m : Nat} {w : World n m} (hw : Coherent w) {p : Fin n}
    {t : Fin m} (hheld : w.owner p = some t) : (step w t).isSome = true := by
  obtain ⟨o, ho, hown⟩ := hw t
  have hop : o = some p := (hown p).1 hheld
  subst hop
  unfold step
  split
  · rename_i hc
    rw [hc] at ho
    simp [shape] at ho
  · rename_i q amount rest hc
    rw [hc] at ho
    exact absurd (shape_check ho).1 (by simp)
  · rename_i q rest hc
    rw [hc] at ho
    exact absurd (shape_lock ho).1 (by simp)
  · simp
  · simp
  · rename_i q rest hc
    rw [hc] at ho
    have hq : some p = some q := (shape_unlock ho).1
    have hq' : q = p := (Option.some.inj hq).symm
    subst hq'
    simp [hheld]

theorem coherent_progress {n m : Nat} {w : World n m} (hw : Coherent w)
    (hleft : ∃ t, (w.threads t).code ≠ []) : ∃ t, (step w t).isSome = true := by
  obtain ⟨t, ht⟩ := hleft
  obtain ⟨o, ho, hown⟩ := hw t
  cases hc : (w.threads t).code with
  | nil => exact absurd hc ht
  | cons i rest =>
    cases i with
    | check p amount =>
      refine ⟨t, ?_⟩
      unfold step
      rw [hc]
      simp only
      split_ifs <;> simp
    | lock p =>
      cases hfree : w.owner p with
      | none =>
        refine ⟨t, ?_⟩
        unfold step
        rw [hc]
        simp [hfree]
      | some t' => exact ⟨t', holder_steps hw hfree⟩
    | load p =>
      refine ⟨t, ?_⟩
      unfold step
      rw [hc]
      simp
    | store p d =>
      refine ⟨t, ?_⟩
      unfold step
      rw [hc]
      simp
    | unlock p =>
      rw [hc] at ho
      have hop := (shape_unlock ho).1
      exact ⟨t, holder_steps hw ((hown p).2 hop)⟩

theorem coherent_waiting {n m : Nat} {w : World n m} (hw : Coherent w) {t : Fin m}
    {p : Fin n} {rest : List (Instr n)} (hc : (w.threads t).code = .lock p :: rest)
    (q : Fin n) : w.owner q ≠ some t := by
  obtain ⟨o, ho, hown⟩ := hw t
  rw [hc] at ho
  have ho' := (shape_lock ho).1
  intro hq
  have := (hown q).1 hq
  rw [ho'] at this
  exact absurd this (by simp)

theorem sum_update_thread {n m : Nat} {β : Type} [AddCommMonoid β]
    (f : Fin m → Thread n) (t : Fin m) (v : Thread n) (g : Thread n → β) :
    ∑ i, g (Function.update f t v i) + g (f t) = ∑ i, g (f i) + g v := by
  have hfun : (fun i => g (Function.update f t v i)) =
      Function.update (fun i => g (f i)) t (g v) := by
    funext i
    by_cases hi : i = t
    · subst hi; simp
    · simp [Function.update_noteq hi]
  rw [hfun, Finset.sum_update_of_mem (Finset.mem_univ t),
    ← Finset.add_sum_erase Finset.univ (fun i => g (f i)) (Finset.mem_univ t),
    Finset.sdiff_singleton_eq_erase]
  abel

theorem step_weight {n m : Nat} {w w' : World n m} {t : Fin m}
    (hstep : step w t = some w') : totalWeight w' + 1 ≤ totalWeight w := by
  have key : ∀ (th : Thread n) (hp : Heap n) (ow : Fin n → Option (Fin m)),
      codeWeight th.code + 1 ≤ codeWeight (w.threads t).code →
      totalWeight { heap := hp, owner := ow, threads := Function.update w.threads t th } + 1 ≤
        totalWeight w := by
    intro th hp ow hle
    have := sum_update_thread w.threads t th (fun x => codeWeight x.code)
    simp only [totalWeight]
    omega
  unfold step at hstep
  split at hstep
  · exact absurd hstep (by simp)
  · rename_i p amount rest hc
    split_ifs at hstep
    · cases hstep
      exact key _ _ _ (by rw [hc]; simp [codeWeight, Instr.weight]; try omega)
    · cases hstep
      exact key _ _ _ (by rw [hc]; simp [codeWeight, Instr.weight]; try omega)
  · rename_i p rest hc
    split_ifs at hstep
    cases hstep
    exact key _ _ _ (by rw [hc]; simp [codeWeight, Instr.weight]; try omega)
  · rename_i p rest hc
    cases hstep
    exact key _ _ _ (by rw [hc]; simp [codeWeight, Instr.weight]; try omega)
  · rename_i p d rest hc
    cases hstep
    exact key _ _ _ (by rw [hc]; simp [codeWeight, Instr.weight]; try omega)
  · rename_i p rest hc
    split_ifs at hstep
    cases hstep
    exact key _ _ _ (by rw [hc]; simp [codeWeight, Instr.weight]; try omega)

theorem sched_weight {n m : Nat} (ts : List (Fin m)) :
    ∀ {w w' : World n m}, sched w ts = some w' → ts.length + totalWeight w' ≤ totalWeight w := by
  induction ts with
  | nil =>
    intro w w' hrun
    simp only [sched, Option.some.injEq] at hrun
    subst hrun
    simp
  | cons t ts ih =>
    intro w w' hrun
    simp only [sched] at hrun
    split at hrun
    · exact absurd hrun (by simp)
    · rename_i w1 hstep
      have h1 := step_weight hstep
      have h2 := ih hrun
      simp only [List.length_cons]
      omega

theorem code_weight_le {n : Nat} (c : Call n) : codeWeight c.code ≤ 10 := by
  cases c with
  | deposit a amount =>
    simp only [Call.code, DepositCode, critical]
    split_ifs <;> simp [codeWeight, Instr.weight]
  | withdraw a amount =>
    simp only [Call.code, WithdrawCode, critical]
    split_ifs <;> simp [codeWeight, Instr.weight]
  | transfer a amount target =>
    simp only [Call.code, TransferCode, critical]
    split_ifs <;> simp [codeWeight, Instr.weight]

theorem spawn_weight {n m : Nat} (h : Heap n) (calls : Fin m → Call n) :
    totalWeight (spawn h calls) ≤ 10 * m := by
  have h1 : totalWeight (spawn h calls) ≤ ∑ _t : Fin m, 10 :=
    Finset.sum_le_sum (fun t _ => code_weight_le (calls t))
  simpa [mul_comm] using h1

/-- C13 (deadlock freedom).  Let any number of goroutines each run one call
(`a.Transfer(x, b)` and `b.Transfer(y, a)` among them) from a state where no
mutex is held, and let them be interleaved in any way.  In every state reached,
if some goroutine has not returned then some goroutine can take its next step,
and a goroutine that is about to wait for a mutex holds none itself, so no two
goroutines wait for each other; and no run is longer than ten steps per
goroutine, so every run ends, with all calls returned. -/
theorem transfers_deadlock_free {n m : Nat} (h : Heap n) (calls : Fin m → Call n)
    (ts : List (Fin m)) (w : World n m) (hrun : sched (spawn h calls) ts = some w) :
    ((∃ t, (w.threads t).code ≠ []) → ∃ t, (step w t).isSome = true) ∧
      (∀ t p rest, (w.threads t).code = Instr.lock p :: rest → ∀ q, w.owner q ≠ some t) ∧
      ts.length ≤ 10 * m := by
  have hco : Coherent w := coherent_sched ts (coherent_spawn h calls) hrun
  refine ⟨coherent_progress hco, fun t p rest hc q => coherent_waiting hco hc q, ?_⟩
  have h1 := sched_weight ts hrun
  have h2 := spawn_weight h calls
  omega

/-- Alice's transfer to Bob has reached the point where it holds Bob's mutex,
and Bob's transfer to Alice has passed its floor test and now needs that mutex:
a goroutine can still step, and Bob's goroutine holds no mutex. -/
theorem transfers_deadlock_free_witness :
    ∃ w, sched crossWorld [0, 0, 0, 0, 0, 0, 1] = some w ∧
      (∃ rest, (w.threads 1).code = Instr.lock 1 :: rest) ∧
      w.owner 1 = some 0 ∧
      (∃ t, (step w t).isSome = true) ∧ (∀ q, w.owner q ≠ some 1) := by
  have hcode0 : TransferCode (0 : Fin 2) 40 1 =
      [.check 0 40, .lock 0, .load 0, .store 0 (-40), .unlock 0,
       .lock 1, .load 1, .store 1 40, .unlock 1] := by
    simp [TransferCode, critical, MaxTransactionAmount]; norm_num
  have hcode1 : TransferCode (1 : Fin 2) 5 0 =
      [.check 1 5, .lock 1, .load 1, .store 1 (-5), .unlock 1,
       .lock 0, .load 0, .store 0 5, .unlock 0] := by
    simp [TransferCode, critical, MaxTransactionAmount]; norm_num
  obtain ⟨w, hw, hcode, hown⟩ : ∃ w, sched crossWorld [0, 0, 0, 0, 0, 0, 1] = some w ∧
      (∃ rest, (w.threads 1).code = Instr.lock 1 :: rest) ∧ w.owner 1 = some 0 := by
    have hth : crossWorld = ⟨heapAB, fun _ => none, fun t =>
        if t = 0 then ⟨TransferCode (0 : Fin 2) 40 1, 0⟩
        else ⟨TransferCode (1 : Fin 2) 5 0, 0⟩⟩ := by
      simp only [crossWorld, spawn]
      congr 1
      funext t
      split_ifs <;> simp [Call.code]
    have hA : heapAB 0 = { ID := "A", Owner := "Alice", Balance := 100, MinBalance := 0 } := by
      simp [heapAB]
    have hB : heapAB 1 = { ID := "B", Owner := "Bob", Balance := 10, MinBalance := 0 } := by
      simp [heapAB]
    rw [hth, hcode0, hcode1]
    norm_num [sched, step, setBalance, hA, hB]
  have key := transfers_deadlock_free heapAB
    (fun t => if t = 0 then Call.transfer 0 40 1 else Call.transfer 1 5 0)
    [0, 0, 0, 0, 0, 0, 1] w hw
  obtain ⟨rest, hrest⟩ := hcode
  exact ⟨w, hw, ⟨rest, hrest⟩, hown, key.1 ⟨1, by rw [hrest]; simp⟩,
    key.2.1 1 1 rest hrest⟩

end Challenge7

namespace Challenge7F

/-! ## Rounding -/

theorem bitsAux_zero (fuel : Nat) : bitsAux fuel 0 = 0 := by
  cases fuel <;> simp [bitsAux]

theorem bitsAux_spec : ∀ (fuel n : Nat), n ≤ fuel → n ≠ 0 →
    2 ^ (bitsAux fuel n - 1) ≤ n ∧ n < 2 ^ bitsAux fuel n ∧ 0 < bitsAux fuel n
  | 0, n, h, h0 => absurd (Nat.le_zero.mp h) h0
  | fuel + 1, n, h, h0 => by
    simp only [bitsAux, if_neg h0]
    by_cases h2 : n / 2 = 0
    · rw [h2, bitsAux_zero]
      have : n = 1 := by omega
      subst this
      simp
    · obtain ⟨a, b, c⟩ := bitsAux_spec fuel (n / 2) (by omega) h2
      obtain ⟨k, hk⟩ : ∃ k, bitsAux fuel (n / 2) = k + 1 :=
        ⟨bitsAux fuel (n / 2) - 1, by omega⟩
      rw [hk] at a b
      simp only [hk, Nat.add_sub_cancel] at a ⊢
      rw [pow_succ] at b ⊢
      rw [pow_succ]
      omega

theorem bits_spec {n : Nat} (h0 : n ≠ 0) : 2 ^ (bits n - 1) ≤ n ∧ n < 2 ^ bits n ∧ 0 < bits n :=
  bitsAux_spec n n le_rfl h0

theorem bits_mono {m n : Nat} (h : m ≤ n) : bits m ≤ bits n := by
  by_cases hm : m = 0
  · subst hm; simp [bits, bitsAux_zero]
  have hn : n ≠ 0 := by omega
  obtain ⟨a, _, _⟩ := bits_spec hm
  obtain ⟨_, b, _⟩ := bits_spec hn
  by_contra hlt
  have : 2 ^ bits n ≤ 2 ^ (bits m - 1) := Nat.pow_le_pow_right (by norm_num) (by omega)
  omega

theorem round53_lower (n : Nat) : n / 2 ^ (bits n - 53) * 2 ^ (bits n - 53) ≤ round53 n := by
  unfold round53
  simp only
  split_ifs
  · exact le_rfl
  · exact le_rfl
  · exact Nat.mul_le_mul_right _ (Nat.le_succ _)

theorem round53_upper (n : Nat) :
    round53 n ≤ (n / 2 ^ (bits n - 53) + 1) * 2 ^ (bits n - 53) := by
  unfold round53
  simp only
  split_ifs
  · exact Nat.mul_le_mul_right _ (Nat.le_succ _)
  · exact Nat.mul_le_mul_right _ (Nat.le_succ _)
  · exact le_rfl

theorem round53_of_dvd {n : Nat} (h : n % 2 ^ (bits n - 53) = 0) : round53 n = n := by
  have hpos : 0 < 2 ^ (bits n - 53) := Nat.pow_pos (by norm_num)
  unfold round53
  simp only [h]
  rw [if_pos (by omega)]
  have := Nat.div_add_mod n (2 ^ (bits n - 53))
  rw [h] at this
  rw [Nat.mul_comm]
  omega

theorem dvd_of_round53 {n : Nat} (h : round53 n = n) : n % 2 ^ (bits n - 53) = 0 := by
  have hpos : 0 < 2 ^ (bits n - 53) := Nat.pow_pos (by norm_num)
  have hdm := Nat.div_add_mod n (2 ^ (bits n - 53))
  have hlt := Nat.mod_lt n hpos
  by_contra hr
  unfold round53 at h
  simp only at h
  generalize 2 ^ (bits n - 53) = P at *
  generalize n / P = q at *
  generalize n % P = r at *
  rw [Nat.mul_comm] at hdm
  split_ifs at h
  · omega
  · omega
  · rw [Nat.add_mul] at h; omega

theorem floor_multiple {P m n : Nat} (hP : 0 < P) (hd : P ∣ m) (h : m ≤ n) : m ≤ n / P * P := by
  obtain ⟨k, rfl⟩ := hd
  have : k ≤ n / P := (Nat.le_div_iff_mul_le hP).mpr (by rw [Nat.mul_comm]; exact h)
  calc P * k = k * P := Nat.mul_comm _ _
    _ ≤ n / P * P := Nat.mul_le_mul_right _ this

theorem ceil_multiple {P m n : Nat} (hP : 0 < P) (hd : P ∣ m) (h : n < m) :
    (n / P + 1) * P ≤ m := by
  obtain ⟨k, rfl⟩ := hd
  have : n / P < k := (Nat.div_lt_iff_lt_mul hP).mpr (by rw [Nat.mul_comm]; exact h)
  calc (n / P + 1) * P ≤ k * P := Nat.mul_le_mul_right _ this
    _ = P * k := Nat.mul_comm _ _

/-- Rounding does not go below a representable magnitude that the argument is
above. -/
theorem round53_ge {c n : Nat} (hc : round53 c = c) (h : c ≤ n) : c ≤ round53 n := by
  have hpos : 0 < 2 ^ (bits n - 53) := Nat.pow_pos (by norm_num)
  refine le_trans ?_ (round53_lower n)
  by_cases hc0 : c = 0
  · subst hc0; exact Nat.zero_le _
  have hn0 : n ≠ 0 := by omega
  have hb := bits_mono h
  by_cases hs : bits c - 53 = bits n - 53
  · refine floor_multiple hpos ?_ h
    rw [← hs]
    exact Nat.dvd_of_mod_eq_zero (dvd_of_round53 hc)
  · have hlt : bits c < bits n := by omega
    obtain ⟨_, c2, _⟩ := bits_spec hc0
    obtain ⟨n1, _, _⟩ := bits_spec hn0
    have hle : 2 ^ bits c ≤ 2 ^ (bits n - 1) := Nat.pow_le_pow_right (by norm_num) (by omega)
    have hd : 2 ^ (bits n - 53) ∣ 2 ^ (bits n - 1) := pow_dvd_pow 2 (by omega)
    have := floor_multiple hpos hd n1
    omega

/-- Rounding does not go above a representable magnitude that the argument is
below. -/
theorem round53_le {c n : Nat} (hc : round53 c = c) (h : n ≤ c) : round53 n ≤ c := by
  have hpos : 0 < 2 ^ (bits n - 53) := Nat.pow_pos (by norm_num)
  by_cases hr : n % 2 ^ (bits n - 53) = 0
  · rw [round53_of_dvd hr]; exact h
  refine le_trans (round53_upper n) ?_
  have hn0 : n ≠ 0 := by
    rintro rfl
    simp at hr
  have hc0 : c ≠ 0 := by omega
  have hb := bits_mono h
  by_cases hs : bits c - 53 = bits n - 53
  · have hd : 2 ^ (bits n - 53) ∣ c := by
      rw [← hs]
      exact Nat.dvd_of_mod_eq_zero (dvd_of_round53 hc)
    refine ceil_multiple hpos hd (lt_of_le_of_ne h ?_)
    rintro rfl
    exact hr (Nat.mod_eq_zero_of_dvd hd)
  · have hlt : bits n < bits c := by omega
    obtain ⟨c1, _, _⟩ := bits_spec hc0
    obtain ⟨_, n2, _⟩ := bits_spec hn0
    have hle : 2 ^ bits n ≤ 2 ^ (bits c - 1) := Nat.pow_le_pow_right (by norm_num) (by omega)
    have hd : 2 ^ (bits n - 53) ∣ 2 ^ bits n := pow_dvd_pow 2 (by omega)
    have := ceil_multiple hpos hd n2
    omega

/-! ## Comparisons and sums of `float64` values -/

theorem le_of_not_lt {x y : Float64} (hx : x ≠ .nan) (hy : y ≠ .nan) (h : x.lt y = false) :
    y.le x = true := by
  rcases x with _ | s | ⟨s, m⟩ <;> rcases y with _ | t | ⟨t, k⟩ <;>
    simp_all [Float64.lt, Float64.le]
  revert h; cases s <;> cases t <;> simp

theorem not_le_of_lt {x y : Float64} (h : x.lt y = true) : y.le x = false := by
  rcases x with _ | s | ⟨s, m⟩ <;> rcases y with _ | t | ⟨t, k⟩ <;>
    simp_all [Float64.lt, Float64.le]

theorem not_lt_of_le {x y : Float64} (h : x.le y = true) : y.lt x = false := by
  rcases x with _ | s | ⟨s, m⟩ <;> rcases y with _ | t | ⟨t, k⟩ <;>
    simp_all [Float64.lt, Float64.le]
  revert h; cases s <;> cases t <;> simp

theorem ne_nan_of_le {x y : Float64} (h : x.le y = true) : x ≠ .nan ∧ y ≠ .nan := by
  rcases x with _ | s | ⟨s, m⟩ <;> rcases y with _ | t | ⟨t, k⟩ <;>
    simp_all [Float64.le]

theorem ne_nan_of_lt {x y : Float64} (h : x.lt y = true) : x ≠ .nan ∧ y ≠ .nan := by
  rcases x with _ | s | ⟨s, m⟩ <;> rcases y with _ | t | ⟨t, k⟩ <;>
    simp_all [Float64.lt]

theorem le_fin_iff (t : Bool) (k : Nat) (u : Bool) (j : Nat) :
    (Float64.fin t k).le (.fin u j) = true ↔
      (Float64.fin t k).scaled ≤ (Float64.fin u j).scaled := by
  simp [Float64.le]

theorem f64_le_trans {x y z : Float64} (h1 : x.le y = true) (h2 : y.le z = true) :
    x.le z = true := by
  rcases x with _ | s | ⟨s, m⟩ <;> rcases y with _ | t | ⟨t, k⟩ <;>
    rcases z with _ | u | ⟨u, j⟩ <;>
    first
    | (simp [Float64.le] at h1; done)
    | (simp [Float64.le] at h2; done)
    | (rw [le_fin_iff] at *; exact le_trans h1 h2)
    | (revert h1 h2; cases s <;> cases t <;> cases u <;> simp [Float64.le])

theorem max_eq : ∃ M, MaxTransactionAmount = Float64.fin false M := ⟨_, rfl⟩

theorem scaled_nonneg (m : Nat) : 0 ≤ (Float64.fin false m).scaled := by
  simp [Float64.scaled]

/-- An amount between 0 and the limit is finite and not negative. -/
theorem finite_of_bounds {x : Float64} (h0 : Float64.zero.le x = true)
    (h1 : x.le MaxTransactionAmount = true) :
    ∃ s m, x = .fin s m ∧ 0 ≤ (Float64.fin s m).scaled := by
  obtain ⟨M, hM⟩ := max_eq
  rw [hM] at h1
  rcases x with _ | s | ⟨s, m⟩
  · simp [Float64.le, Float64.zero] at h0
  · simp [Float64.le, Float64.zero] at h0 h1
    simp [h0] at h1
  · refine ⟨s, m, rfl, ?_⟩
    simpa [Float64.le, Float64.zero, Float64.scaled] using h0

/-- A negative amount is not above the limit. -/
theorem not_max_lt_of_lt_zero {x : Float64} (h : x.lt Float64.zero = true) :
    MaxTransactionAmount.lt x = false := by
  obtain ⟨M, hM⟩ := max_eq
  rw [hM]
  have hM0 := scaled_nonneg M
  rcases x with _ | s | ⟨s, m⟩
  · simp [Float64.lt]
  · simp [Float64.lt, Float64.zero] at h ⊢
    exact h
  · simp only [Float64.lt, Float64.zero, decide_eq_true_eq, decide_eq_false_iff_not,
      not_lt] at h ⊢
    have : (Float64.fin false 0).scaled = 0 := by simp [Float64.scaled]
    omega

theorem ofMag_ne_nan (s : Bool) (n : Nat) : Float64.ofMag s n ≠ .nan := by
  unfold Float64.ofMag
  split_ifs <;> simp

theorem add_fin_ne_nan {b : Float64} (hb : b ≠ .nan) (s : Bool) (m : Nat) :
    b.add (.fin s m) ≠ .nan := by
  rcases b with _ | t | ⟨t, k⟩
  · exact absurd rfl hb
  · simp [Float64.add]
  · simp only [Float64.add]
    split_ifs
    · simp
    · exact ofMag_ne_nan _ _

theorem sub_fin_ne_nan {b : Float64} (hb : b ≠ .nan) (s : Bool) (m : Nat) :
    b.sub (.fin s m) ≠ .nan :=
  add_fin_ne_nan hb _ _

theorem scaled_neg (s : Bool) (m : Nat) :
    (Float64.fin (!s) m).scaled = -(Float64.fin s m).scaled := by
  cases s <;> simp [Float64.scaled]

theorem natAbs_scaled (s : Bool) (m : Nat) : (Float64.fin s m).scaled.natAbs = m := by
  cases s <;> simp [Float64.scaled]

theorem scaled_ofSign {z : Int} : (Float64.fin (decide (z < 0)) z.natAbs).scaled = z := by
  by_cases h : z < 0
  · simp only [Float64.scaled, h, decide_True, if_true]; omega
  · simp only [Float64.scaled, h, decide_False, Bool.false_eq_true, if_false]; omega

/-- A sum whose exact value is a `float64` is that value. -/
theorem add_exact (s : Bool) (m : Nat) (t : Bool) (k : Nat)
    (h : Representable ((Float64.fin s m).scaled + (Float64.fin t k).scaled).natAbs) :
    ∃ u j, (Float64.fin s m).add (.fin t k) = .fin u j ∧
      (Float64.fin u j).scaled = (Float64.fin s m).scaled + (Float64.fin t k).scaled := by
  simp only [Float64.add]
  split_ifs with hz
  · exact ⟨_, _, rfl, by rw [hz]; cases (s && t) <;> simp [Float64.scaled]⟩
  · refine ⟨_, _, ?_, scaled_ofSign⟩
    unfold Float64.ofMag
    rw [h.1, if_pos h.2]

/-- A difference whose exact value is a `float64` is that value. -/
theorem sub_exact (s : Bool) (m : Nat) (t : Bool) (k : Nat)
    (h : Representable ((Float64.fin s m).scaled - (Float64.fin t k).scaled).natAbs) :
    ∃ u j, (Float64.fin s m).sub (.fin t k) = .fin u j ∧
      (Float64.fin u j).scaled = (Float64.fin s m).scaled - (Float64.fin t k).scaled := by
  have h' : Representable ((Float64.fin s m).scaled + (Float64.fin (!t) k).scaled).natAbs := by
    rw [scaled_neg]; exact h
  obtain ⟨u, j, e1, e2⟩ := add_exact s m (!t) k h'
  exact ⟨u, j, e1, by rw [e2, scaled_neg]; ring⟩

/-- Adding an amount that is not negative does not lower a balance. -/
theorem le_add_of_nonneg {b : Float64} (hb : b ≠ .nan) (hg : b.Genuine) (s : Bool) (m : Nat)
    (hx : 0 ≤ (Float64.fin s m).scaled) : b.le (b.add (.fin s m)) = true := by
  rcases b with _ | t | ⟨t, k⟩
  · exact absurd rfl hb
  · simp [Float64.add, Float64.le]
  · have hk := natAbs_scaled t k
    have hg' : Representable k := hg
    simp only [Float64.add]
    generalize hbv : (Float64.fin t k).scaled = bv at *
    generalize (Float64.fin s m).scaled = xv at *
    split_ifs with hz
    · rw [le_fin_iff, hbv]
      have : (Float64.fin (t && s) 0).scaled = 0 := by cases (t && s) <;> simp [Float64.scaled]
      omega
    · unfold Float64.ofMag
      by_cases hneg : bv + xv < 0
      · have hle : (bv + xv).natAbs ≤ k := by omega
        have hr := round53_le hg'.1 hle
        have hs : (Float64.fin (decide (bv + xv < 0)) (round53 (bv + xv).natAbs)).scaled =
            -(round53 (bv + xv).natAbs : Int) := by
          simp only [Float64.scaled, hneg, decide_True, if_true]
        rw [if_pos (lt_of_le_of_lt hr hg'.2), le_fin_iff, hbv, hs]
        omega
      · split_ifs with hov
        · have hs : (Float64.fin (decide (bv + xv < 0)) (round53 (bv + xv).natAbs)).scaled =
              (round53 (bv + xv).natAbs : Int) := by
            simp only [Float64.scaled, hneg, decide_False, Bool.false_eq_true, if_false]
          rw [le_fin_iff, hbv, hs]
          by_cases hb0 : bv ≤ 0
          · omega
          · have hle : k ≤ (bv + xv).natAbs := by omega
            have hr := round53_ge hg'.1 hle
            omega
        · simp [Float64.le, hneg]

/-! ## The bank account on `float64` values -/

theorem zero_ne_nan : Float64.zero ≠ .nan := by
  simp [Float64.zero]

theorem max_ne_nan : MaxTransactionAmount ≠ .nan := by
  obtain ⟨M, hM⟩ := max_eq
  rw [hM]
  simp

theorem setBalance_at {n : Nat} (h : Heap n) (p : Fin n) (v : Float64) :
    setBalance h p v p = { h p with Balance := v } := by
  simp [setBalance]

theorem setBalance_off {n : Nat} (h : Heap n) (p q : Fin n) (v : Float64) (hq : q ≠ p) :
    setBalance h p v q = h q := by
  simp [setBalance, Function.update_noteq hq]

theorem setBalance_twice {n : Nat} (h : Heap n) (p : Fin n) (v v' : Float64) :
    setBalance (setBalance h p v) p v' = setBalance h p v' := by
  funext q
  by_cases hq : q = p
  · subst hq; simp [setBalance]
  · simp [setBalance, Function.update_noteq hq]

theorem setBalance_self {n : Nat} (h : Heap n) (p : Fin n) :
    setBalance h p (h p).Balance = h := by
  funext q
  by_cases hq : q = p
  · subst hq; simp [setBalance]
  · simp [setBalance, Function.update_noteq hq]

theorem exists_of_isFinite {x : Float64} (h : x.isFinite = true) : ∃ s m, x = .fin s m := by
  rcases x with _ | s | ⟨s, m⟩
  · simp [Float64.isFinite] at h
  · simp [Float64.isFinite] at h
  · exact ⟨s, m, rfl⟩

/-- A difference of finite values whose exact value is a `float64` is computed
exactly. -/
theorem sub_exact_of_finite {b x : Float64} (hb : b.isFinite = true) (hx : x.isFinite = true)
    (hr : Representable (b.scaled - x.scaled).natAbs) :
    (b.sub x).isFinite = true ∧ (b.sub x).scaled = b.scaled - x.scaled := by
  obtain ⟨s, m, rfl⟩ := exists_of_isFinite hb
  obtain ⟨t, k, rfl⟩ := exists_of_isFinite hx
  obtain ⟨u, j, e1, e2⟩ := sub_exact s m t k hr
  rw [e1]
  exact ⟨rfl, e2⟩

/-- A sum of finite values whose exact value is a `float64` is computed
exactly. -/
theorem add_exact_of_finite {b x : Float64} (hb : b.isFinite = true) (hx : x.isFinite = true)
    (hr : Representable (b.scaled + x.scaled).natAbs) :
    (b.add x).isFinite = true ∧ (b.add x).scaled = b.scaled + x.scaled := by
  obtain ⟨s, m, rfl⟩ := exists_of_isFinite hb
  obtain ⟨t, k, rfl⟩ := exists_of_isFinite hx
  obtain ⟨u, j, e1, e2⟩ := add_exact s m t k hr
  rw [e1]
  exact ⟨rfl, e2⟩

/-- The validation of `Withdraw`, which `Transfer` repeats: for operands that
are numbers the call passes it exactly when the amount is between 0 and the
limit and the rounded difference is not below the floor. -/
theorem withdraw_passes {n : Nat} (h : Heap n) (a : Fin n) (amount : Float64)
    (hB : (h a).Balance ≠ .nan) (hM : (h a).MinBalance ≠ .nan) (hamt : amount ≠ .nan) :
    (Withdraw h a amount).err = none ↔
      Float64.zero.le amount = true ∧ amount.le MaxTransactionAmount = true ∧
        (h a).MinBalance.le ((h a).Balance.sub amount) = true := by
  unfold Withdraw
  split_ifs with h1 h2 h3
  · simp [not_le_of_lt h1]
  · simp [not_le_of_lt h2]
  · simp [not_le_of_lt h3]
  · have e1 := le_of_not_lt hamt zero_ne_nan (by simpa using h1)
    have e2 := le_of_not_lt max_ne_nan hamt (by simpa using h2)
    obtain ⟨s, m, rfl, _⟩ := finite_of_bounds e1 e2
    have e3 := le_of_not_lt (sub_fin_ne_nan hB s m) hM (by simpa using h3)
    simp [e1, e2, e3]

theorem withdraw_heap {n : Nat} (h : Heap n) (a : Fin n) (amount : Float64)
    (herr : (Withdraw h a amount).err = none) :
    (Withdraw h a amount).heap = setBalance h a ((h a).Balance.sub amount) := by
  unfold Withdraw at herr ⊢
  split_ifs at herr ⊢
  simp at herr ⊢

theorem transfer_err {n : Nat} (h : Heap n) (a target : Fin n) (amount : Float64) :
    (Transfer h a amount target).err = (Withdraw h a amount).err := by
  unfold Transfer Withdraw
  split_ifs <;> rfl

theorem transfer_heap {n : Nat} (h : Heap n) (a target : Fin n) (amount : Float64)
    (herr : (Transfer h a amount target).err = none) :
    (Transfer h a amount target).heap =
      setBalance (setBalance h a ((h a).Balance.sub amount)) target
        (((setBalance h a ((h a).Balance.sub amount)) target).Balance.add amount) := by
  unfold Transfer at herr ⊢
  split_ifs at herr ⊢
  simp at herr ⊢

theorem transfer_heap_of_err {n : Nat} (h : Heap n) (a target : Fin n) (amount : Float64)
    (herr : (Transfer h a amount target).err ≠ none) : (Transfer h a amount target).heap = h := by
  unfold Transfer at herr ⊢
  split_ifs at herr ⊢ <;> simp at herr ⊢

/-! ## The claims on `float64` values -/

set_option maxRecDepth 100000 in
/-- C2, the claim as stated fails.  Alice has `10^16` and Bob 0, both with floor
0.  Alice's transfer of 1 to Bob returns nil, leaves Alice at `10^16` (the
`float64` difference `10^16 - 1` rounds to `10^16`) and Bob at 1: the sum of the
two balances has grown by 1, and Alice's balance has not gone down by the
amount. -/
theorem transfer_conservation_counterexample :
    (0 : Fin 2) ≠ 1 ∧ (heapRich 0).MinBalance.le (heapRich 0).Balance = true ∧
      (Transfer heapRich 0 (Float64.ofNat 1) 1).err = none ∧
      ((Transfer heapRich 0 (Float64.ofNat 1) 1).heap 0).Balance =
        Float64.ofNat 10000000000000000 ∧
      ((Transfer heapRich 0 (Float64.ofNat 1) 1).heap 1).Balance = Float64.ofNat 1 ∧
      ((Transfer heapRich 0 (Float64.ofNat 1) 1).heap 0).Balance.scaled +
          ((Transfer heapRich 0 (Float64.ofNat 1) 1).heap 1).Balance.scaled ≠
        (heapRich 0).Balance.scaled + (heapRich 1).Balance.scaled ∧
      ((Transfer heapRich 0 (Float64.ofNat 1) 1).heap 0).Balance.scaled ≠
        (heapRich 0).Balance.scaled - (Float64.ofNat 1).scaled := by
  decide!

/-- C2, amended.  For distinct accounts `a` and `b` and every amount: when
`a.Transfer(amount, b)` returns an error, both balances are what they were; when
it returns nil, `a.Balance` is the `float64` difference `a.Balance - amount` and
`b.Balance` the `float64` sum `b.Balance + amount` (the exact results rounded to
nearest, ties to even), `a.Balance >= a.MinBalance` afterwards provided the
balance, the floor and the amount are numbers, and the sum of the two balances
is what it was whenever the exact difference and the exact sum are `float64`
values, so that neither operation rounds. -/
theorem transfer_conservation {n : Nat} (h : Heap n) (a b : Fin n) (amount : Float64)
    (hab : a ≠ b) :
    ((Transfer h a amount b).err ≠ none → (Transfer h a amount b).heap = h) ∧
      ((Transfer h a amount b).err = none →
        ((Transfer h a amount b).heap a).Balance = (h a).Balance.sub amount ∧
        ((Transfer h a amount b).heap b).Balance = (h b).Balance.add amount ∧
        ((h a).Balance ≠ .nan → (h a).MinBalance ≠ .nan → amount ≠ .nan →
          ((Transfer h a amount b).heap a).MinBalance.le
            ((Transfer h a amount b).heap a).Balance = true) ∧
        ((h a).Balance.isFinite = true → (h b).Balance.isFinite = true →
          amount.isFinite = true →
          Representable ((h a).Balance.scaled - amount.scaled).natAbs →
          Representable ((h b).Balance.scaled + amount.scaled).natAbs →
          ((Transfer h a amount b).heap a).Balance.isFinite = true ∧
          ((Transfer h a amount b).heap b).Balance.isFinite = true ∧
          ((Transfer h a amount b).heap a).Balance.scaled +
              ((Transfer h a amount b).heap b).Balance.scaled =
            (h a).Balance.scaled + (h b).Balance.scaled)) := by
  have hba : b ≠ a := fun e => hab e.symm
  refine ⟨transfer_heap_of_err h a b amount, fun herr => ?_⟩
  have hw : (Withdraw h a amount).err = none := by rw [← transfer_err h a b amount]; exact herr
  rw [transfer_heap h a b amount herr]
  simp only [setBalance_at, setBalance_off _ _ _ _ hab, setBalance_off _ _ _ _ hba]
  refine ⟨trivial, trivial, fun hB hM hamt => ((withdraw_passes h a amount hB hM hamt).mp hw).2.2, ?_⟩
  intro fa fb fx ra rb
  obtain ⟨d1, d2⟩ := sub_exact_of_finite fa fx ra
  obtain ⟨c1, c2⟩ := add_exact_of_finite fb fx rb
  refine ⟨d1, c1, ?_⟩
  rw [d2, c2]
  ring

set_option maxRecDepth 100000 in
/-- Scenario 4: Alice (100) transfers 40 to Bob (10); the call returns nil and
leaves 60 and 50. -/
theorem transfer_conservation_witness :
    (0 : Fin 2) ≠ 1 ∧ (Transfer heapAB 0 (Float64.ofNat 40) 1).err = none ∧
      ((Transfer heapAB 0 (Float64.ofNat 40) 1).heap 0).Balance = Float64.ofNat 60 ∧
      ((Transfer heapAB 0 (Float64.ofNat 40) 1).heap 1).Balance = Float64.ofNat 50 ∧
      ((Transfer heapAB 0 (Float64.ofNat 40) 1).heap 0).Balance.scaled +
          ((Transfer heapAB 0 (Float64.ofNat 40) 1).heap 1).Balance.scaled =
        (heapAB 0).Balance.scaled + (heapAB 1).Balance.scaled := by
  have hne : (0 : Fin 2) ≠ 1 := by decide
  have herr : (Transfer heapAB 0 (Float64.ofNat 40) 1).err = none := by decide!
  have key := (transfer_conservation heapAB 0 1 (Float64.ofNat 40) hne).2 herr
  refine ⟨hne, herr, ?_, ?_, ?_⟩
  · rw [key.1]; decide!
  · rw [key.2.1]; decide!
  · exact (key.2.2.2 (by decide!) (by decide!) (by decide!)
      (by unfold Representable; decide!) (by unfold Representable; decide!)).2.2

set_option maxRecDepth 100000 in
/-- C4, the claim as stated fails.  On an account with `Balance = MinBalance =
10^16`, `Withdraw(1)` returns nil although `Balance - 1` is below `MinBalance`,
and the balance it leaves is the old one, not the old one minus 1: the
`float64` difference `10^16 - 1` rounds to `10^16`.  And `Withdraw(NaN)` returns
nil although `0 <= NaN` is false. -/
theorem withdraw_postcondition_counterexample :
    (Withdraw heapBig 0 (Float64.ofNat 1)).err = none ∧
      (heapBig 0).Balance.scaled - (Float64.ofNat 1).scaled < (heapBig 0).MinBalance.scaled ∧
      ((Withdraw heapBig 0 (Float64.ofNat 1)).heap 0).Balance = (heapBig 0).Balance ∧
      ((Withdraw heapBig 0 (Float64.ofNat 1)).heap 0).Balance.scaled ≠
        (heapBig 0).Balance.scaled - (Float64.ofNat 1).scaled ∧
      (Withdraw heapBig 0 Float64.nan).err = none ∧
      Float64.zero.le Float64.nan = false := by
  decide!

/-- C4, amended.  When the balance, the floor and the amount are numbers (not
NaN), `Withdraw(amount)` returns nil if and only if `0 <= amount <= 10000` and
the `float64` difference `Balance - amount` (the exact difference rounded to
nearest, ties to even) is `>= MinBalance`; when it returns nil the new balance
is that `float64` difference and is `>= MinBalance`, and it is the exact
difference whenever the exact difference is a `float64`. -/
theorem withdraw_postcondition {n : Nat} (h : Heap n) (a : Fin n) (amount : Float64)
    (hB : (h a).Balance ≠ .nan) (hM : (h a).MinBalance ≠ .nan) (hamt : amount ≠ .nan) :
    ((Withdraw h a amount).err = none ↔
        Float64.zero.le amount = true ∧ amount.le MaxTransactionAmount = true ∧
          (h a).MinBalance.le ((h a).Balance.sub amount) = true) ∧
      ((Withdraw h a amount).err = none →
        ((Withdraw h a amount).heap a).Balance = (h a).Balance.sub amount ∧
        ((Withdraw h a amount).heap a).MinBalance.le
          ((Withdraw h a amount).heap a).Balance = true ∧
        ((h a).Balance.isFinite = true → amount.isFinite = true →
          Representable ((h a).Balance.scaled - amount.scaled).natAbs →
          ((Withdraw h a amount).heap a).Balance.isFinite = true ∧
          ((Withdraw h a amount).heap a).Balance.scaled =
            (h a).Balance.scaled - amount.scaled)) := by
  have hiff := withdraw_passes h a amount hB hM hamt
  refine ⟨hiff, fun herr => ?_⟩
  rw [withdraw_heap h a amount herr, setBalance_at]
  exact ⟨rfl, (hiff.mp herr).2.2, fun hb hx hr => sub_exact_of_finite hb hx hr⟩

set_option maxRecDepth 100000 in
/-- Withdrawing 50 from balance 150 with floor 10 returns nil and leaves 100. -/
theorem withdraw_postcondition_witness :
    (Withdraw heapA1 0 (Float64.ofNat 50)).err = none ∧
      ((Withdraw heapA1 0 (Float64.ofNat 50)).heap 0).Balance = Float64.ofNat 100 ∧
      ((Withdraw heapA1 0 (Float64.ofNat 50)).heap 0).Balance.scaled =
        (heapA1 0).Balance.scaled - (Float64.ofNat 50).scaled := by
  have key := withdraw_postcondition heapA1 0 (Float64.ofNat 50) (by decide!) (by decide!)
    (by decide!)
  have herr : (Withdraw heapA1 0 (Float64.ofNat 50)).err = none := key.1.2 (by decide!)
  refine ⟨herr, ?_, ((key.2 herr).2.2 (by decide!) (by decide!)
    (by unfold Representable; decide!)).2⟩
  rw [(key.2 herr).1]
  decide!

set_option maxRecDepth 100000 in
/-- C5, the claim as stated fails.  On an account with `Balance = MinBalance =
10^16`, the amount 1 is between 0 and 10000 and `Balance - 1` is below
`MinBalance`, yet `Withdraw(1)` returns no `InsufficientFundsError`: it returns
nil. -/
theorem withdraw_error_kinds_counterexample :
    Float64.zero.le (Float64.ofNat 1) = true ∧
      (Float64.ofNat 1).le MaxTransactionAmount = true ∧
      (heapBig 0).Balance.scaled - (Float64.ofNat 1).scaled < (heapBig 0).MinBalance.scaled ∧
      (Withdraw heapBig 0 (Float64.ofNat 1)).err.map AccError.kind ≠
        some Challenge7.ErrKind.insufficientFunds ∧
      (Withdraw heapBig 0 (Float64.ofNat 1)).err = none := by
  decide!

/-- C5, amended.  `Withdraw(amount)` returns a `NegativeAmountError` exactly
when `amount < 0`, an `ExceedsLimitError` exactly when `amount > 10000`, and an
`InsufficientFundsError` exactly when `0 <= amount <= 10000` and the `float64`
difference `Balance - amount` (the exact difference rounded to nearest, ties to
even) is `< MinBalance`.  This holds for all `float64` values, NaN and the
infinities included. -/
theorem withdraw_error_kinds {n : Nat} (h : Heap n) (a : Fin n) (amount : Float64) :
    ((Withdraw h a amount).err.map AccError.kind = some Challenge7.ErrKind.negativeAmount ↔
        amount.lt Float64.zero = true) ∧
      ((Withdraw h a amount).err.map AccError.kind = some Challenge7.ErrKind.exceedsLimit ↔
        MaxTransactionAmount.lt amount = true) ∧
      ((Withdraw h a amount).err.map AccError.kind =
          some Challenge7.ErrKind.insufficientFunds ↔
        Float64.zero.le amount = true ∧ amount.le MaxTransactionAmount = true ∧
          ((h a).Balance.sub amount).lt (h a).MinBalance = true) := by
  unfold Withdraw
  split_ifs with h1 h2 h3
  · simp [AccError.kind, h1, not_max_lt_of_lt_zero h1, not_le_of_lt h1]
  · simp [AccError.kind, h1, h2, not_le_of_lt h2]
  · have hamt : amount ≠ .nan := by
      rintro rfl
      rcases hb : (h a).Balance with _ | s | ⟨s, m⟩ <;>
        simp [hb, Float64.sub, Float64.add, Float64.neg, Float64.lt] at h3
    have e1 := le_of_not_lt hamt zero_ne_nan (by simpa using h1)
    have e2 := le_of_not_lt max_ne_nan hamt (by simpa using h2)
    simp [AccError.kind, h1, h2, h3, e1, e2]
  · simp [h1, h2, h3]

set_option maxRecDepth 100000 in
/-- Scenario 1: with balance 150 and floor 10, `Withdraw(200)` fails with an
`InsufficientFundsError`. -/
theorem withdraw_error_kinds_witness :
    (Withdraw heapA1 0 (Float64.ofNat 200)).err.map AccError.kind =
      some Challenge7.ErrKind.insufficientFunds :=
  (withdraw_error_kinds heapA1 0 (Float64.ofNat 200)).2.2.2 (by decide!)

set_option maxRecDepth 100000 in
/-- C6, the claim as stated fails.  On an account with `Balance = MinBalance =
10^16`, `Deposit(1)` returns nil and leaves the balance at `10^16`, not at
`10^16 + 1`: the `float64` sum rounds back to `10^16`. -/
theorem deposit_postcondition_counterexample :
    (heapBig 0).MinBalance.le (heapBig 0).Balance = true ∧
      Float64.zero.le (Float64.ofNat 1) = true ∧
      (Float64.ofNat 1).le MaxTransactionAmount = true ∧
      (Deposit heapBig 0 (Float64.ofNat 1)).err = none ∧
      ((Deposit heapBig 0 (Float64.ofNat 1)).heap 0).Balance = (heapBig 0).Balance ∧
      ((Deposit heapBig 0 (Float64.ofNat 1)).heap 0).Balance.scaled ≠
        (heapBig 0).Balance.scaled + (Float64.ofNat 1).scaled := by
  decide!

/-- C6, amended.  On an account with `Balance >= MinBalance`, for
`0 <= amount <= 10000` (both bounds allowed) `Deposit(amount)` returns nil, the
new balance is the `float64` sum `Balance + amount` (the exact sum rounded to
nearest, ties to even), and it is `>= MinBalance`; it is the exact sum whenever
the exact sum is a `float64`.  (`Genuine` says that the magnitude stored in the
balance is one a `float64` can hold.) -/
theorem deposit_postcondition {n : Nat} (h : Heap n) (a : Fin n) (amount : Float64)
    (hgen : (h a).Balance.Genuine)
    (hfloor : (h a).MinBalance.le (h a).Balance = true)
    (hlo : Float64.zero.le amount = true) (hhi : amount.le MaxTransactionAmount = true) :
    (Deposit h a amount).err = none ∧
      ((Deposit h a amount).heap a).Balance = (h a).Balance.add amount ∧
      ((Deposit h a amount).heap a).MinBalance.le
        ((Deposit h a amount).heap a).Balance = true ∧
      ((h a).Balance.isFinite = true →
        Representable ((h a).Balance.scaled + amount.scaled).natAbs →
        ((Deposit h a amount).heap a).Balance.isFinite = true ∧
        ((Deposit h a amount).heap a).Balance.scaled =
          (h a).Balance.scaled + amount.scaled) := by
  obtain ⟨s, m, rfl, hx⟩ := finite_of_bounds hlo hhi
  have hup := le_add_of_nonneg (ne_nan_of_le hfloor).2 hgen s m hx
  unfold Deposit
  rw [if_neg (by simp [not_lt_of_le hlo]), if_neg (by simp [not_lt_of_le hhi])]
  simp only [setBalance_at, true_and]
  exact ⟨f64_le_trans hfloor hup, fun hb hr => add_exact_of_finite hb rfl hr⟩

set_option maxRecDepth 100000 in
/-- Depositing exactly the limit 10000 on balance 150 returns nil and leaves
10150. -/
theorem deposit_postcondition_witness :
    (Deposit heapA1 0 (Float64.ofNat 10000)).err = none ∧
      ((Deposit heapA1 0 (Float64.ofNat 10000)).heap 0).Balance = Float64.ofNat 10150 ∧
      ((Deposit heapA1 0 (Float64.ofNat 10000)).heap 0).Balance.scaled =
        (heapA1 0).Balance.scaled + (Float64.ofNat 10000).scaled := by
  have key := deposit_postcondition heapA1 0 (Float64.ofNat 10000)
    (show Representable (150 * 2 ^ 1074) by unfold Representable; decide!)
    (by decide!) (by decide!) (by decide!)
  refine ⟨key.1, ?_, (key.2.2.2 (by decide!) (by unfold Representable; decide!)).2⟩
  rw [key.2.1]
  decide!

set_option maxRecDepth 100000 in
/-- C8, the claim as stated fails.  `NewBankAccount("A", "O", NaN, 0)` returns an
account and a nil error although `minBalance <= initialBalance` is false, and
the balance of the account it returns is not `>= MinBalance`; so does
`NewBankAccount("A", "O", 5, NaN)`, although `0 <= minBalance` is false. -/
theorem newBankAccount_contract_counterexample :
    NewBankAccount "A" "O" Float64.nan Float64.zero =
        (some { ID := "A", Owner := "O", Balance := Float64.nan,
                MinBalance := Float64.zero }, none) ∧
      Float64.zero.le Float64.nan = false ∧
      ¬ ((∃ acc, NewBankAccount "A" "O" Float64.nan Float64.zero = (some acc, none)) ↔
          "A" ≠ "" ∧ "O" ≠ "" ∧ Float64.zero.le Float64.zero = true ∧
            Float64.zero.le Float64.nan = true) ∧
      NewBankAccount "A" "O" (Float64.ofNat 5) Float64.nan =
        (some { ID := "A", Owner := "O", Balance := Float64.ofNat 5,
                MinBalance := Float64.nan }, none) := by
  have h1 : NewBankAccount "A" "O" Float64.nan Float64.zero =
      (some { ID := "A", Owner := "O", Balance := Float64.nan,
              MinBalance := Float64.zero }, none) := by
    decide!
  refine ⟨h1, by decide!, ?_, by decide!⟩
  rw [h1]
  simp [Float64.le, Float64.zero]

/-- C8, amended.  When `initialBalance` and `minBalance` are numbers (not NaN),
`NewBankAccount` returns an account and a nil error if and only if `id` and
`owner` are non-empty and `0 <= minBalance <= initialBalance`, and then the
account has exactly the four given field values.  Otherwise it returns no
account and an error, which is an `AccountError` when `id` or `owner` is empty,
else a `NegativeAmountError` when `initialBalance < 0` or `minBalance < 0`, else
an `InsufficientFundsError`. -/
theorem newBankAccount_contract (id owner : String) (initialBalance minBalance : Float64)
    (hi : initialBalance ≠ .nan) (hm : minBalance ≠ .nan) :
    ((∃ acc, NewBankAccount id owner initialBalance minBalance = (some acc, none)) ↔
        id ≠ "" ∧ owner ≠ "" ∧ Float64.zero.le minBalance = true ∧
          minBalance.le initialBalance = true) ∧
      (id ≠ "" ∧ owner ≠ "" ∧ Float64.zero.le minBalance = true ∧
          minBalance.le initialBalance = true →
        NewBankAccount id owner initialBalance minBalance =
          (some { ID := id, Owner := owner, Balance := initialBalance,
                  MinBalance := minBalance }, none)) ∧
      (¬ (id ≠ "" ∧ owner ≠ "" ∧ Float64.zero.le minBalance = true ∧
          minBalance.le initialBalance = true) →
        ∃ e, NewBankAccount id owner initialBalance minBalance = (none, some e) ∧
          e.kind =
            if id = "" ∨ owner = "" then Challenge7.ErrKind.account
            else if initialBalance.lt Float64.zero = true ∨ minBalance.lt Float64.zero = true
              then Challenge7.ErrKind.negativeAmount
            else Challenge7.ErrKind.insufficientFunds) := by
  by_cases h1 : id = ""
  · simp [NewBankAccount, h1, AccError.kind]
  by_cases h2 : owner = ""
  · simp [NewBankAccount, h1, h2, AccError.kind]
  by_cases h3 : initialBalance.lt Float64.zero = true
  · have hv : ¬ (Float64.zero.le minBalance = true ∧ minBalance.le initialBalance = true) :=
      fun hc => by
        have := not_lt_of_le (f64_le_trans hc.1 hc.2)
        rw [h3] at this
        exact absurd this (by simp)
    simp [NewBankAccount, h1, h2, h3, hv, AccError.kind]
  by_cases h4 : minBalance.lt Float64.zero = true
  · have hv : ¬ (Float64.zero.le minBalance = true ∧ minBalance.le initialBalance = true) :=
      fun hc => by
        have := not_lt_of_le hc.1
        rw [h4] at this
        exact absurd this (by simp)
    simp [NewBankAccount, h1, h2, h3, h4, hv, AccError.kind]
  by_cases h5 : initialBalance.lt minBalance = true
  · have hv : ¬ (Float64.zero.le minBalance = true ∧ minBalance.le initialBalance = true) :=
      fun hc => by
        have := not_lt_of_le hc.2
        rw [h5] at this
        exact absurd this (by simp)
    simp [NewBankAccount, h1, h2, h3, h4, h5, hv, AccError.kind]
  · have e4 := le_of_not_lt hm zero_ne_nan (by simpa using h4)
    have e5 := le_of_not_lt hi hm (by simpa using h5)
    simp [NewBankAccount, h1, h2, h3, h4, h5, e4, e5]

set_option maxRecDepth 100000 in
/-- Scenarios 1 and 2: `("A1","Alice",100,10)` yields that account, and
`("A2","Bob",5,10)` yields no account and an `InsufficientFundsError`. -/
theorem newBankAccount_contract_witness :
    NewBankAccount "A1" "Alice" (Float64.ofNat 100) (Float64.ofNat 10) =
        (some { ID := "A1", Owner := "Alice", Balance := Float64.ofNat 100,
                MinBalance := Float64.ofNat 10 }, none) ∧
      ∃ e, NewBankAccount "A2" "Bob" (Float64.ofNat 5) (Float64.ofNat 10) = (none, some e) ∧
        e.kind = Challenge7.ErrKind.insufficientFunds := by
  refine ⟨(newBankAccount_contract "A1" "Alice" (Float64.ofNat 100) (Float64.ofNat 10)
    (by decide!) (by decide!)).2.1 (by decide!), ?_⟩
  obtain ⟨e, he, hk⟩ := (newBankAccount_contract "A2" "Bob" (Float64.ofNat 5) (Float64.ofNat 10)
    (by decide!) (by decide!)).2.2 (by decide!)
  refine ⟨e, he, ?_⟩
  rw [hk]
  decide!

set_option maxRecDepth 100000 in
/-- C10, the claim as stated fails.  On an account with balance `2^53 + 2` and
floor 0, the transfer of the valid amount 1 to the account itself returns nil
and leaves the balance at `2^53`: the call is neither a no-op nor an error.  And
the transfer of `-1` to itself fails with the `NegativeAmountError` that any
transfer of `-1` gets, not with an error reserved for self-transfers. -/
theorem self_transfer_counterexample :
    (Transfer heapOdd 0 (Float64.ofNat 1) 0).err = none ∧
      ((Transfer heapOdd 0 (Float64.ofNat 1) 0).heap 0).Balance =
        Float64.ofNat 9007199254740992 ∧
      ((Transfer heapOdd 0 (Float64.ofNat 1) 0).heap 0).Balance ≠ (heapOdd 0).Balance ∧
      ¬ (((Transfer heapOdd 0 (Float64.ofNat 1) 0).err = none ∧
            (Transfer heapOdd 0 (Float64.ofNat 1) 0).heap = heapOdd) ∨
          ∃ e, (Transfer heapOdd 0 (Float64.ofNat 1) 0).err = some e ∧
            e.kind ≠ Challenge7.ErrKind.account ∧
            e.kind ≠ Challenge7.ErrKind.insufficientFunds ∧
            e.kind ≠ Challenge7.ErrKind.negativeAmount ∧
            e.kind ≠ Challenge7.ErrKind.exceedsLimit) ∧
      (Transfer heapOdd 0 (Float64.ofNat 1).neg 0).err =
        some (AccError.NegativeAmountError "amount" (Float64.ofNat 1).neg) := by
  have herr : (Transfer heapOdd 0 (Float64.ofNat 1) 0).err = none := by decide!
  have hbal : ((Transfer heapOdd 0 (Float64.ofNat 1) 0).heap 0).Balance =
      Float64.ofNat 9007199254740992 := by decide!
  have hne : ((Transfer heapOdd 0 (Float64.ofNat 1) 0).heap 0).Balance ≠
      (heapOdd 0).Balance := by decide!
  refine ⟨herr, hbal, hne, ?_, by decide!⟩
  rintro (⟨_, hheap⟩ | ⟨e, he, _⟩)
  · exact hne (by rw [hheap])
  · rw [herr] at he
    exact absurd he (by simp)

/-- C10, amended.  For every account `a` and amount, `a.Transfer(amount, a)`
returns what `a.Withdraw(amount)` returns: nil, or the `NegativeAmountError`,
`ExceedsLimitError` or `InsufficientFundsError` of that validation.  On an error
the heap is unchanged.  On nil only `a.Balance` is assigned, and it becomes the
`float64` value `(Balance - amount) + amount`, each operation rounded to
nearest, ties to even; this is the old balance, so that the call is a no-op,
whenever the old balance is a `float64` other than the negative zero and the
exact difference `Balance - amount` is a `float64`.  The trace of the call never
takes a lock that is held. -/
theorem self_transfer {n : Nat} (h : Heap n) (a : Fin n) (amount : Float64) :
    (Transfer h a amount a).err = (Withdraw h a amount).err ∧
      ((Transfer h a amount a).err ≠ none → (Transfer h a amount a).heap = h) ∧
      ((Transfer h a amount a).err = none →
        (Transfer h a amount a).heap =
            setBalance h a (((h a).Balance.sub amount).add amount) ∧
          ((h a).Balance.isFinite = true → (h a).Balance.Genuine →
            (h a).Balance ≠ .fin true 0 → amount.isFinite = true →
            Representable ((h a).Balance.scaled - amount.scaled).natAbs →
            (Transfer h a amount a).heap = h)) ∧
      ((Transfer h a amount a).err = none ∨
        (Transfer h a amount a).err.map AccError.kind =
          some Challenge7.ErrKind.negativeAmount ∨
        (Transfer h a amount a).err.map AccError.kind =
          some Challenge7.ErrKind.exceedsLimit ∨
        (Transfer h a amount a).err.map AccError.kind =
          some Challenge7.ErrKind.insufficientFunds) ∧
      Challenge7.lockSafe [] (Transfer h a amount a).trace = true := by
  refine ⟨transfer_err h a a amount, transfer_heap_of_err h a a amount, ?_, ?_, ?_⟩
  · intro herr
    have hheap : (Transfer h a amount a).heap =
        setBalance h a (((h a).Balance.sub amount).add amount) := by
      rw [transfer_heap h a a amount herr, setBalance_at, setBalance_twice]
    refine ⟨hheap, fun fa ga hnz fx ra => ?_⟩
    rw [hheap]
    have hpos : amount.lt Float64.zero = false := by
      unfold Transfer at herr
      split_ifs at herr with h1
      simpa using h1
    obtain ⟨s, m, hb⟩ := exists_of_isFinite fa
    obtain ⟨t, k, rfl⟩ := exists_of_isFinite fx
    have hx : 0 ≤ (Float64.fin t k).scaled := by
      simpa [Float64.lt, Float64.zero, Float64.scaled] using hpos
    rw [hb] at ga hnz ra
    obtain ⟨u, j, e1, e2⟩ := sub_exact s m t k ra
    have hback : ((Float64.fin s m).sub (.fin t k)).add (.fin t k) = .fin s m := by
      rw [e1]
      simp only [Float64.add]
      rw [e2, sub_add_cancel]
      have hg : Representable m := ga
      split_ifs with hz
      · have hm0 : m = 0 := by
          have := natAbs_scaled s m
          rw [hz] at this
          simpa using this.symm
        subst hm0
        have hs : s = false := by
          cases s
          · rfl
          · exact absurd rfl hnz
        subst hs
        have hu : (u && t) = false := by
          cases t
          · simp
          · have hk0 : k = 0 := by
              simp only [Float64.scaled, if_true] at hx
              omega
            subst hk0
            have hj : (Float64.fin u j).scaled = 0 := by
              rw [e2]; simp [Float64.scaled]
            have hj0 : j = 0 := by
              have := natAbs_scaled u j
              rw [hj] at this
              simpa using this.symm
            subst hj0
            simp only [Float64.sub, Float64.neg, Float64.add, Float64.scaled] at e1
            simp at e1
            simp [e1]
        rw [hu]
      · unfold Float64.ofMag
        rw [natAbs_scaled, hg.1, if_pos hg.2]
        have hsign : decide ((Float64.fin s m).scaled < 0) = s := by
          cases s
          · simp [Float64.scaled]
          · have hm0 : m ≠ 0 := by
              rintro rfl
              exact hz (by simp [Float64.scaled])
            simp [Float64.scaled]
            omega
        rw [hsign]
    rw [hb, hback, ← hb]
    exact setBalance_self h a
  · rw [transfer_err]
    unfold Withdraw
    split_ifs <;> simp [AccError.kind]
  · unfold Transfer
    split_ifs <;> simp [Challenge7.lockSafe]

set_option maxRecDepth 100000 in
/-- Alice (100) transferring 40 to herself returns nil and leaves her balance at
100; transferring 200, more than she has, fails with an
`InsufficientFundsError`. -/
theorem self_transfer_witness :
    (Transfer heapAB 0 (Float64.ofNat 40) 0).err = none ∧
      (Transfer heapAB 0 (Float64.ofNat 40) 0).heap = heapAB ∧
      (Transfer heapAB 0 (Float64.ofNat 200) 0).err.map AccError.kind =
        some Challenge7.ErrKind.insufficientFunds ∧
      Challenge7.lockSafe [] (Transfer heapAB 0 (Float64.ofNat 40) 0).trace = true := by
  have k40 := self_transfer heapAB 0 (Float64.ofNat 40)
  have herr : (Transfer heapAB 0 (Float64.ofNat 40) 0).err = none := by decide!
  refine ⟨herr, ?_, by decide!, k40.2.2.2.2⟩
  exact (k40.2.2.1 herr).2 (by decide!)
    (show Representable (100 * 2 ^ 1074) by unfold Representable; decide!)
    (by decide!) (by decide!) (by unfold Representable; decide!)

/-! ## Concurrent deposits on `float64` values -/

theorem stored_update {n m : Nat} (w : World n m) (t : Fin m) (th : Thread n) (hp : Heap n)
    (ow : Fin n → Option (Fin m)) :
    stored { heap := hp, owner := ow, threads := Function.update w.threads t th } +
        (if (w.threads t).code.length ≤ 1 then 1 else 0) =
      stored w + (if th.code.length ≤ 1 then 1 else 0) := by
  have hfun : (fun i => if ((Function.update w.threads t th) i).code.length ≤ 1 then 1 else 0) =
      Function.update (fun i => if (w.threads i).code.length ≤ 1 then 1 else 0) t
        (if th.code.length ≤ 1 then 1 else 0) := by
    funext i
    by_cases hi : i = t
    · subst hi; simp
    · simp [Function.update_noteq hi]
  simp only [stored]
  rw [hfun, Finset.sum_update_of_mem (Finset.mem_univ t),
    ← Finset.add_sum_erase Finset.univ
      (fun i => if (w.threads i).code.length ≤ 1 then 1 else 0) (Finset.mem_univ t),
    Finset.sdiff_singleton_eq_erase]
  omega

theorem stored_same {n m : Nat} (w : World n m) (t : Fin m) (th : Thread n) (hp : Heap n)
    (ow : Fin n → Option (Fin m))
    (hlen : (w.threads t).code.length ≤ 1 ↔ th.code.length ≤ 1) :
    stored { heap := hp, owner := ow, threads := Function.update w.threads t th } = stored w := by
  have := stored_update w t th hp ow
  by_cases h1 : (w.threads t).code.length ≤ 1
  · rw [if_pos h1, if_pos (hlen.mp h1)] at this
    omega
  · rw [if_neg h1, if_neg (fun h2 => h1 (hlen.mpr h2))] at this
    omega

theorem stored_succ {n m : Nat} (w : World n m) (t : Fin m) (th : Thread n) (hp : Heap n)
    (ow : Fin n → Option (Fin m))
    (h1 : ¬ (w.threads t).code.length ≤ 1) (h2 : th.code.length ≤ 1) :
    stored { heap := hp, owner := ow, threads := Function.update w.threads t th } =
      stored w + 1 := by
  have := stored_update w t th hp ow
  rw [if_neg h1, if_pos h2] at this
  omega

theorem depositInv_step {n m : Nat} {a : Fin n} {x b : Float64} {w w' : World n m} {t : Fin m}
    (hinv : DepositInv a x b w) (hstep : step w t = some w') : DepositInv a x b w' := by
  obtain ⟨hcodes, hown, hbal, htmp⟩ := hinv
  have hforms : ∀ (th : Thread n) (t' : Fin m), t' ≠ t →
      (Function.update w.threads t th t').code = (w.threads t').code := by
    intro th t' ht
    simp [Function.update_noteq ht]
  rcases hcodes t with hc | hc | hc | hc | hc
  · simp only [step, hc, critical] at hstep
    split_ifs at hstep with hfree
    cases hstep
    refine ⟨?_, ?_, ?_, ?_⟩
    · intro t'
      by_cases ht : t' = t
      · subst ht; simp
      · simpa [Function.update_noteq ht] using hcodes t'
    · intro t'
      by_cases ht : t' = t
      · subst ht; simp
      · have hno := (hown t').not.mp (by rw [hfree]; simp)
        simp only [Function.update_same, Option.some.injEq, Function.update_noteq ht]
        exact ⟨fun e => absurd e.symm ht, fun e => absurd e hno⟩
    · rw [stored_same w t _ _ _ (by simp [hc, critical])]
      exact hbal
    · intro t'
      by_cases ht : t' = t
      · subst ht; simp
      · simpa [Function.update_noteq ht] using htmp t'
  · simp only [step, hc] at hstep
    cases hstep
    refine ⟨?_, ?_, ?_, ?_⟩
    · intro t'
      by_cases ht : t' = t
      · subst ht; simp
      · simpa [Function.update_noteq ht] using hcodes t'
    · intro t'
      by_cases ht : t' = t
      · subst ht
        have := (hown t').mpr (Or.inl hc)
        simp [this]
      · simpa [Function.update_noteq ht] using hown t'
    · rw [stored_same w t _ _ _ (by simp [hc])]
      exact hbal
    · intro t'
      by_cases ht : t' = t
      · subst ht; simp
      · simpa [Function.update_noteq ht] using htmp t'
  · simp only [step, hc] at hstep
    cases hstep
    have hmine := (hown t).mpr (Or.inr (Or.inl hc))
    refine ⟨?_, ?_, ?_, ?_⟩
    · intro t'
      by_cases ht : t' = t
      · subst ht; simp
      · simpa [Function.update_noteq ht] using hcodes t'
    · intro t'
      by_cases ht : t' = t
      · subst ht
        simp [hmine]
      · simpa [Function.update_noteq ht] using hown t'
    · rw [stored_succ w t _ _ _ (by simp [hc]) (by simp), Function.iterate_succ_apply', ← hbal]
      simp only [setBalance_at, htmp t hc]
    · intro t'
      by_cases ht : t' = t
      · subst ht; simp
      · intro hc'
        rw [hforms _ t' ht] at hc'
        have := (hown t').mpr (Or.inr (Or.inl hc'))
        rw [hmine] at this
        exact absurd (Option.some.inj this).symm ht
  · simp only [step, hc] at hstep
    split_ifs at hstep with hmine
    cases hstep
    refine ⟨?_, ?_, ?_, ?_⟩
    · intro t'
      by_cases ht : t' = t
      · subst ht; simp
      · simpa [Function.update_noteq ht] using hcodes t'
    · intro t'
      by_cases ht : t' = t
      · subst ht; simp
      · have hno : ¬ ((w.threads t').code = [.load a, .store a x, .unlock a] ∨
            (w.threads t').code = [.store a x, .unlock a] ∨
            (w.threads t').code = [.unlock a]) := by
          intro hf
          have := (hown t').mpr hf
          rw [hmine] at this
          exact ht (Option.some.inj this).symm
        simp only [Function.update_same, Function.update_noteq ht]
        exact ⟨fun e => absurd e (by simp), fun e => absurd e hno⟩
    · rw [stored_same w t _ _ _ (by simp [hc])]
      exact hbal
    · intro t'
      by_cases ht : t' = t
      · subst ht; simp
      · simpa [Function.update_noteq ht] using htmp t'
  · simp [step, hc] at hstep

theorem depositInv_sched {n m : Nat} {a : Fin n} {x b : Float64} (ts : List (Fin m)) :
    ∀ {w w' : World n m}, DepositInv a x b w → sched w ts = some w' → DepositInv a x b w' := by
  induction ts with
  | nil =>
    intro w w' hinv hrun
    simp only [sched, Option.some.injEq] at hrun
    exact hrun ▸ hinv
  | cons t ts ih =>
    intro w w' hinv hrun
    simp only [sched] at hrun
    split at hrun
    · exact absurd hrun (by simp)
    · rename_i w1 hstep
      exact ih (depositInv_step hinv hstep) hrun

theorem depositInv_spawn {n : Nat} (h : Heap n) (a : Fin n) (x : Float64) (m : Nat)
    (hlo : Float64.zero.le x = true) (hhi : x.le MaxTransactionAmount = true) :
    DepositInv a x (h a).Balance (spawnDeposits h a x m) := by
  have hcode : DepositCode a x = critical a x := by
    unfold DepositCode
    rw [if_neg (by simp [not_lt_of_le hlo]), if_neg (by simp [not_lt_of_le hhi])]
  refine ⟨fun t => Or.inl (by simp [spawnDeposits, hcode]), ?_, ?_, ?_⟩
  · intro t
    simp [spawnDeposits, hcode, critical]
  · simp [spawnDeposits, hcode, critical, stored]
  · intro t hc
    simp [spawnDeposits, hcode, critical] at hc

/-- Repeated deposits add up exactly as long as every partial sum is a
`float64`. -/
theorem iterate_add_exact {b x : Float64} (hb : b.isFinite = true) (hx : x.isFinite = true) :
    ∀ N : Nat, (∀ k, k ≤ N → Representable (b.scaled + k * x.scaled).natAbs) →
      ((fun v => v.add x)^[N] b).isFinite = true ∧
        ((fun v => v.add x)^[N] b).scaled = b.scaled + N * x.scaled
  | 0, _ => by simp [hb]
  | N + 1, hr => by
    obtain ⟨f1, f2⟩ := iterate_add_exact hb hx N (fun k hk => hr k (Nat.le_succ_of_le hk))
    have hrep : Representable (((fun v => v.add x)^[N] b).scaled + x.scaled).natAbs := by
      have := hr (N + 1) le_rfl
      rw [f2]
      have e : b.scaled + (N : Int) * x.scaled + x.scaled =
          b.scaled + ((N + 1 : Nat) : Int) * x.scaled := by
        push_cast; ring
      rw [e]
      exact this
    obtain ⟨g1, g2⟩ := add_exact_of_finite f1 hx hrep
    rw [Function.iterate_succ_apply']
    refine ⟨g1, ?_⟩
    rw [g2, f2]
    push_cast
    ring

set_option maxRecDepth 100000 in
/-- C14, the claim as stated fails.  Two goroutines run `Deposit(1)` on an account
with balance `2^53`, one after the other.  Both calls return and the balance is
still `2^53`, not `2^53 + 2`: each `float64` sum `2^53 + 1` rounds back to
`2^53`. -/
theorem deposits_not_lost_counterexample :
    Float64.zero.le (Float64.ofNat 1) = true ∧
      (Float64.ofNat 1).le MaxTransactionAmount = true ∧
      ∃ w, sched (spawnDeposits heapPow 0 (Float64.ofNat 1) 2) [0, 0, 0, 0, 1, 1, 1, 1] =
          some w ∧
        (∀ t, (w.threads t).code = []) ∧
        (w.heap 0).Balance = Float64.ofNat 9007199254740992 ∧
        (w.heap 0).Balance.scaled ≠
          (heapPow 0).Balance.scaled + 2 * (Float64.ofNat 1).scaled := by
  refine ⟨by decide!, by decide!, ?_⟩
  have h1 : (sched (spawnDeposits heapPow 0 (Float64.ofNat 1) 2)
      [0, 0, 0, 0, 1, 1, 1, 1]).map (fun w => ((w.threads 0).code, (w.threads 1).code,
        (w.heap 0).Balance)) = some ([], [], Float64.ofNat 9007199254740992) := by
    decide!
  have h2 : (Float64.ofNat 9007199254740992).scaled ≠
      (heapPow 0).Balance.scaled + 2 * (Float64.ofNat 1).scaled := by
    decide!
  cases hs : sched (spawnDeposits heapPow 0 (Float64.ofNat 1) 2) [0, 0, 0, 0, 1, 1, 1, 1] with
  | none => rw [hs] at h1; simp at h1
  | some w =>
    rw [hs] at h1
    simp only [Option.map_some', Option.some.injEq, Prod.mk.injEq] at h1
    refine ⟨w, rfl, ?_, h1.2.2, by rw [h1.2.2]; exact h2⟩
    intro t
    fin_cases t
    · exact h1.1
    · exact h1.2.1

/-- C14, amended.  Start `N` goroutines, each running `a.Deposit(x)` with
`0 <= x <= 10000`, on an account with balance `b`, and interleave their steps in
any way.  Whenever all `N` calls have returned, the balance is
`(..((b + x) + x)..) + x`: `N` `float64` additions of `x`, each rounded to
nearest, ties to even, which is the balance that `N` deposits made one after
the other leave, so no deposit is lost whatever the interleaving.  It is
`b + N * x` whenever every partial sum `b + k * x`, `k <= N`, is a `float64`. -/
theorem deposits_not_lost {n N : Nat} (h : Heap n) (a : Fin n) (x : Float64)
    (hlo : Float64.zero.le x = true) (hhi : x.le MaxTransactionAmount = true)
    (ts : List (Fin N)) (w : World n N)
    (hrun : sched (spawnDeposits h a x N) ts = some w)
    (hdone : ∀ t, (w.threads t).code = []) :
    (w.heap a).Balance = (fun v => v.add x)^[N] (h a).Balance ∧
      ((h a).Balance.isFinite = true →
        (∀ k, k ≤ N → Representable ((h a).Balance.scaled + k * x.scaled).natAbs) →
        (w.heap a).Balance.isFinite = true ∧
          (w.heap a).Balance.scaled = (h a).Balance.scaled + N * x.scaled) := by
  obtain ⟨_, _, hbal, _⟩ := depositInv_sched ts (depositInv_spawn h a x N hlo hhi) hrun
  have hN : stored w = N := by
    simp [stored, hdone]
  rw [hN] at hbal
  refine ⟨hbal, fun hb hr => ?_⟩
  obtain ⟨s, m, hx, _⟩ := finite_of_bounds hlo hhi
  rw [hbal]
  exact iterate_add_exact hb (by rw [hx]; rfl) N hr

set_option maxRecDepth 100000 in
/-- Two goroutines deposit 50 each on balance 100, the second one first: both
calls return and the balance is 200. -/
theorem deposits_not_lost_witness :
    ∃ w, sched (spawnDeposits heapAB 0 (Float64.ofNat 50) 2) [1, 1, 1, 1, 0, 0, 0, 0] =
        some w ∧
      (∀ t, (w.threads t).code = []) ∧ (w.heap 0).Balance = Float64.ofNat 200 ∧
      (w.heap 0).Balance.scaled = (heapAB 0).Balance.scaled + 2 * (Float64.ofNat 50).scaled := by
  have h1 : (sched (spawnDeposits heapAB 0 (Float64.ofNat 50) 2)
      [1, 1, 1, 1, 0, 0, 0, 0]).map (fun w => ((w.threads 0).code, (w.threads 1).code)) =
        some ([], []) := by
    decide!
  cases hs : sched (spawnDeposits heapAB 0 (Float64.ofNat 50) 2) [1, 1, 1, 1, 0, 0, 0, 0] with
  | none => rw [hs] at h1; simp at h1
  | some w =>
    rw [hs] at h1
    simp only [Option.map_some', Option.some.injEq, Prod.mk.injEq] at h1
    have hdone : ∀ t, (w.threads t).code = [] := by
      intro t
      fin_cases t
      · exact h1.1
      · exact h1.2
    have key := deposits_not_lost heapAB 0 (Float64.ofNat 50) (by decide!) (by decide!)
      [1, 1, 1, 1, 0, 0, 0, 0] w hs hdone
    refine ⟨w, rfl, hdone, ?_, (key.2 (by decide!) ?_).2⟩
    · rw [key.1]
      decide!
    · intro k hk
      interval_cases k <;> (unfold Representable; decide!)

end Challenge7F

namespace Challenge21

theorem sorted_getElem? {arr : List Int} (hs : arr.Sorted (· ≤ ·)) {i j : Nat} {v w : Int}
    (hi : arr[i]? = some v) (hj : arr[j]? = some w) (hij : i ≤ j) : v ≤ w := by
  obtain ⟨hi', rfl⟩ := List.getElem?_eq_some.mp hi
  obtain ⟨hj', rfl⟩ := List.getElem?_eq_some.mp hj
  rcases Nat.eq_or_lt_of_le hij with h | h
  · subst h; exact le_refl _
  · exact (List.pairwise_iff_getElem.mp hs) i j hi' hj' h

theorem index_some {arr : List Int} {m v : Int} (h : index arr m = some v) :
    0 ≤ m ∧ m < arr.length ∧ arr[m.toNat]? = some v := by
  unfold index at h
  split_ifs at h with h0
  obtain ⟨hlt, _⟩ := List.getElem?_eq_some.mp h
  exact ⟨h0, by omega, h⟩

theorem index_ne_none {arr : List Int} {m : Int} (h0 : 0 ≤ m) (h1 : m < arr.length) :
    index arr m ≠ none := by
  unfold index
  rw [if_pos h0]
  intro hc
  have := List.getElem?_eq_none_iff.mp hc
  omega

theorem middle_bounds {left right : Int} (h : left ≤ right) :
    left ≤ left + (right - left).tdiv 2 ∧ left + (right - left).tdiv 2 ≤ right := by
  have hdiv : (right - left).tdiv 2 = (right - left) / 2 :=
    Int.tdiv_eq_ediv (by omega) (by omega)
  omega

theorem binarySearch_loop_spec (arr : List Int) (hs : arr.Sorted (· ≤ ·)) (target : Int)
    (left right : Int) (hl : 0 ≤ left) (hr : right < arr.length) (hlr : left ≤ right + 1)
    (hlo : ∀ (i : Nat) (v : Int), (i : Int) < left → arr[i]? = some v → v < target)
    (hhi : ∀ (i : Nat) (v : Int), right < (i : Int) → arr[i]? = some v → target < v) :
    ∃ r, BinarySearch.loop arr target left right = some r ∧
      ((r = -1 ∧ target ∉ arr) ∨
        (0 ≤ r ∧ r < arr.length ∧ arr[r.toNat]? = some target)) := by
  induction left, right using BinarySearch.loop.induct arr target with
  | case1 left right hle middle hnone =>
    obtain ⟨h1, h2⟩ := middle_bounds hle
    exact absurd hnone (index_ne_none (by omega) (by omega))
  | case2 left right hle middle hsome =>
    obtain ⟨h0, h1, h2⟩ := index_some hsome
    refine ⟨middle, ?_, Or.inr ⟨h0, h1, h2⟩⟩
    rw [BinarySearch.loop]
    simp [hle, middle, hsome]
  | case3 left right hle middle v hsome hne hlt ih =>
    obtain ⟨h1, h2⟩ := middle_bounds hle
    obtain ⟨h0, hm, hget⟩ := index_some hsome
    have ih' := ih (by omega) hr (by omega)
      (fun i w hi hw => lt_of_le_of_lt (sorted_getElem? hs hw hget (by omega)) hlt) hhi
    obtain ⟨r, hr', hspec⟩ := ih'
    refine ⟨r, ?_, hspec⟩
    rw [BinarySearch.loop]
    simp [hle, middle, hsome, hne, hlt, hr']
  | case4 left right hle middle v hsome hne hlt ih =>
    obtain ⟨h1, h2⟩ := middle_bounds hle
    obtain ⟨h0, hm, hget⟩ := index_some hsome
    have hgt : target < v := lt_of_le_of_ne (not_lt.mp hlt) (fun e => hne e.symm)
    have ih' := ih hl (by omega) (by omega) hlo
      (fun i w hi hw => lt_of_lt_of_le hgt (sorted_getElem? hs hget hw (by omega)))
    obtain ⟨r, hr', hspec⟩ := ih'
    refine ⟨r, ?_, hspec⟩
    rw [BinarySearch.loop]
    simp [hle, middle, hsome, hne, hlt, hr']
  | case5 left right hle =>
    refine ⟨-1, ?_, Or.inl ⟨rfl, ?_⟩⟩
    · rw [BinarySearch.loop]
      simp [hle]
    · intro hmem
      obtain ⟨i, hi⟩ := List.mem_iff_getElem?.mp hmem
      by_cases hc : (i : Int) < left
      · exact absurd (hlo i target hc hi) (lt_irrefl _)
      · exact absurd (hhi i target (by omega) hi) (lt_irrefl _)

/-- C16 (`BinarySearch`).  On a slice sorted in ascending order `BinarySearch`
returns a value `r` (no slice access is out of bounds; the loop ends, being
defined by recursion on `right - left + 1`), with `r = -1` if and only if
`target` does not occur in `arr`, and otherwise `0 <= r < len(arr)` and
`arr[r] = target`. -/
theorem binarySearch_correct (arr : List Int) (hs : arr.Sorted (· ≤ ·)) (target : Int) :
    ∃ r, BinarySearch arr target = some r ∧
      (r = -1 ↔ target ∉ arr) ∧
      (r ≠ -1 → 0 ≤ r ∧ r < arr.length ∧ arr[r.toNat]? = some target) := by
  have key : ∃ r, BinarySearch arr target = some r ∧
      ((r = -1 ∧ target ∉ arr) ∨
        (0 ≤ r ∧ r < arr.length ∧ arr[r.toNat]? = some target)) := by
    unfold BinarySearch
    split_ifs with h0
    · refine ⟨-1, rfl, Or.inl ⟨rfl, ?_⟩⟩
      have : arr = [] := List.length_eq_zero.mp h0
      simp [this]
    · exact binarySearch_loop_spec arr hs target 0 (arr.length - 1) (le_refl _) (by omega)
        (by omega) (fun i v hi _ => by omega) (fun i v hi hv => by
          have := (List.getElem?_eq_some.mp hv).1
          omega)
  obtain ⟨r, hr, hspec⟩ := key
  refine ⟨r, hr, ?_, ?_⟩
  · constructor
    · intro h1
      rcases hspec with h | h
      · exact h.2
      · omega
    · intro hnot
      rcases hspec with h | h
      · exact h.1
      · exact absurd (List.mem_iff_getElem?.mpr ⟨_, h.2.2⟩) hnot
  · intro hne
    rcases hspec with h | h
    · exact absurd h.1 hne
    · exact h


theorem findInsertPosition_loop_spec (arr : List Int) (hs : arr.Sorted (· ≤ ·)) (target : Int)
    (left right : Int) (hl : 0 ≤ left) (hr : right < arr.length) (hlr : left ≤ right + 1)
    (hlo : ∀ (i : Nat) (v : Int), (i : Int) < left → arr[i]? = some v → v < target)
    (hhi : ∀ (i : Nat) (v : Int), right < (i : Int) → arr[i]? = some v → target < v) :
    ∃ p, FindInsertPosition.loop arr target left right = some p ∧
      0 ≤ p ∧ p ≤ arr.length ∧
      (∀ (i : Nat) (v : Int), (i : Int) < p → arr[i]? = some v → v ≤ target) ∧
      (∀ (i : Nat) (v : Int), p ≤ (i : Int) → arr[i]? = some v → target ≤ v) := by
  induction left, right using FindInsertPosition.loop.induct arr target with
  | case1 left right hle middle hnone =>
    obtain ⟨h1, h2⟩ := middle_bounds hle
    exact absurd hnone (index_ne_none (by omega) (by omega))
  | case2 left right hle middle hsome =>
    obtain ⟨h0, h1, h2⟩ := index_some hsome
    refine ⟨middle, ?_, h0, le_of_lt h1, ?_, ?_⟩
    · rw [FindInsertPosition.loop]
      simp [hle, middle, hsome]
    · intro i v hi hv
      exact sorted_getElem? hs hv h2 (by omega)
    · intro i v hi hv
      exact sorted_getElem? hs h2 hv (by omega)
  | case3 left right hle middle v hsome hne hlt ih =>
    obtain ⟨h1, h2⟩ := middle_bounds hle
    obtain ⟨h0, hm, hget⟩ := index_some hsome
    have ih' := ih (by omega) hr (by omega)
      (fun i w hi hw => lt_of_le_of_lt (sorted_getElem? hs hw hget (by omega)) hlt) hhi
    obtain ⟨p, hp, hspec⟩ := ih'
    refine ⟨p, ?_, hspec⟩
    rw [FindInsertPosition.loop]
    simp [hle, middle, hsome, hne, hlt, hp]
  | case4 left right hle middle v hsome hne hlt ih =>
    obtain ⟨h1, h2⟩ := middle_bounds hle
    obtain ⟨h0, hm, hget⟩ := index_some hsome
    have hgt : target < v := lt_of_le_of_ne (not_lt.mp hlt) (fun e => hne e.symm)
    have ih' := ih hl (by omega) (by omega) hlo
      (fun i w hi hw => lt_of_lt_of_le hgt (sorted_getElem? hs hget hw (by omega)))
    obtain ⟨p, hp, hspec⟩ := ih'
    refine ⟨p, ?_, hspec⟩
    rw [FindInsertPosition.loop]
    simp [hle, middle, hsome, hne, hlt, hp]
  | case5 left right hle =>
    refine ⟨left, ?_, hl, by omega, ?_, ?_⟩
    · rw [FindInsertPosition.loop]
      simp [hle]
    · intro i v hi hv
      exact le_of_lt (hlo i v hi hv)
    · intro i v hi hv
      exact le_of_lt (hhi i v (by omega) hv)

theorem sorted_insert_at (arr : List Int) (hs : arr.Sorted (· ≤ ·)) (target : Int) (p : Nat)
    (hbefore : ∀ (i : Nat) (v : Int), i < p → arr[i]? = some v → v ≤ target)
    (hafter : ∀ (i : Nat) (v : Int), p ≤ i → arr[i]? = some v → target ≤ v) :
    (arr.take p ++ target :: arr.drop p).Sorted (· ≤ ·) := by
  have hsplit : (arr.take p ++ arr.drop p).Sorted (· ≤ ·) := by
    rw [List.take_append_drop]; exact hs
  obtain ⟨htake, hdrop, hcross⟩ := List.pairwise_append.mp hsplit
  have hmem_take : ∀ a ∈ arr.take p, a ≤ target := by
    intro a ha
    obtain ⟨k, hk⟩ := List.mem_iff_getElem?.mp ha
    rw [List.getElem?_take] at hk
    split_ifs at hk with hkp
    exact hbefore k a hkp hk
  have hmem_drop : ∀ b ∈ arr.drop p, target ≤ b := by
    intro b hb
    obtain ⟨k, hk⟩ := List.mem_iff_getElem?.mp hb
    rw [List.getElem?_drop] at hk
    exact hafter (p + k) b (by omega) hk
  refine List.pairwise_append.mpr ⟨htake, List.pairwise_cons.mpr ⟨hmem_drop, hdrop⟩, ?_⟩
  intro a ha b hb
  rcases List.mem_cons.mp hb with h | h
  · rw [h]; exact hmem_take a ha
  · exact hcross a ha b h

/-- The slice of `main`: 7 is found at index 3, 8 is reported absent, and nothing
is found in the empty slice. -/
theorem binarySearch_correct_witness :
    BinarySearch mainArr 7 = some 3 ∧ BinarySearch [] 7 = some (-1) ∧
      ∃ r, BinarySearch mainArr 8 = some r ∧ (r = -1 ↔ 8 ∉ mainArr) ∧
        (r ≠ -1 → 0 ≤ r ∧ r < mainArr.length ∧ mainArr[r.toNat]? = some 8) := by
  refine ⟨?_, by simp [BinarySearch], binarySearch_correct mainArr (by decide) 8⟩
  simp only [BinarySearch, mainArr]
  rw [BinarySearch.loop]; simp [index, Int.tdiv_eq_ediv]
  rw [BinarySearch.loop]; simp [index, Int.tdiv_eq_ediv]
  rw [BinarySearch.loop]; simp [index, Int.tdiv_eq_ediv]
  rw [BinarySearch.loop]; simp [index, Int.tdiv_eq_ediv]

/-- C17 (`FindInsertPosition`).  On a slice sorted in ascending order
`FindInsertPosition` returns a value `p` with `0 <= p <= len(arr)` such that
every element before index `p` is `<= target` and every element at index `>= p`
is `>= target`; hence the slice with `target` inserted at index `p` is sorted. -/
theorem findInsertPosition_correct (arr : List Int) (hs : arr.Sorted (· ≤ ·)) (target : Int) :
    ∃ p, FindInsertPosition arr target = some p ∧ 0 ≤ p ∧ p ≤ arr.length ∧
      (∀ (i : Nat) (v : Int), (i : Int) < p → arr[i]? = some v → v ≤ target) ∧
      (∀ (i : Nat) (v : Int), p ≤ (i : Int) → arr[i]? = some v → target ≤ v) ∧
      (arr.take p.toNat ++ target :: arr.drop p.toNat).Sorted (· ≤ ·) := by
  have key : ∃ p, FindInsertPosition arr target = some p ∧ 0 ≤ p ∧ p ≤ arr.length ∧
      (∀ (i : Nat) (v : Int), (i : Int) < p → arr[i]? = some v → v ≤ target) ∧
      (∀ (i : Nat) (v : Int), p ≤ (i : Int) → arr[i]? = some v → target ≤ v) := by
    unfold FindInsertPosition
    split_ifs with h0
    · have : arr = [] := List.length_eq_zero.mp h0
      subst this
      exact ⟨0, rfl, le_refl _, by simp, by simp, by simp⟩
    · exact findInsertPosition_loop_spec arr hs target 0 (arr.length - 1) (le_refl _) (by omega)
        (by omega) (fun i v hi _ => by omega) (fun i v hi hv => by
          have := (List.getElem?_eq_some.mp hv).1
          omega)
  obtain ⟨p, hp, h0, hlen, hbefore, hafter⟩ := key
  refine ⟨p, hp, h0, hlen, hbefore, hafter, ?_⟩
  exact sorted_insert_at arr hs target p.toNat
    (fun i v hi hv => hbefore i v (by omega) hv)
    (fun i v hi hv => hafter i v (by omega) hv)

/-- The example of `main`: 8 goes to index 4 of `[1, 3, ..., 19]`, and the slice
with 8 inserted there is sorted. -/
theorem findInsertPosition_correct_witness :
    FindInsertPosition mainArr 8 = some 4 ∧
      (mainArr.take 4 ++ 8 :: mainArr.drop 4).Sorted (· ≤ ·) := by
  have heval : FindInsertPosition mainArr 8 = some 4 := by
    simp only [FindInsertPosition, mainArr]
    rw [FindInsertPosition.loop]; simp [index, Int.tdiv_eq_ediv]
    rw [FindInsertPosition.loop]; simp [index, Int.tdiv_eq_ediv]
    rw [FindInsertPosition.loop]; simp [index, Int.tdiv_eq_ediv]
    rw [FindInsertPosition.loop]; simp [index, Int.tdiv_eq_ediv]
    rw [FindInsertPosition.loop]; simp [index, Int.tdiv_eq_ediv]
  obtain ⟨p, hp, _, _, _, _, hsorted⟩ := findInsertPosition_correct mainArr (by decide) 8
  rw [heval] at hp
  have hp4 : p = 4 := (Option.some.inj hp).symm
  subst hp4
  exact ⟨heval, hsorted⟩

end Challenge21

namespace Challenge22

theorem incr_keys (m : IntMap) (k : Int) :
    (m.incr k).map Prod.fst =
      if k ∈ m.map Prod.fst then m.map Prod.fst else m.map Prod.fst ++ [k] := by
  induction m with
  | nil => simp [IntMap.incr]
  | cons kv rest ih =>
    obtain ⟨k', v⟩ := kv
    by_cases hk : k' = k
    · simp [IntMap.incr, hk]
    · have hk' : ¬ k = k' := fun e => hk e.symm
      simp only [IntMap.incr, hk, if_false, List.map_cons, ih, List.mem_cons, hk', false_or]
      split_ifs <;> simp

theorem incr_coins (m : IntMap) (k : Int) : (m.incr k).coins = m.coins + 1 := by
  induction m with
  | nil => simp [IntMap.incr, IntMap.coins]
  | cons kv rest ih =>
    obtain ⟨k', v⟩ := kv
    simp only [IntMap.coins] at ih ⊢
    by_cases hk : k' = k
    · simp [IntMap.incr, hk]; ring
    · simp [IntMap.incr, hk, ih]; ring

theorem incr_total (m : IntMap) (k : Int) : (m.incr k).total = m.total + k := by
  induction m with
  | nil => simp [IntMap.incr, IntMap.total]
  | cons kv rest ih =>
    obtain ⟨k', v⟩ := kv
    simp only [IntMap.total] at ih ⊢
    by_cases hk : k' = k
    · simp [IntMap.incr, hk]; ring
    · simp [IntMap.incr, hk, ih]; ring

theorem incr_values (m : IntMap) (k : Int) (P : Int → Prop) (hk : P k)
    (hm : ∀ kv ∈ m, P kv.1 ∧ 1 ≤ kv.2) : ∀ kv ∈ m.incr k, P kv.1 ∧ 1 ≤ kv.2 := by
  induction m with
  | nil =>
    intro kv hkv
    simp only [IntMap.incr, List.mem_singleton] at hkv
    subst hkv
    exact ⟨hk, le_refl _⟩
  | cons kv0 rest ih =>
    obtain ⟨k', v⟩ := kv0
    have h0 := hm (k', v) (List.mem_cons_self _ _)
    have hrest : ∀ kv ∈ rest, P kv.1 ∧ 1 ≤ kv.2 :=
      fun kv hkv => hm kv (List.mem_cons_of_mem _ hkv)
    intro kv hkv
    by_cases hkk : k' = k
    · simp only [IntMap.incr, hkk, if_true, List.mem_cons] at hkv
      rcases hkv with h | h
      · subst h
        exact ⟨hk, by have := h0.2; simp only at this ⊢; omega⟩
      · exact hrest kv h
    · simp only [IntMap.incr, hkk, if_false, List.mem_cons] at hkv
      rcases hkv with h | h
      · subst h; exact h0
      · exact ih hrest kv h

theorem incr_change {ds : List Int} {m : IntMap} (hm : m.Change ds) {k : Int} (hk : k ∈ ds) :
    (m.incr k).Change ds := by
  refine ⟨?_, incr_values m k (· ∈ ds) hk hm.2⟩
  rw [incr_keys]
  split_ifs with hmem
  · exact hm.1
  · exact List.Nodup.append hm.1 (List.nodup_singleton k) (by simpa using hmem)


/-! ### `CoinCombination` follows `MinCoins` step by step -/

theorem inner_sim (ds : List Int) (d : Int) (hd : d ∈ ds) (fuel : Nat) :
    ∀ (a c a' c' : Int) (m : IntMap), MinCoins.inner fuel d a c = some (a', c') →
      ∃ m', CoinCombination.inner fuel d a m = some (a', m') ∧
        m'.coins = m.coins + (c' - c) ∧ m'.total = m.total + (a - a') ∧
        (0 ≤ a → 0 ≤ a') ∧ (m.Change ds → m'.Change ds) := by
  induction fuel with
  | zero => intro a c a' c' m h; simp [MinCoins.inner] at h
  | succ fuel ih =>
    intro a c a' c' m h
    simp only [MinCoins.inner] at h
    simp only [CoinCombination.inner]
    split_ifs at h ⊢ with hge
    · obtain ⟨m', hm', hc, ht, hpos, hch⟩ := ih (a - d) (c + 1) a' c' (m.incr d) h
      refine ⟨m', hm', ?_, ?_, ?_, fun hm => hch (incr_change hm hd)⟩
      · rw [hc, incr_coins]; ring
      · rw [ht, incr_total]; ring
      · intro ha
        by_cases hda : 0 ≤ a - d
        · exact hpos hda
        · -- `d > a >= 0` contradicts `a >= d`
          omega
    · simp only [Option.some.injEq, Prod.mk.injEq] at h
      obtain ⟨rfl, rfl⟩ := h
      exact ⟨m, rfl, by ring, by ring, fun h => h, fun h => h⟩

theorem pass_sim (limit : Nat) (ds : List Int) (k : Nat) :
    ∀ (a c a' c' : Int) (m : IntMap), MinCoins.pass limit ds k a c = some (a', c') →
      ∃ m', CoinCombination.pass limit ds k a m = some (a', m') ∧
        m'.coins = m.coins + (c' - c) ∧ m'.total = m.total + (a - a') ∧
        (0 ≤ a → 0 ≤ a') ∧ (m.Change ds → m'.Change ds) := by
  induction k with
  | zero =>
    intro a c a' c' m h
    simp only [MinCoins.pass, Option.some.injEq, Prod.mk.injEq] at h
    obtain ⟨rfl, rfl⟩ := h
    exact ⟨m, rfl, by ring, by ring, fun h => h, fun h => h⟩
  | succ i ih =>
    intro a c a' c' m h
    simp only [MinCoins.pass] at h
    simp only [CoinCombination.pass]
    cases hd : ds[i]? with
    | none => simp [hd] at h
    | some d =>
      simp only [hd] at h ⊢
      cases hin : MinCoins.inner limit d a c with
      | none => simp [hin] at h
      | some r =>
        obtain ⟨a1, c1⟩ := r
        simp only [hin] at h
        have hmem : d ∈ ds := List.mem_iff_getElem?.mpr ⟨i, hd⟩
        obtain ⟨m1, hm1, hc1, ht1, hp1, hch1⟩ := inner_sim ds d hmem limit a c a1 c1 m hin
        obtain ⟨m', hm', hc, ht, hp, hch⟩ := ih a1 c1 a' c' m1 h
        refine ⟨m', by simp only [hm1]; exact hm', ?_, ?_, fun ha => hp (hp1 ha),
          fun hm => hch (hch1 hm)⟩
        · rw [hc, hc1]; ring
        · rw [ht, ht1]; ring

theorem outer_sim (limit : Nat) (ds : List Int) (fuel : Nat) :
    ∀ (a c c' : Int) (m : IntMap), 0 ≤ a → MinCoins.outer limit ds fuel a c = some c' →
      ∃ m', CoinCombination.outer limit ds fuel a m = some m' ∧
        m'.coins = m.coins + (c' - c) ∧ m'.total = m.total + a ∧
        (m.Change ds → m'.Change ds) := by
  induction fuel with
  | zero => intro a c c' m _ h; simp [MinCoins.outer] at h
  | succ fuel ih =>
    intro a c c' m ha h
    simp only [MinCoins.outer] at h
    simp only [CoinCombination.outer]
    split_ifs at h ⊢ with hpos
    · cases hp : MinCoins.pass limit ds ds.length a c with
      | none => simp [hp] at h
      | some r =>
        obtain ⟨a1, c1⟩ := r
        simp only [hp] at h
        obtain ⟨m1, hm1, hc1, ht1, hp1, hch1⟩ := pass_sim limit ds ds.length a c a1 c1 m hp
        obtain ⟨m', hm', hc, ht, hch⟩ := ih a1 c1 c' m1 (hp1 ha) h
        refine ⟨m', by simp only [hm1]; exact hm', ?_, ?_, fun hm => hch (hch1 hm)⟩
        · rw [hc, hc1]; ring
        · rw [ht, ht1]; ring
    · simp only [Option.some.injEq] at h
      subst h
      have ha0 : a = 0 := by omega
      exact ⟨m, rfl, by ring, by rw [ha0]; ring, fun h => h⟩


/-! ### `MinCoins` returns when the first denomination is 1 -/

theorem inner_returns (d : Int) (hd : 0 < d) (fuel : Nat) :
    ∀ (a c : Int), 0 ≤ a → a < fuel →
      ∃ a' c', MinCoins.inner fuel d a c = some (a', c') ∧ 0 ≤ a' ∧ a' < d ∧ a' ≤ a := by
  induction fuel with
  | zero => intro a c h0 h1; simp at h1; omega
  | succ fuel ih =>
    intro a c h0 h1
    simp only [MinCoins.inner]
    split_ifs with hge
    · obtain ⟨a', c', h, h2, h3, h4⟩ := ih (a - d) (c + 1) (by omega) (by push_cast at h1; omega)
      exact ⟨a', c', h, h2, h3, by omega⟩
    · exact ⟨a, c, rfl, h0, by omega, le_refl _⟩

theorem pass_returns (limit : Nat) (ds : List Int) (hpos : ∀ d ∈ ds, 0 < d) (k : Nat) :
    k ≤ ds.length → ∀ (a c : Int), 0 ≤ a → a < limit →
      ∃ a' c', MinCoins.pass limit ds k a c = some (a', c') ∧ 0 ≤ a' ∧ a' ≤ a ∧
        (0 < k → ∀ d0, ds[0]? = some d0 → a' < d0) := by
  induction k with
  | zero =>
    intro _ a c h0 _
    exact ⟨a, c, rfl, h0, le_refl _, fun h => absurd h (lt_irrefl _)⟩
  | succ i ih =>
    intro hk a c h0 h1
    have hi : i < ds.length := hk
    have hget : ds[i]? = some ds[i] := List.getElem?_eq_getElem hi
    have hdpos : 0 < ds[i] := hpos _ (List.getElem_mem hi)
    obtain ⟨a1, c1, hin, h2, h3, h4⟩ := inner_returns ds[i] hdpos limit a c h0 h1
    obtain ⟨a', c', hp, h5, h6, h7⟩ := ih (by omega) a1 c1 h2 (by omega)
    refine ⟨a', c', ?_, h5, by omega, ?_⟩
    · simp only [MinCoins.pass, hget, hin]
      exact hp
    · intro _ d0 hd0
      rcases Nat.eq_zero_or_pos i with hi0 | hi0
      · subst hi0
        rw [hget] at hd0
        have : ds[0] = d0 := Option.some.inj hd0
        omega
      · exact h7 hi0 d0 hd0

theorem outer_returns (limit : Nat) (ds : List Int) (hpos : ∀ d ∈ ds, 0 < d)
    (hone : ds[0]? = some 1) (fuel : Nat) (a c : Int) (h0 : 0 ≤ a) (h1 : a < limit) :
    ∃ c', MinCoins.outer limit ds (fuel + 2) a c = some c' := by
  simp only [MinCoins.outer]
  split_ifs with ha
  · obtain ⟨a', c', hp, h2, _, h4⟩ := pass_returns limit ds hpos ds.length (le_refl _) a c h0 h1
    have hlen : 0 < ds.length := by
      have := (List.getElem?_eq_some.mp hone).1
      exact this
    have ha' : a' = 0 := by
      have := h4 hlen 1 hone
      omega
    subst ha'
    exact ⟨c', by simp [hp]⟩
  · exact ⟨c, rfl⟩

/-- C19 (`CoinCombination` against `MinCoins`).  Let `amount >= 0` and let the
denominations be positive with first element 1.  Allowed `amount + 2` tests per
loop or more, `CoinCombination` and `MinCoins` both return; the map returned has
distinct keys, all of them denominations, and values all `>= 1`; the sum of
`key * value` is `amount`, and the sum of the values is the number `MinCoins`
returns. -/
theorem coinCombination_agrees (amount : Int) (denominations : List Int)
    (hamount : 0 ≤ amount) (hpos : ∀ d ∈ denominations, 0 < d)
    (hone : denominations.head? = some 1) (fuel : Nat) (hfuel : amount + 2 ≤ fuel) :
    ∃ m c, CoinCombination fuel amount denominations = some m ∧
      MinCoins fuel amount denominations = some c ∧
      (m.map Prod.fst).Nodup ∧
      (∀ kv ∈ m, kv.1 ∈ denominations ∧ 1 ≤ kv.2) ∧
      (m.map (fun kv => kv.1 * kv.2)).sum = amount ∧
      (m.map Prod.snd).sum = c := by
  by_cases hz : amount = 0
  · refine ⟨[], 0, by simp [CoinCombination, hz], by simp [MinCoins, hz], by simp, by simp,
      by simp [hz], by simp⟩
  · have hone' : denominations[0]? = some 1 := by
      cases denominations with
      | nil => simp at hone
      | cons d ds => simpa using hone
    have hlen : denominations.length ≠ 0 := by
      have := (List.getElem?_eq_some.mp hone').1
      omega
    have hd0 : denominations.getD 0 0 = 1 := by
      simp [List.getD, hone']
    have hnlt : ¬ amount < 1 := by omega
    obtain ⟨f, hf⟩ : ∃ f, fuel = f + 2 := ⟨fuel - 2, by omega⟩
    obtain ⟨c, hc⟩ := outer_returns fuel denominations hpos hone' f amount 0 hamount (by omega)
    rw [← hf] at hc
    obtain ⟨m, hm, hcoins, htotal, hchange⟩ :=
      outer_sim fuel denominations fuel amount 0 c [] hamount hc
    have hch : IntMap.Change denominations m := hchange ⟨by simp, by simp⟩
    refine ⟨m, c, ?_, ?_, hch.1, hch.2, ?_, ?_⟩
    · unfold CoinCombination
      rw [if_neg hz, if_neg hlen, hd0, if_neg hnlt]
      exact hm
    · unfold MinCoins
      rw [if_neg hz, if_neg hlen, hd0, if_neg hnlt]
      exact hc
    · have := htotal
      simp only [IntMap.total] at this
      simpa using this
    · have := hcoins
      simp only [IntMap.coins] at this
      simpa using this

theorem outer_stuck (limit : Nat) (fuel : Nat) :
    ∀ c : Int, MinCoins.outer limit [2] fuel 1 c = none := by
  induction fuel with
  | zero => intro c; rfl
  | succ fuel ih =>
    intro c
    cases limit with
    | zero => simp [MinCoins.outer, MinCoins.pass, MinCoins.inner]
    | succ limit => simp [MinCoins.outer, MinCoins.pass, MinCoins.inner, ih]

/-- C18, the program against the claim.  For the amount 6 and the ascending
denominations 1, 3, 4 `MinCoins` returns 3 (it takes 4, 1, 1), although the two
coins 3 and 3 make 6.  For the amount 3 and the single denomination 2, which
cannot make 3, it does not return `-1`: whatever number of loop tests it is
allowed, it is still looping on the amount 1. -/
theorem minCoins_not_minimal :
    MinCoins 10 6 [1, 3, 4] = some 3 ∧
      (∃ coins : List Int, (∀ c ∈ coins, c ∈ [1, 3, 4]) ∧ coins.sum = 6 ∧ coins.length = 2) ∧
      ∀ fuel, MinCoins fuel 3 [2] = none := by
  refine ⟨by decide, ⟨[3, 3], by decide, by decide, rfl⟩, ?_⟩
  intro fuel
  cases fuel with
  | zero => decide
  | succ fuel =>
    cases fuel with
    | zero => decide
    | succ fuel =>
      simp [MinCoins, MinCoins.outer, MinCoins.pass, MinCoins.inner, outer_stuck]

/-- The first amount of `main`: 87 cents in U.S. coins is 50 + 25 + 10 + 1 + 1,
and `MinCoins` returns the same count, 5. -/
theorem coinCombination_agrees_witness :
    CoinCombination 100 87 usCoins = some [(50, 1), (25, 1), (10, 1), (1, 2)] ∧
      MinCoins 100 87 usCoins = some 5 ∧
      ∃ m c, CoinCombination 100 87 usCoins = some m ∧ MinCoins 100 87 usCoins = some c ∧
        (m.map Prod.fst).Nodup ∧ (∀ kv ∈ m, kv.1 ∈ usCoins ∧ 1 ≤ kv.2) ∧
        (m.map (fun kv => kv.1 * kv.2)).sum = 87 ∧ (m.map Prod.snd).sum = c :=
  ⟨by decide, by decide,
    coinCombination_agrees 87 usCoins (by decide) (by decide) (by decide) 100 (by decide)⟩

end Challenge22

namespace Challenge6

theorem splitOnP_cons_sep {p : Char → Bool} {c : Char} (cs : List Char) (h : p c = true) :
    (c :: cs).splitOnP p = [] :: cs.splitOnP p := by
  rw [List.splitOnP_cons, if_pos h]

theorem splitOnP_cons_word {p : Char → Bool} {c : Char} (cs : List Char) (h : ¬ p c = true) :
    ∃ w ws, cs.splitOnP p = w :: ws ∧ (c :: cs).splitOnP p = (c :: w) :: ws := by
  rw [List.splitOnP_cons, if_neg h]
  cases hsp : cs.splitOnP p with
  | nil => exact absurd hsp (List.splitOnP_ne_nil _ _)
  | cons w ws => exact ⟨w, ws, rfl, by simp [List.modifyHead]⟩

theorem scan_none (cs : List Char) :
    (Split.scan none cs).filter (fun x => !x.isEmpty) =
        (cs.splitOnP isSep).filter (fun x => !x.isEmpty) ∧
    ∀ piece, ∃ w ws, cs.splitOnP isSep = w :: ws ∧
      (Split.scan (some piece) cs).filter (fun x => !x.isEmpty) =
        ((piece.reverse ++ w) :: ws).filter (fun x => !x.isEmpty) := by
  induction cs with
  | nil =>
    refine ⟨by simp [Split.scan], fun piece => ⟨[], [], by simp, by simp [Split.scan]⟩⟩
  | cons c cs ih =>
    obtain ⟨ihn, ihs⟩ := ih
    by_cases hc : isSep c = true
    · rw [splitOnP_cons_sep cs hc]
      refine ⟨?_, fun piece => ⟨[], cs.splitOnP isSep, rfl, ?_⟩⟩
      · simp only [Split.scan, hc, if_true]
        rw [ihn]
        simp
      · simp only [Split.scan, hc, if_true, List.append_nil]
        rw [List.filter_cons, List.filter_cons, ihn]
    · obtain ⟨w, ws, hsp, hcons⟩ := splitOnP_cons_word (p := isSep) cs hc
      rw [hcons]
      refine ⟨?_, fun piece => ⟨c :: w, ws, rfl, ?_⟩⟩
      · obtain ⟨w', ws', hsp', hscan⟩ := ihs [c]
        rw [hsp] at hsp'
        obtain ⟨rfl, rfl⟩ := List.cons.inj hsp'
        simp only [Split.scan, hc]
        simpa using hscan
      · obtain ⟨w', ws', hsp', hscan⟩ := ihs (c :: piece)
        rw [hsp] at hsp'
        obtain ⟨rfl, rfl⟩ := List.cons.inj hsp'
        simp only [Split.scan, hc]
        simpa using hscan

theorem split_nonempty (text : List Char) :
    (Split text).filter (fun x => !x.isEmpty) =
      (text.splitOnP isSep).filter (fun x => !x.isEmpty) := by
  obtain ⟨w, ws, hsp, hscan⟩ := (scan_none text).2 []
  rw [Split, hscan, hsp]
  simp


theorem splitOnP_filterMap (p : Char → Bool) (g : Char → Option Char)
    (hsome : ∀ c c', g c = some c' → p c' = p c) (hnone : ∀ c, g c = none → p c = false)
    (text : List Char) :
    (text.filterMap g).splitOnP p = (text.splitOnP p).map (List.filterMap g) := by
  induction text with
  | nil => simp
  | cons c cs ih =>
    cases hg : g c with
    | none =>
      have hpc : ¬ p c = true := by simp [hnone c hg]
      obtain ⟨w, ws, hsp, hcons⟩ := splitOnP_cons_word (p := p) cs hpc
      rw [hcons, List.filterMap_cons_none hg, ih, hsp]
      simp [List.filterMap_cons_none hg]
    | some c' =>
      rw [List.filterMap_cons_some hg]
      by_cases hpc : p c = true
      · have hpc' : p c' = true := by rw [hsome c c' hg]; exact hpc
        rw [splitOnP_cons_sep _ hpc', splitOnP_cons_sep _ hpc, ih]
        simp
      · have hpc' : ¬ p c' = true := by rw [hsome c c' hg]; exact hpc
        obtain ⟨w, ws, hsp, hcons⟩ := splitOnP_cons_word (p := p) cs hpc
        obtain ⟨w', ws', hsp', hcons'⟩ := splitOnP_cons_word (p := p) (cs.filterMap g) hpc'
        rw [hcons, hcons']
        rw [ih, hsp] at hsp'
        simp only [List.map_cons] at hsp' ⊢
        obtain ⟨rfl, rfl⟩ := List.cons.inj hsp'
        simp [List.filterMap_cons_some hg]

theorem splitOnP_congr_mem (p q : Char → Bool) (text : List Char)
    (h : ∀ c ∈ text, p c = q c) : text.splitOnP p = text.splitOnP q := by
  induction text with
  | nil => simp
  | cons c cs ih =>
    have hc := h c (List.mem_cons_self _ _)
    have ih' := ih (fun x hx => h x (List.mem_cons_of_mem _ hx))
    rw [List.splitOnP_cons, List.splitOnP_cons, hc, ih']


/-! ### Characters -/

theorem upper_mem (c : Char) (h : c.toNat ≥ 65 ∧ c.toNat ≤ 90) :
    c ∈ "ABCDEFGHIJKLMNOPQRSTUVWXYZ".toList := by
  have hc : c = Char.ofNat c.toNat := (Char.ofNat_toNat c).symm
  obtain ⟨h1, h2⟩ := h
  generalize c.toNat = n at hc h1 h2
  subst hc
  interval_cases n <;> decide

theorem char_cases (P : Char → Prop)
    (hupper : ∀ c ∈ "ABCDEFGHIJKLMNOPQRSTUVWXYZ".toList, P c)
    (hother : ∀ c, c.toLower = c → c.isUpper = false → P c) : ∀ c, P c := by
  intro c
  by_cases h : c.toNat ≥ 65 ∧ c.toNat ≤ 90
  · exact hupper c (upper_mem c h)
  · refine hother c ?_ ?_
    · simp only [Char.toLower]
      rw [if_neg h]
    · simp only [Char.isUpper, Char.toNat, ge_iff_le, UInt32.le_def, Bool.and_eq_false_imp,
        decide_eq_true_eq, decide_eq_false_iff_not] at h ⊢
      intro h1 h2
      exact h ⟨h1, h2⟩

theorem isSep_toLower : ∀ c : Char, isSep c.toLower = isSep c := by
  apply char_cases
  · decide
  · intro c h _; rw [h]

theorem toLower_eq_apostrophe : ∀ c : Char, c.toLower = apostrophe ↔ c = apostrophe := by
  apply char_cases
  · decide
  · intro c h _; rw [h]

theorem toLower_lower_or_digit :
    ∀ c : Char, c.isAlphanum = true → c.toLower.isLower = true ∨ c.toLower.isDigit = true := by
  apply char_cases
  · decide
  · intro c h hup halnum
    rw [h]
    simp only [Char.isAlphanum, Char.isAlpha, hup, Bool.false_or, Bool.or_eq_true] at halnum
    exact halnum

theorem not_alnum_of_sep (c : Char) (h : isSep c = true ∨ c = apostrophe) :
    c.isAlphanum = false := by
  simp only [isSep, Bool.or_eq_true, decide_eq_true_eq] at h
  rcases h with (((((((rfl | rfl) | rfl) | rfl) | rfl) | rfl) | rfl) | rfl) | rfl <;> decide

/-! ### The map -/

theorem find_set (m : StrMap) (k k' : List Char) (v : Int) :
    (m.set k v).find k' = if k = k' then some v else m.find k' := by
  induction m with
  | nil => simp [StrMap.set, StrMap.find]
  | cons kv rest ih =>
    obtain ⟨k0, v0⟩ := kv
    by_cases h0 : k0 = k
    · subst h0
      by_cases h1 : k0 = k' <;> simp [StrMap.set, StrMap.find, h1]
    · by_cases h1 : k0 = k'
      · subst h1
        simp only [StrMap.set, StrMap.find, h0, if_false, if_true]
        rw [if_neg (fun e => h0 e.symm)]
      · simp [StrMap.set, StrMap.find, h0, h1, ih]

theorem keys_set (m : StrMap) (k : List Char) (v : Int) :
    (m.set k v).map Prod.fst =
      if k ∈ m.map Prod.fst then m.map Prod.fst else m.map Prod.fst ++ [k] := by
  induction m with
  | nil => simp [StrMap.set]
  | cons kv rest ih =>
    obtain ⟨k0, v0⟩ := kv
    by_cases h0 : k0 = k
    · simp [StrMap.set, h0]
    · have h0' : ¬ k = k0 := fun e => h0 e.symm
      simp only [StrMap.set, h0, if_false, List.map_cons, ih, List.mem_cons, h0', false_or]
      split_ifs <;> simp

theorem find_eq_none (m : StrMap) (k : List Char) :
    m.find k = none ↔ k ∉ m.map Prod.fst := by
  induction m with
  | nil => simp [StrMap.find]
  | cons kv rest ih =>
    obtain ⟨k0, v0⟩ := kv
    by_cases h0 : k0 = k
    · simp [StrMap.find, h0]
    · have h0' : ¬ k = k0 := fun e => h0 e.symm
      simp [StrMap.find, h0, h0', ih]

theorem nodup_set {m : StrMap} (hm : (m.map Prod.fst).Nodup) (k : List Char) (v : Int) :
    ((m.set k v).map Prod.fst).Nodup := by
  rw [keys_set]
  split_ifs with h
  · exact hm
  · exact List.Nodup.append hm (List.nodup_singleton k) (by simpa using h)

theorem loop_nodup (pieces : List (List Char)) :
    ∀ (r : StrMap), (r.map Prod.fst).Nodup →
      ((CountWordFrequency.loop r pieces).map Prod.fst).Nodup := by
  induction pieces with
  | nil => intro r hr; exact hr
  | cons t ts ih =>
    intro r hr
    simp only [CountWordFrequency.loop]
    cases hf : r.find t with
    | none =>
      simp only
      split_ifs
      · exact ih r hr
      · exact ih _ (nodup_set hr t 1)
    | some v => exact ih _ (nodup_set hr t (v + 1))

theorem loop_find (pieces : List (List Char)) :
    ∀ (r : StrMap) (k : List Char), r.find [] = none →
      (CountWordFrequency.loop r pieces).find k =
        match r.find k with
        | some v => some (v + ((pieces.filter (fun x => !x.isEmpty)).count k : Nat))
        | none =>
          if (pieces.filter (fun x => !x.isEmpty)).count k = 0 then none
          else some (((pieces.filter (fun x => !x.isEmpty)).count k : Nat) : Int) := by
  induction pieces with
  | nil =>
    intro r k _
    cases hk : r.find k <;> simp [CountWordFrequency.loop, hk]
  | cons t ts ih =>
    intro r k hr
    simp only [CountWordFrequency.loop]
    cases hf : r.find t with
    | none =>
      simp only
      by_cases ht : t = []
      · subst ht
        simp only [List.length_nil, if_true]
        rw [ih r k hr]
        simp
      · have hlen : ¬ t.length = 0 := by simpa using ht
        have hfil : (t :: ts).filter (fun x => !x.isEmpty) =
            t :: ts.filter (fun x => !x.isEmpty) := by simp [ht]
        rw [if_neg hlen, ih (r.set t 1) k (by rw [find_set, if_neg ht]; exact hr), find_set,
          hfil]
        by_cases hkt : t = k
        · subst hkt
          simp [hf]
          ring
        · have hkt' : (t == k) = false := by simpa using hkt
          rw [if_neg hkt, List.count_cons, hkt']
          simp
    | some v =>
      simp only
      have ht : t ≠ [] := by
        intro hc; subst hc; rw [hr] at hf; exact absurd hf (by simp)
      have hfil : (t :: ts).filter (fun x => !x.isEmpty) =
          t :: ts.filter (fun x => !x.isEmpty) := by simp [ht]
      rw [ih (r.set t (v + 1)) k (by rw [find_set, if_neg ht]; exact hr), find_set, hfil]
      by_cases hkt : t = k
      · subst hkt
        simp [hf]
        ring
      · have hkt' : (t == k) = false := by simpa using hkt
        rw [if_neg hkt, List.count_cons, hkt']
        simp

/-! ### From the pieces to the words -/

theorem pipeline_eq (text : List Char) :
    dropApostrophes (ToLower text) = text.filterMap keep := by
  induction text with
  | nil => rfl
  | cons c cs ih =>
    by_cases h : c.toLower = apostrophe
    · simpa [dropApostrophes, ToLower, keep, h] using ih
    · simpa [dropApostrophes, ToLower, keep, h] using ih

theorem normalize_eq (w : List Char) : normalize w = w.filterMap keep := by
  induction w with
  | nil => rfl
  | cons c cs ih =>
    by_cases h : c = apostrophe
    · have h' : c.toLower = apostrophe := (toLower_eq_apostrophe c).2 h
      have hk : keep c = none := by simp [keep, h']
      rw [List.filterMap_cons_none hk, ← ih]
      simp [normalize, h]
    · have h' : ¬ c.toLower = apostrophe := fun e => h ((toLower_eq_apostrophe c).1 e)
      have hk : keep c = some c.toLower := by simp [keep, h']
      rw [List.filterMap_cons_some hk, ← ih]
      simp [normalize, h]

theorem keep_some (c c' : Char) (h : keep c = some c') : isSep c' = isSep c := by
  simp only [keep] at h
  split_ifs at h
  simp only [Option.some.injEq] at h
  rw [← h, isSep_toLower]

theorem keep_none (c : Char) (h : keep c = none) : isSep c = false := by
  simp only [keep] at h
  split_ifs at h with h'
  have hc : c = apostrophe := (toLower_eq_apostrophe c).1 h'
  subst hc
  decide

theorem splitOnP_mem (p : Char → Bool) (text : List Char) :
    ∀ w ∈ text.splitOnP p, ∀ c ∈ w, c ∈ text ∧ p c = false := by
  induction text with
  | nil => simp
  | cons x xs ih =>
    intro w hw c hc
    by_cases hx : p x = true
    · rw [splitOnP_cons_sep xs hx] at hw
      rcases List.mem_cons.mp hw with h | h
      · subst h; simp at hc
      · exact ⟨List.mem_cons_of_mem _ (ih w h c hc).1, (ih w h c hc).2⟩
    · obtain ⟨w0, ws, hsp, hcons⟩ := splitOnP_cons_word (p := p) xs hx
      rw [hcons] at hw
      rcases List.mem_cons.mp hw with h | h
      · subst h
        rcases List.mem_cons.mp hc with h1 | h1
        · subst h1
          exact ⟨List.mem_cons_self _ _, by simpa using hx⟩
        · have := ih w0 (by rw [hsp]; exact List.mem_cons_self _ _) c h1
          exact ⟨List.mem_cons_of_mem _ this.1, this.2⟩
      · have := ih w (by rw [hsp]; exact List.mem_cons_of_mem _ h) c hc
        exact ⟨List.mem_cons_of_mem _ this.1, this.2⟩

theorem pieces_eq_words (text : List Char)
    (hclean : ∀ c ∈ text, c.isAlphanum = true ∨ c = apostrophe ∨ isSep c = true) :
    (Split (dropApostrophes (ToLower text))).filter (fun x => !x.isEmpty) = words text := by
  have hpred : ∀ c ∈ text, isSep c = (fun c => !isWordChar c) c := by
    intro c hc
    simp only [isWordChar]
    rcases hclean c hc with h | h | h
    · have hs : isSep c = false := by
        by_contra hcon
        have := not_alnum_of_sep c (Or.inl (by simpa using hcon))
        rw [h] at this
        exact absurd this (by simp)
      simp [hs, h]
    · subst h; decide
    · have := not_alnum_of_sep c (Or.inl h)
      have hne : c ≠ apostrophe := by
        intro hc'; subst hc'; revert h; decide
      simp [h, this, hne]
  rw [split_nonempty, pipeline_eq, splitOnP_filterMap isSep keep keep_some keep_none,
    splitOnP_congr_mem isSep _ text hpred]
  simp only [words]
  congr 1
  exact List.map_congr_left (fun w _ => (normalize_eq w).symm)

/-- C20, the claim as stated fails.  In `don't` the runs of letters are `don` and
`t`, but the only key returned is `dont`: the apostrophe is deleted, it does not
separate.  In `a;b` the runs are `a` and `b`, but the only key is `a;b`: only
the characters of the expression separate. -/
theorem countWordFrequency_counterexample :
    CountWordFrequency dontText = [("dont".toList, 1)] ∧
      runsOfLettersAndDigits dontText = ["don".toList, "t".toList] ∧
      CountWordFrequency "a;b".toList = [("a;b".toList, 1)] ∧
      runsOfLettersAndDigits "a;b".toList = ["a".toList, "b".toList] ∧
      ¬ (∀ k, k ∈ (CountWordFrequency dontText).map Prod.fst ↔
          k ∈ runsOfLettersAndDigits dontText) := by
  refine ⟨by decide, by decide, by decide, by decide, ?_⟩
  intro h
  have := (h "dont".toList).1 (by decide)
  revert this
  decide

/-- C20, amended.  Let the text consist of letters, digits, apostrophes and the
characters space, `.`, `,`, tab, newline, `?`, `!`, `-`.  The map returned has
distinct keys; its keys are exactly the words of the text, that is the non-empty
lower-case forms, apostrophes deleted, of the maximal runs of letters, digits
and apostrophes; each key is mapped to the number of runs with that form; and
every key is non-empty and made of lower-case letters and digits only. -/
theorem countWordFrequency_counts (text : List Char)
    (hclean : ∀ c ∈ text, c.isAlphanum = true ∨ c = apostrophe ∨ isSep c = true) :
    ((CountWordFrequency text).map Prod.fst).Nodup ∧
      (∀ k, (CountWordFrequency text).find k =
        if (words text).count k = 0 then none else some (((words text).count k : Nat) : Int)) ∧
      (∀ k, k ∈ (CountWordFrequency text).map Prod.fst ↔ k ∈ words text) ∧
      (∀ k ∈ (CountWordFrequency text).map Prod.fst,
        k ≠ [] ∧ ∀ c ∈ k, c.isLower = true ∨ c.isDigit = true) := by
  have hfind : ∀ k, (CountWordFrequency text).find k =
      if (words text).count k = 0 then none else some (((words text).count k : Nat) : Int) := by
    intro k
    have := loop_find (Split (dropApostrophes (ToLower text))) [] k rfl
    rw [pieces_eq_words text hclean] at this
    simpa [CountWordFrequency, StrMap.find] using this
  have hkeys : ∀ k, k ∈ (CountWordFrequency text).map Prod.fst ↔ k ∈ words text := by
    intro k
    have h1 := find_eq_none (CountWordFrequency text) k
    rw [hfind k] at h1
    by_cases hc : (words text).count k = 0
    · rw [if_pos hc] at h1
      have hnot : k ∉ words text := List.count_eq_zero.mp hc
      constructor
      · intro hk; exact absurd hk (h1.1 rfl)
      · intro hk; exact absurd hk hnot
    · rw [if_neg hc] at h1
      have hin : k ∈ words text := by
        by_contra hcon
        exact hc (List.count_eq_zero.mpr hcon)
      constructor
      · intro _; exact hin
      · intro _
        by_contra hcon
        exact absurd (h1.2 hcon) (by simp)
  refine ⟨loop_nodup _ [] (by simp), hfind, hkeys, ?_⟩
  intro k hk
  have hw := (hkeys k).1 hk
  simp only [words, List.mem_filter, List.mem_map] at hw
  obtain ⟨⟨w, hwmem, hnorm⟩, hne⟩ := hw
  refine ⟨by simpa using hne, ?_⟩
  intro c hc
  rw [← hnorm] at hc
  simp only [normalize, List.mem_map, List.mem_filter] at hc
  obtain ⟨c0, ⟨hc0, _⟩, rfl⟩ := hc
  have hprop := splitOnP_mem _ text w hwmem c0 hc0
  have hword : isWordChar c0 = true := by simpa using hprop.2
  simp only [isWordChar, Bool.or_eq_true, decide_eq_true_eq] at hword
  rcases hword with h | h
  · exact toLower_lower_or_digit c0 h
  · rename_i hne'
    simp at hne'
    exact absurd h hne'

/-- The example of the comment: `the` is counted twice and every other word
once. -/
theorem countWordFrequency_counts_witness :
    CountWordFrequency docText =
        [("the".toList, 2), ("quick".toList, 1), ("brown".toList, 1), ("fox".toList, 1),
         ("jumps".toList, 1), ("over".toList, 1), ("lazy".toList, 1), ("dog".toList, 1)] ∧
      (CountWordFrequency docText).find "the".toList = some 2 ∧
      (CountWordFrequency docText).find "fox".toList = some 1 := by
  have key := (countWordFrequency_counts docText (by decide)).2.1
  refine ⟨by decide, ?_, ?_⟩
  · rw [key]; decide
  · rw [key]; decide

end Challenge6

namespace Challenge2

theorem reverse_loop_spec (s : List Byte) (n : Nat) :
    ∀ (k : Nat) (sByte : List Byte), n + k = s.length → sByte.length = s.length →
      ∃ r, ReverseString.loop s sByte (k : Int) = some r ∧ r.length = s.length ∧
        ∀ j, j < s.length →
          r[j]? = if j + k < s.length then s[s.length - 1 - j]? else sByte[j]? := by
  induction n with
  | zero =>
    intro k sByte hk hlen
    refine ⟨sByte, ?_, hlen, ?_⟩
    · rw [ReverseString.loop]
      simp
      omega
    · intro j hj
      rw [if_neg (by omega)]
  | succ n ih =>
    intro k sByte hk hlen
    have hklt : k < s.length := by omega
    have hload : byteAt s (k : Int) = some s[k] := by
      simp [byteAt, List.getElem?_eq_getElem hklt]
    have hidx : ((s.length : Int) - k - 1).toNat = s.length - 1 - k := by omega
    have hstore : store sByte ((s.length : Int) - k - 1) s[k] =
        some (sByte.set (s.length - 1 - k) s[k]) := by
      unfold store
      rw [if_pos ⟨by omega, by omega⟩, hidx]
    obtain ⟨r, hr, hrlen, hrget⟩ := ih (k + 1) (sByte.set (s.length - 1 - k) s[k])
      (by omega) (by simp [hlen])
    refine ⟨r, ?_, hrlen, ?_⟩
    · rw [ReverseString.loop]
      have hcond : (k : Int) < s.length := by omega
      simp only [hcond, dite_true, hload, hstore]
      exact_mod_cast hr
    · intro j hj
      rw [hrget j hj]
      by_cases h1 : j + (k + 1) < s.length
      · rw [if_pos h1, if_pos (by omega)]
      · rw [if_neg h1]
        by_cases h2 : j + k < s.length
        · have hjk : s.length - 1 - k = j := by omega
          have hkj : s.length - 1 - j = k := by omega
          rw [if_pos h2, hjk, hkj, List.getElem?_set_self (by omega),
            List.getElem?_eq_getElem hklt]
        · rw [if_neg h2, List.getElem?_set_ne (by omega)]

theorem reverseString_eq (s : List Byte) : ReverseString s = some s.reverse := by
  obtain ⟨r, hr, hrlen, hrget⟩ :=
    reverse_loop_spec s s.length 0 (List.replicate s.length 0) (by omega) (by simp)
  have hrev : r = s.reverse := by
    apply List.ext_getElem?
    intro j
    by_cases hj : j < s.length
    · rw [hrget j hj, if_pos (by omega), List.getElem?_reverse hj]
    · rw [List.getElem?_eq_none (by omega), List.getElem?_eq_none (by simp; omega)]
  rw [ReverseString]
  rw [← hrev]
  exact_mod_cast hr

/-- C21 (`ReverseString`).  For every string `s`, taken as its sequence of bytes,
`ReverseString(s)` returns a string (no access is out of range; the loop ends,
being defined by recursion on `len(s) - i`) of the length of `s` whose byte at
every position `i < len(s)` is the byte of `s` at position `len(s) - 1 - i`;
and `ReverseString` applied to the result returns `s`. -/
theorem reverseString_reverses (s : List Byte) :
    ∃ r, ReverseString s = some r ∧ r.length = s.length ∧
      (∀ i, i < s.length → r[i]? = s[s.length - 1 - i]?) ∧
      ReverseString r = some s := by
  refine ⟨s.reverse, reverseString_eq s, by simp, ?_, ?_⟩
  · intro i hi
    exact List.getElem?_reverse hi
  · rw [reverseString_eq, List.reverse_reverse]

/-- The bytes of `hello` come back as those of `olleh`, and reversing again
gives `hello`. -/
theorem reverseString_reverses_witness :
    ReverseString hello = some [111, 108, 108, 101, 104] ∧
      ∃ r, ReverseString hello = some r ∧ r.length = hello.length ∧
        (∀ i, i < hello.length → r[i]? = hello[hello.length - 1 - i]?) ∧
        ReverseString r = some hello := by
  refine ⟨?_, reverseString_reverses hello⟩
  simp only [ReverseString, hello]
  rw [ReverseString.loop]; simp [byteAt, store]
  rw [ReverseString.loop]; simp [byteAt, store]
  rw [ReverseString.loop]; simp [byteAt, store]
  rw [ReverseString.loop]; simp [byteAt, store]
  rw [ReverseString.loop]; simp [byteAt, store]
  rw [ReverseString.loop]; simp [byteAt, store]

end Challenge2
